import Mathlib

/-!
# BitcoinNode: the incremental frame decoder of `src/stream.js`

A shallow embedding of `BitcoinStream` (the decoder `processStream`, the
checksum test `receivedBody`, and the ingest queue `push` / `processLoop` /
`destroy`), followed by theorems about it.

Conventions of the embedding.

* A `Buffer` is a list of bytes; a byte is a `Fin 256`.
* The object's mutable fields are the fields of the record `BitcoinStream`;
  every method takes the record and returns the new one.  The extra field
  `emitted` is a trace: the notifications passed to `emit`, oldest first.
* `throw` is a result constructor that carries the state reached when the
  exception left the function (the writes done before a `throw` persist).
* The listeners registered on the emitter are the functions `onMessage` and
  `onStreamError` of `Env`: given the notifications emitted before the current
  one and the current payload they return the calls the listener makes on the
  stream while it runs.  A `message` listener may call `push` and `destroy`, a
  `streamError` listener may call `push`.
* `crypto`'s SHA-256 and `Buffer.prototype.toString` are library code: they are
  the fields `hashRaw` and `bufToString` of `Env`, and every theorem holds for
  all of their values.  The examples run with `sha256`, defined below.
* Loops that the source writes as `for (;;)` / `while` take a fuel argument and
  answer `timeout` / `none` when it runs out.
-/

namespace BitcoinNode

/-! ## Buffers -/

abbrev Byte := Fin 256

abbrev Buffer := List Byte

/-- Clamping of a relative index, as `TypedArray.prototype.subarray` does it:
a negative index counts from the end, and the result lies in `[0, len]`. -/
def relIndex (len : Nat) (i : Int) : Nat :=
  if i < 0 then (len + i).toNat else min i.toNat len

/-- The method `buf.subarray(start, stop)`. -/
def subarray (buf : Buffer) (start stop : Int) : Buffer :=
  (buf.drop (relIndex buf.length start)).take
    (relIndex buf.length stop - relIndex buf.length start)

/-- The method `buf.subarray(start)`: the end defaults to the length. -/
def subarrayFrom (buf : Buffer) (start : Int) : Buffer :=
  subarray buf start buf.length

/-- The method `target.set(src, offset)`: it throws a `RangeError` (here `none`)
when the source does not fit at that offset. -/
def bufSet (target src : Buffer) (offset : Nat) : Option Buffer :=
  if offset + src.length ≤ target.length then
    some (target.take offset ++ src ++ target.drop (offset + src.length))
  else none

/-- The pair `Buffer.alloc(n)` then `src.copy(dst)`: a zero-filled buffer of
`n` bytes whose start is overwritten by the start of `src`. -/
def allocCopy (src : Buffer) (n : Nat) : Buffer :=
  src.take n ++ List.replicate (n - src.length) 0

/-- The method `buf.readUInt32LE(offset)` on a buffer that holds the four bytes. -/
def readUInt32LE (buf : Buffer) (offset : Nat) : Nat :=
  (buf.getD offset 0).val + (buf.getD (offset + 1) 0).val * 2 ^ 8
    + (buf.getD (offset + 2) 0).val * 2 ^ 16 + (buf.getD (offset + 3) 0).val * 2 ^ 24

/-! ## Constants and data -/

def MAGIC_BYTE : Nat := 0xD9B4BEF9

def MAX_PAYLOAD_LENGTH : Nat := 2048

def NO_PAYLOAD : Buffer := []

/-- The values that can leave `processStream` by `throw`: the three entries of
the table `Errors`, and the `RangeError` of a `set` outside its buffer. -/
inductive Errors
  | UnsupportedNetwork
  | PayloadExceedsLimit
  | InvalidChecksum
  | RangeError
  deriving DecidableEq, Repr

/-- The payload of a `message` notification. -/
structure Message where
  command : String
  body : Buffer
  deriving DecidableEq, Repr

/-- A call of `emit`. -/
inductive Event
  | message (m : Message)
  | streamError (e : Errors)
  deriving DecidableEq, Repr

/-- A call that a listener makes on the stream. -/
inductive Action
  | push (packet : Buffer)
  | destroy (e : Errors)
  deriving DecidableEq, Repr

/-- The fields of a `BitcoinStream` object, and the trace `emitted`. -/
structure BitcoinStream where
  queue : List Buffer
  busy : Bool
  destroyed : Bool
  header : Buffer
  headerPos : Nat
  body : Buffer
  bodySize : Option Nat
  bodyPos : Nat
  emitted : List Event
  deriving DecidableEq, Repr

/-- What the class is linked with: the hash, the text decoding, the listeners. -/
structure Env where
  hashRaw : Buffer → Buffer
  bufToString : Buffer → String
  onMessage : List Event → Message → List Action
  onStreamError : List Event → Errors → List Buffer

/-- How a call of `processStream` (or of one pass of its loop) ends. -/
inductive Completion
  | normal (s : BitcoinStream)
  | throw (e : Errors) (s : BitcoinStream)
  | timeout
  deriving DecidableEq, Repr

/-- How one pass of the loop of `processStream` ends. -/
inductive Pass
  | continue (s : BitcoinStream) (nextData : Buffer)
  | break (s : BitcoinStream)
  | throw (e : Errors) (s : BitcoinStream)
  | timeout
  deriving DecidableEq, Repr

/-! ## The functions of `stream.js` -/

def doubleHash (env : Env) (input : Buffer) : Buffer :=
  env.hashRaw (env.hashRaw input)

def BufferToString (env : Env) (buf : Buffer) : String :=
  match buf.findIdx? (fun b => b == 0) with
  | none => env.bufToString buf
  | some Index => env.bufToString (subarray buf 0 Index)

/-- The constructor. -/
def BitcoinStream.new : BitcoinStream where
  queue := []
  busy := false
  destroyed := false
  header := List.replicate 24 0
  headerPos := 0
  body := List.replicate MAX_PAYLOAD_LENGTH 0
  bodySize := none
  bodyPos := 0
  emitted := []

def newMessage (s : BitcoinStream) : BitcoinStream :=
  { s with headerPos := 0, bodyPos := 0 }

/-- The method `push`, with `processLoop` passed as `reenter`. -/
def pushWith (reenter : BitcoinStream → Buffer → Option BitcoinStream)
    (s : BitcoinStream) (packet : Buffer) : Option BitcoinStream :=
  if s.busy then some { s with queue := s.queue ++ [packet] }
  else reenter s packet

/-- The call `this.emit('streamError', e)`: the notification is recorded and the
listener runs, making its calls of `push` one after the other. -/
def emitStreamError (env : Env) (reenter : BitcoinStream → Buffer → Option BitcoinStream)
    (s : BitcoinStream) (e : Errors) : Option BitcoinStream :=
  (env.onStreamError s.emitted e).foldlM (pushWith reenter)
    { s with emitted := s.emitted ++ [Event.streamError e] }

/-- The method `destroy`. -/
def destroy (env : Env) (reenter : BitcoinStream → Buffer → Option BitcoinStream)
    (s : BitcoinStream) (e : Errors) : Option BitcoinStream :=
  emitStreamError env reenter { s with destroyed := true, busy := true, queue := [] } e

/-- One call made by a `message` listener. -/
def runAction (env : Env) (reenter : BitcoinStream → Buffer → Option BitcoinStream)
    (s : BitcoinStream) : Action → Option BitcoinStream
  | Action.push packet => pushWith reenter s packet
  | Action.destroy e => destroy env reenter s e

/-- The call `this.emit('message', m)`. -/
def emitMessage (env : Env) (reenter : BitcoinStream → Buffer → Option BitcoinStream)
    (s : BitcoinStream) (m : Message) : Option BitcoinStream :=
  (env.onMessage s.emitted m).foldlM (runAction env reenter)
    { s with emitted := s.emitted ++ [Event.message m] }

def receivedBody (env : Env) (reenter : BitcoinStream → Buffer → Option BitcoinStream)
    (s : BitcoinStream) (messageBody : Buffer) : Completion :=
  let checksum := subarray (doubleHash env messageBody) 0 4
  if checksum ≠ subarray s.header 20 24 then Completion.throw Errors.InvalidChecksum s
  else
    match emitMessage env reenter s
        { command := BufferToString env (subarray s.header 4 16), body := messageBody } with
    | none => Completion.timeout
    | some s1 => Completion.normal (newMessage s1)

/-- What follows a completed frame or header inside the loop of `processStream`:
`nextData = nextData.subarray(ptr)`, then `continue` when bytes are left, else
the `break` at the end of the loop body. -/
def advance (r : Completion) (nextData : Buffer) (ptr : Int) : Pass :=
  match r with
  | Completion.normal s =>
    if (subarrayFrom nextData ptr).length > 0 then Pass.continue s (subarrayFrom nextData ptr)
    else Pass.break s
  | Completion.throw e s => Pass.throw e s
  | Completion.timeout => Pass.timeout

/-- One pass of the `for (;;)` loop of `processStream`. -/
def pass (env : Env) (reenter : BitcoinStream → Buffer → Option BitcoinStream)
    (s : BitcoinStream) (nextData : Buffer) : Pass :=
  if s.headerPos = 24 then
    let bodyPtr : Int := ((s.bodySize.getD 0 : Nat) : Int) - (s.bodyPos : Int)
    let body := subarray nextData 0 bodyPtr
    match bufSet s.body body s.bodyPos with
    | none => Pass.throw Errors.RangeError s
    | some buf =>
      let s1 := { s with body := buf, bodyPos := s.bodyPos + body.length }
      if s1.bodySize = some s1.bodyPos then
        let messageBody := allocCopy s1.body s1.bodyPos
        advance (receivedBody env reenter s1 messageBody) nextData bodyPtr
      else Pass.break s1
  else
    let headerPtr : Int := 24 - (s.headerPos : Int)
    let header := subarray nextData 0 headerPtr
    match bufSet s.header header s.headerPos with
    | none => Pass.throw Errors.RangeError s
    | some buf =>
      let s1 := { s with header := buf, headerPos := s.headerPos + header.length }
      if s1.headerPos = 24 then
        if readUInt32LE s1.header 0 ≠ MAGIC_BYTE then
          Pass.throw Errors.UnsupportedNetwork s1
        else
          let BodySize := readUInt32LE s1.header 16
          if BodySize > MAX_PAYLOAD_LENGTH then Pass.throw Errors.PayloadExceedsLimit s1
          else if BodySize = 0 then
            advance (receivedBody env reenter s1 NO_PAYLOAD) nextData headerPtr
          else
            advance (Completion.normal { s1 with bodySize := some BodySize }) nextData headerPtr
      else Pass.break s1

/-- The `for (;;)` loop of `processStream`, at most `fuel` passes. -/
def processStreamLoop (env : Env) (reenter : BitcoinStream → Buffer → Option BitcoinStream) :
    Nat → BitcoinStream → Buffer → Completion
  | 0, _, _ => Completion.timeout
  | fuel + 1, s, nextData =>
    match pass env reenter s nextData with
    | Pass.continue s1 rest => processStreamLoop env reenter fuel s1 rest
    | Pass.break s1 => Completion.normal s1
    | Pass.throw e s1 => Completion.throw e s1
    | Pass.timeout => Completion.timeout

/-- The function `processStream`.  A pass that continues has consumed a byte
whenever the positions are inside their buffers, so `data.length + 1` passes
are given. -/
def processStream (env : Env) (reenter : BitcoinStream → Buffer → Option BitcoinStream)
    (s : BitcoinStream) (data : Buffer) : Completion :=
  if s.destroyed then Completion.normal s
  else processStreamLoop env reenter (data.length + 1) s data

/-- The `while (nextPacket)` loop of `processLoop`, entered with a packet (a
buffer is truthy, also when empty).  The second component of the result is the
exception the `catch` clause received, if the loop ended there.  A `push` made
by a listener while `busy` is unset enters `processLoop` again: that is
`reenter`, with one unit of fuel less. -/
def drain (env : Env) : Nat → BitcoinStream → Buffer → Option (BitcoinStream × Option Errors)
  | 0, _, _ => none
  | fuel + 1, s, nextPacket =>
    let reenter : BitcoinStream → Buffer → Option BitcoinStream :=
      fun t p => (drain env fuel { t with busy := true } p).map Prod.fst
    match processStream env reenter s nextPacket with
    | Completion.timeout => none
    | Completion.throw e s1 => (destroy env reenter s1 e).map (fun s2 => (s2, some e))
    | Completion.normal s1 =>
      match s1.queue with
      | [] => some ({ s1 with busy := false }, none)
      | p :: rest => drain env fuel { s1 with queue := rest } p

/-- The method `processLoop`. -/
def processLoop (env : Env) (fuel : Nat) (s : BitcoinStream) (packet : Buffer) :
    Option (BitcoinStream × Option Errors) :=
  drain env fuel { s with busy := true } packet

/-- The method `push`, called from outside. -/
def push (env : Env) (fuel : Nat) (s : BitcoinStream) (packet : Buffer) : Option BitcoinStream :=
  pushWith (fun t p => (processLoop env fuel t p).map Prod.fst) s packet

/-- Successive calls of `push`, one per chunk. -/
def pushAll (env : Env) (fuel : Nat) (s : BitcoinStream) (chunks : List Buffer) :
    Option BitcoinStream :=
  chunks.foldlM (push env fuel) s

/-! ## Definitions used to state and prove the theorems -/

/-- The buffer `buf` after `src` is written at `off`. -/
def splice (buf src : Buffer) (off : Nat) : Buffer :=
  buf.take off ++ src ++ buf.drop (off + src.length)

def need (s : BitcoinStream) : Nat :=
  if s.headerPos = 24 then s.bodySize.getD 0 - s.bodyPos else 24 - s.headerPos

def absorb (s : BitcoinStream) (d : Buffer) : BitcoinStream :=
  if s.headerPos = 24 then
    { s with body := splice s.body d s.bodyPos, bodyPos := s.bodyPos + d.length }
  else { s with header := splice s.header d s.headerPos, headerPos := s.headerPos + d.length }

def completeHeader (env : Env) (reenter : BitcoinStream → Buffer → Option BitcoinStream)
    (s1 : BitcoinStream) : Completion :=
  if readUInt32LE s1.header 0 ≠ MAGIC_BYTE then Completion.throw Errors.UnsupportedNetwork s1
  else if readUInt32LE s1.header 16 > MAX_PAYLOAD_LENGTH then
    Completion.throw Errors.PayloadExceedsLimit s1
  else if readUInt32LE s1.header 16 = 0 then receivedBody env reenter s1 NO_PAYLOAD
  else Completion.normal { s1 with bodySize := some (readUInt32LE s1.header 16) }

def completeBody (env : Env) (reenter : BitcoinStream → Buffer → Option BitcoinStream)
    (s1 : BitcoinStream) : Completion :=
  receivedBody env reenter s1 (allocCopy s1.body s1.bodyPos)

def complete (env : Env) (reenter : BitcoinStream → Buffer → Option BitcoinStream)
    (inBody : Bool) (s1 : BitcoinStream) : Completion :=
  if inBody then completeBody env reenter s1 else completeHeader env reenter s1

def advanceN (r : Completion) (rest : Buffer) : Pass :=
  match r with
  | Completion.normal s => if rest.length > 0 then Pass.continue s rest else Pass.break s
  | Completion.throw e s => Pass.throw e s
  | Completion.timeout => Pass.timeout

structure Inv (s : BitcoinStream) : Prop where
  header_len : s.header.length = 24
  body_len : s.body.length = MAX_PAYLOAD_LENGTH
  hp_le : s.headerPos ≤ 24
  in_body : s.headerPos = 24 →
    ∃ L, s.bodySize = some L ∧ L ≤ MAX_PAYLOAD_LENGTH ∧ s.bodyPos < L
  in_header : s.headerPos < 24 → s.bodyPos = 0

/-- The listeners make no call on the stream. -/
def Quiet (env : Env) : Prop :=
  (∀ h m, env.onMessage h m = []) ∧ (∀ h e, env.onStreamError h e = [])

/-- The environment `env` with listeners that make no call on the stream. -/
def Env.quiet (env : Env) : Env :=
  { env with onMessage := fun _ _ => [], onStreamError := fun _ _ => [] }

/-- The state `t` comes after `s` in a run that touched neither the queue nor the
flags: the trace of `t` extends the trace of `s`. -/
structure Extends (s t : BitcoinStream) : Prop where
  queue_eq : t.queue = s.queue
  busy_eq : t.busy = s.busy
  destroyed_eq : t.destroyed = s.destroyed
  emitted_ext : ∃ new, t.emitted = s.emitted ++ new

/-- Sequencing of two runs: the second starts where the first ended normally. -/
def Completion.andThen (c : Completion) (k : BitcoinStream → Completion) : Completion :=
  match c with
  | Completion.normal t => k t
  | Completion.throw e t => Completion.throw e t
  | Completion.timeout => Completion.timeout

/-- The result of a pass over `a`, when `b` follows `a` in the chunk. -/
def Pass.followedBy (p : Pass) (b : Buffer) : Pass :=
  match p with
  | Pass.continue t rest => Pass.continue t (rest ++ b)
  | Pass.break t => if b.length > 0 then Pass.continue t b else Pass.break t
  | Pass.throw e t => Pass.throw e t
  | Pass.timeout => Pass.timeout

/-- A stream between two calls of `push`, not destroyed: the positions are inside
their buffers, nothing is being processed and nothing is queued. -/
structure Idle (s : BitcoinStream) : Prop where
  inv : Inv s
  not_busy : s.busy = false
  not_destroyed : s.destroyed = false
  queue_nil : s.queue = []

/-- The run of `processStream` over one chunk given to `push` on an idle stream,
with listeners that make no call. -/
def feed (env : Env) (s : BitcoinStream) (d : Buffer) : Completion :=
  processStreamLoop env (fun _ _ => none) (d.length + 1) { s with busy := true } d

/-- What `processLoop` makes of the way `processStream` ended, when nothing is
queued and the listeners make no call: `busy` is cleared, or `destroy` runs. -/
def settle (c : Completion) : Option BitcoinStream :=
  match c with
  | Completion.normal t => some { t with busy := false }
  | Completion.throw e t =>
    some { t with destroyed := true, busy := true, queue := [],
                  emitted := t.emitted ++ [Event.streamError e] }
  | Completion.timeout => none

/-- The streams reached from a new one by calls of `push`. -/
inductive Reachable (env : Env) : BitcoinStream → Prop
  | new : Reachable env BitcoinStream.new
  | push (s s' : BitcoinStream) (fuel : Nat) (packet : Buffer) :
      Reachable env s → push env fuel s packet = some s' → Reachable env s'

/-- The little-endian encoding of an unsigned 32-bit value, least byte first. -/
def uint32LE (n : Nat) : Buffer :=
  [Fin.ofNat n, Fin.ofNat (n / 2 ^ 8), Fin.ofNat (n / 2 ^ 16), Fin.ofNat (n / 2 ^ 24)]

/-- The content of a frame on the wire: its command field and its body. -/
structure Frame where
  command : Buffer
  body : Buffer
  deriving DecidableEq, Repr

/-- The first four bytes of `doubleHash(body)`. -/
def Frame.checksum (env : Env) (f : Frame) : Buffer :=
  (doubleHash env f.body).take 4

/-- The bytes of a header: magic, command field, declared length, checksum field. -/
def headerBytes (command : Buffer) (length : Nat) (checksum : Buffer) : Buffer :=
  uint32LE MAGIC_BYTE ++ command ++ uint32LE length ++ checksum

/-- The 24 bytes of the header of a frame. -/
def Frame.header (env : Env) (f : Frame) : Buffer :=
  headerBytes f.command f.body.length (f.checksum env)

/-- The bytes of a frame: magic, command field, length, checksum, then the body. -/
def Frame.bytes (env : Env) (f : Frame) : Buffer :=
  f.header env ++ f.body

/-- A frame is well formed when its command field has 12 bytes, its body at most
2048, and the digest is long enough to give the four bytes of the checksum. -/
structure Frame.WellFormed (env : Env) (f : Frame) : Prop where
  command_len : f.command.length = 12
  body_len : f.body.length ≤ MAX_PAYLOAD_LENGTH
  checksum_len : (f.checksum env).length = 4

/-- The notification that a well-formed frame is decoded to. -/
def Frame.message (env : Env) (f : Frame) : Message :=
  { command := BufferToString env f.command, body := f.body }

/-- The bytes of a list of frames, one after the other. -/
def framesBytes (env : Env) (frames : List Frame) : Buffer :=
  (frames.map (Frame.bytes env)).flatten

/-- An idle stream that awaits the first byte of a header. -/
structure Clean (s : BitcoinStream) : Prop where
  idle : Idle s
  at_header : s.headerPos = 0

/-- The notifications of a list of frames, in frame order. -/
def framesEvents (env : Env) (frames : List Frame) : List Event :=
  frames.map (fun f => Event.message (f.message env))

/-- The `message` listener only calls `push`. -/
def PushOnly (env : Env) : Prop :=
  ∀ h m, ∀ a ∈ env.onMessage h m, ∃ p, a = Action.push p

/-- The chunks passed to `push` in a list of calls. -/
def pushedChunks : List Action → List Buffer
  | [] => []
  | Action.push p :: rest => p :: pushedChunks rest
  | Action.destroy _ :: rest => pushedChunks rest

/-- The chunks that the listeners push while the notifications `new` are emitted
one after the other, `hist` being the notifications emitted before. -/
def pushesAlong (env : Env) : List Event → List Event → List Buffer
  | _, [] => []
  | hist, Event.message m :: rest =>
    pushedChunks (env.onMessage hist m) ++ pushesAlong env (hist ++ [Event.message m]) rest
  | hist, Event.streamError e :: rest =>
    env.onStreamError hist e ++ pushesAlong env (hist ++ [Event.streamError e]) rest

/-- The state `t` comes after `s` in a run that emitted only messages and left
the two flags as they were. -/
structure Grows (s t : BitcoinStream) : Prop where
  busy_eq : t.busy = s.busy
  destroyed_eq : t.destroyed = s.destroyed
  emitted_ext : ∃ msgs : List Message, t.emitted = s.emitted ++ msgs.map Event.message

/-- The stream `t` with its queue replaced by `q` followed by the chunks that the
listeners push along the notifications that `t` emitted after `base`. -/
def requeue (env : Env) (base : List Event) (q : List Buffer) (t : BitcoinStream) :
    BitcoinStream :=
  { t with queue := q ++ pushesAlong env base (t.emitted.drop base.length) }

def Completion.mapState (f : BitcoinStream → BitcoinStream) : Completion → Completion
  | Completion.normal t => Completion.normal (f t)
  | Completion.throw e t => Completion.throw e (f t)
  | Completion.timeout => Completion.timeout

def Pass.mapState (f : BitcoinStream → BitcoinStream) : Pass → Pass
  | Pass.continue t rest => Pass.continue (f t) rest
  | Pass.break t => Pass.break (f t)
  | Pass.throw e t => Pass.throw e (f t)
  | Pass.timeout => Pass.timeout

/-! ### SHA-256, for the examples -/

/-- Integer cube root by bisection on `[lo, lo + 2 ^ k)`. -/
def icbrtAux (n : Nat) : Nat → Nat → Nat
  | 0, lo => lo
  | k + 1, lo => if (lo + 2 ^ k) ^ 3 ≤ n then icbrtAux n k (lo + 2 ^ k) else icbrtAux n k lo

/-- Integer square root by bisection on `[lo, lo + 2 ^ k)`. -/
def isqrtAux (n : Nat) : Nat → Nat → Nat
  | 0, lo => lo
  | k + 1, lo => if (lo + 2 ^ k) ^ 2 ≤ n then isqrtAux n k (lo + 2 ^ k) else isqrtAux n k lo

/-- The first 64 primes. -/
def firstPrimes : List Nat :=
  [2, 3, 5, 7, 11, 13, 17, 19, 23, 29, 31, 37, 41, 43, 47, 53, 59, 61, 67, 71, 73, 79, 83, 89, 97,
   101, 103, 107, 109, 113, 127, 131, 137, 139, 149, 151, 157, 163, 167, 173, 179, 181, 191, 193,
   197, 199, 211, 223, 227, 229, 233, 239, 241, 251, 257, 263, 269, 271, 277, 281, 283, 293, 307,
   311]

/-- The round constants: the first 32 bits of the fractional parts of the cube
roots of the first 64 primes (`sha256K_eq`). -/
def sha256K : List Nat :=
  [1116352408, 1899447441, 3049323471, 3921009573, 961987163, 1508970993,
   2453635748, 2870763221, 3624381080, 310598401, 607225278, 1426881987,
   1925078388, 2162078206, 2614888103, 3248222580, 3835390401, 4022224774,
   264347078, 604807628, 770255983, 1249150122, 1555081692, 1996064986,
   2554220882, 2821834349, 2952996808, 3210313671, 3336571891, 3584528711,
   113926993, 338241895, 666307205, 773529912, 1294757372, 1396182291,
   1695183700, 1986661051, 2177026350, 2456956037, 2730485921, 2820302411,
   3259730800, 3345764771, 3516065817, 3600352804, 4094571909, 275423344,
   430227734, 506948616, 659060556, 883997877, 958139571, 1322822218,
   1537002063, 1747873779, 1955562222, 2024104815, 2227730452, 2361852424,
   2428436474, 2756734187, 3204031479, 3329325298]

/-- The initial hash value: the first 32 bits of the fractional parts of the
square roots of the first 8 primes (`sha256H0_eq`). -/
def sha256H0 : List Nat :=
  [1779033703, 3144134277, 1013904242, 2773480762,
   1359893119, 2600822924, 528734635, 1541459225]

/-- Rotation to the right of a 32-bit word. -/
def rotr32 (x n : Nat) : Nat := (x >>> n ||| x <<< (32 - n)) % 2 ^ 32

/-- Padding: the byte `0x80`, zero bytes up to 56 modulo 64, then the length in
bits on eight bytes, most significant first. -/
def sha256Pad (msg : List Nat) : List Nat :=
  let l := msg.length
  let zeros := (55 + 64 - l % 64) % 64
  msg ++ [128] ++ List.replicate zeros 0 ++
    (List.range 8).map (fun i => (8 * l) / 2 ^ (8 * (7 - i)) % 256)

/-- The first `n` big-endian words of a list of bytes, the last word first. -/
def wordsOf : Nat → List Nat → List Nat → List Nat
  | 0, _, acc => acc
  | n + 1, b0 :: b1 :: b2 :: b3 :: rest, acc =>
    wordsOf n rest ((b0 * 2 ^ 24 + b1 * 2 ^ 16 + b2 * 2 ^ 8 + b3) :: acc)
  | _ + 1, _, acc => acc

/-- The message schedule extended by `n` words; the list holds the last word first. -/
def extendSchedule : Nat → List Nat → List Nat
  | 0, w => w
  | n + 1, w =>
    match w with
    | _ :: w2 :: _ :: _ :: _ :: _ :: w7 :: _ :: _ :: _ :: _ :: _ :: _ :: _ :: w15 :: w16 :: _ =>
      extendSchedule n
        ((w16 + (rotr32 w15 7 ^^^ rotr32 w15 18 ^^^ (w15 >>> 3)) + w7 +
          (rotr32 w2 17 ^^^ rotr32 w2 19 ^^^ (w2 >>> 10))) % 2 ^ 32 :: w)
    | _ => w

/-- The eight working variables. -/
structure Sha256State where
  a : Nat
  b : Nat
  c : Nat
  d : Nat
  e : Nat
  f : Nat
  g : Nat
  h : Nat

/-- One round of the compression function, with its constant and schedule word. -/
def sha256Round (st : Sha256State) (kw : Nat × Nat) : Sha256State :=
  let S1 := rotr32 st.e 6 ^^^ rotr32 st.e 11 ^^^ rotr32 st.e 25
  let ch := (st.e &&& st.f) ^^^ ((2 ^ 32 - 1 - st.e) &&& st.g)
  let t1 := (st.h + S1 + ch + kw.1 + kw.2) % 2 ^ 32
  let S0 := rotr32 st.a 2 ^^^ rotr32 st.a 13 ^^^ rotr32 st.a 22
  let maj := (st.a &&& st.b) ^^^ (st.a &&& st.c) ^^^ (st.b &&& st.c)
  let t2 := (S0 + maj) % 2 ^ 32
  { a := (t1 + t2) % 2 ^ 32, b := st.a, c := st.b, d := st.c,
    e := (st.d + t1) % 2 ^ 32, f := st.e, g := st.f, h := st.g }

/-- The compression of one block of 64 bytes. -/
def sha256Block (hs : Sha256State) (block : List Nat) : Sha256State :=
  let w := (extendSchedule 48 (wordsOf 16 block [])).reverse
  let r := (sha256K.zip w).foldl sha256Round hs
  { a := (hs.a + r.a) % 2 ^ 32, b := (hs.b + r.b) % 2 ^ 32, c := (hs.c + r.c) % 2 ^ 32,
    d := (hs.d + r.d) % 2 ^ 32, e := (hs.e + r.e) % 2 ^ 32, f := (hs.f + r.f) % 2 ^ 32,
    g := (hs.g + r.g) % 2 ^ 32, h := (hs.h + r.h) % 2 ^ 32 }

/-- The compression of `n` blocks in a row. -/
def sha256Blocks : Nat → Sha256State → List Nat → Sha256State
  | 0, hs, _ => hs
  | n + 1, hs, bytes => sha256Blocks n (sha256Block hs (bytes.take 64)) (bytes.drop 64)

/-- The four bytes of a 32-bit word, most significant first. -/
def wordBytes (w : Nat) : Buffer :=
  [Fin.ofNat (w / 2 ^ 24), Fin.ofNat (w / 2 ^ 16), Fin.ofNat (w / 2 ^ 8), Fin.ofNat w]

/-- SHA-256 (FIPS 180-4): what `crypto.createHash('sha256').update(input).digest()`
returns. The theorems are proved for every `hashRaw`; the examples run with this
one. -/
def sha256 (msg : Buffer) : Buffer :=
  let padded := sha256Pad (msg.map Fin.val)
  let h0 : Sha256State :=
    { a := sha256H0.getD 0 0, b := sha256H0.getD 1 0, c := sha256H0.getD 2 0,
      d := sha256H0.getD 3 0, e := sha256H0.getD 4 0, f := sha256H0.getD 5 0,
      g := sha256H0.getD 6 0, h := sha256H0.getD 7 0 }
  let r := sha256Blocks (padded.length / 64) h0 padded
  wordBytes r.a ++ wordBytes r.b ++ wordBytes r.c ++ wordBytes r.d ++
    wordBytes r.e ++ wordBytes r.f ++ wordBytes r.g ++ wordBytes r.h

/-- Text decoding for the examples: one character per byte, which is what
`toString` gives on ASCII bytes. -/
def exampleText (b : Buffer) : String :=
  String.mk (b.map (fun x => Char.ofNat x.val))

/-- An environment with SHA-256 and listeners that make no call. -/
def exampleEnv : Env where
  hashRaw := sha256
  bufToString := exampleText
  onMessage := fun _ _ => []
  onStreamError := fun _ _ => []

/-- A frame with the command `ping` and a body of eight bytes. -/
def pingFrame : Frame where
  command := [112, 105, 110, 103, 0, 0, 0, 0, 0, 0, 0, 0]
  body := [1, 2, 3, 4, 5, 6, 7, 8]

/-- A frame with the command `verack` and an empty body. -/
def verackFrame : Frame where
  command := [118, 101, 114, 97, 99, 107, 0, 0, 0, 0, 0, 0]
  body := []

/-- A frame with the command `pong` and a body of two bytes. -/
def pongFrame : Frame where
  command := [112, 111, 110, 103, 0, 0, 0, 0, 0, 0, 0, 0]
  body := [9, 9]

/-- An environment whose `message` listener pushes two chunks, a `verack` frame
and a `pong` frame, when it receives the first message, and whose `streamError`
listener pushes one chunk. -/
def pushingEnv : Env where
  hashRaw := sha256
  bufToString := exampleText
  onMessage := fun hist _ =>
    if hist.length = 0 then
      [Action.push (verackFrame.bytes exampleEnv), Action.push (pongFrame.bytes exampleEnv)]
    else []
  onStreamError := fun _ _ => [[0]]

/-- The stream that a `push` of 24 zero bytes on a new stream leaves in
`pushingEnv`: the header is complete and fails the magic test. -/
def destroyedExample : BitcoinStream :=
  { BitcoinStream.new with
    destroyed := true
    busy := true
    queue := [[0]]
    headerPos := 24
    emitted := [Event.streamError Errors.UnsupportedNetwork] }

/-- The stream that a `push` of a `ping` frame followed by 24 zero bytes on a new
stream leaves in `pushingEnv`. -/
def pingThenZerosExample : BitcoinStream :=
  ((processLoop pushingEnv 2 BitcoinStream.new
    (pingFrame.bytes exampleEnv ++ List.replicate 24 0)).getD (BitcoinStream.new, none)).1

/-- The stream after a `push` of a `ping` frame on a new stream, with listeners
that make no call. -/
def afterPingExample : BitcoinStream :=
  (push pushingEnv.quiet 1 BitcoinStream.new (pingFrame.bytes exampleEnv)).getD
    BitcoinStream.new

/-- The stream after a `ping`, a `verack` and a `pong` frame were pushed one after
the other on a new stream, with listeners that make no call. -/
def afterThreeExample : BitcoinStream :=
  (pushAll exampleEnv 1 BitcoinStream.new
    [pingFrame.bytes exampleEnv, verackFrame.bytes exampleEnv,
      pongFrame.bytes exampleEnv]).getD BitcoinStream.new

/-! ### Invariants of a run, whatever the listeners do -/

/-- The decoder fields of `t` are those of `s`. -/
structure SameDecoder (s t : BitcoinStream) : Prop where
  header_eq : t.header = s.header
  headerPos_eq : t.headerPos = s.headerPos
  body_eq : t.body = s.body
  bodySize_eq : t.bodySize = s.bodySize
  bodyPos_eq : t.bodyPos = s.bodyPos

/-- The field `bodySize`, when it is set, is between 1 and `MAX_PAYLOAD_LENGTH`. -/
def SizeOk (s : BitcoinStream) : Prop :=
  ∀ L, s.bodySize = some L → 1 ≤ L ∧ L ≤ MAX_PAYLOAD_LENGTH

/-- The two buffers have their capacity and the two positions are inside them. -/
structure Bounded (s : BitcoinStream) : Prop where
  header_len : s.header.length = 24
  body_len : s.body.length = MAX_PAYLOAD_LENGTH
  hp_le : s.headerPos ≤ 24
  bp_le : s.bodyPos ≤ MAX_PAYLOAD_LENGTH
  size_ok : SizeOk s

/-- The state `t` comes after `s` in the processing of a chunk, `busy` being set:
`busy` is still set, `destroyed` was not cleared, and as long as no listener
called `destroy` the queue received exactly the chunks that the listeners pushed
along the notifications emitted since `s`. -/
structure Runs (env : Env) (s t : BitcoinStream) : Prop where
  busy : t.busy = true
  destroyed_mono : s.destroyed = true → t.destroyed = true
  track : t.destroyed = false →
    ∃ new, t.emitted = s.emitted ++ new ∧ t.queue = s.queue ++ pushesAlong env s.emitted new

/-- What holds of a stream between two calls of `push` made from outside. -/
structure Settled (s : BitcoinStream) : Prop where
  bounded : Bounded s
  idle : s.busy = false → Inv s ∧ s.queue = []
  busy : s.busy = true → s.destroyed = true

/-! ### The passes of `processStream` and the chunks of a drain -/

/-- The slice of `nextData` that one pass of the loop of `processStream` gives to
`set`: `nextData.subarray(0, bodyPtr)` or `nextData.subarray(0, headerPtr)`. -/
def written (s : BitcoinStream) (nextData : Buffer) : Buffer :=
  if s.headerPos = 24 then
    subarray nextData 0 (((s.bodySize.getD 0 : Nat) : Int) - (s.bodyPos : Int))
  else subarray nextData 0 (24 - (s.headerPos : Int))

/-- The loop of `processStream` with the list of the slices that its passes gave
to `set`, one entry per pass, in order. -/
def processStreamPasses (env : Env) (reenter : BitcoinStream → Buffer → Option BitcoinStream) :
    Nat → BitcoinStream → Buffer → Completion × List Buffer
  | 0, _, _ => (Completion.timeout, [])
  | fuel + 1, s, nextData =>
    match pass env reenter s nextData with
    | Pass.continue s1 rest =>
      ((processStreamPasses env reenter fuel s1 rest).1,
        written s nextData :: (processStreamPasses env reenter fuel s1 rest).2)
    | Pass.break s1 => (Completion.normal s1, [written s nextData])
    | Pass.throw e s1 => (Completion.throw e s1, [written s nextData])
    | Pass.timeout => (Completion.timeout, [written s nextData])

/-- The loop of `processLoop` with the list of the packets that it passed to
`processStream`, one entry per call, in order. -/
def drainTrace (env : Env) :
    Nat → BitcoinStream → Buffer → Option (BitcoinStream × Option Errors × List Buffer)
  | 0, _, _ => none
  | fuel + 1, s, nextPacket =>
    let reenter : BitcoinStream → Buffer → Option BitcoinStream :=
      fun t p => (drain env fuel { t with busy := true } p).map Prod.fst
    match processStream env reenter s nextPacket with
    | Completion.timeout => none
    | Completion.throw e s1 =>
      (destroy env reenter s1 e).map (fun s2 => (s2, some e, [nextPacket]))
    | Completion.normal s1 =>
      match s1.queue with
      | [] => some ({ s1 with busy := false }, none, [nextPacket])
      | p :: rest =>
        (drainTrace env fuel { s1 with queue := rest } p).map
          (fun res => (res.1, res.2.1, nextPacket :: res.2.2))

/-- The errors notified on `streamError`, in the order of the notifications. -/
def streamErrors : List Event → List Errors
  | [] => []
  | Event.streamError e :: rest => e :: streamErrors rest
  | Event.message _ :: rest => streamErrors rest

/-- The value that `bodySize` has after the frames `frames` were decoded, `init`
being its value before: the length of the last body that is not empty. -/
def staleSize (init : Option Nat) (frames : List Frame) : Option Nat :=
  frames.foldl (fun z f => if f.body.length = 0 then z else some f.body.length) init

/-- One pass of the loop of `processStream`: the state and the remaining data it
started from, and how it ended. -/
structure PassRecord where
  before : BitcoinStream
  data : Buffer
  result : Pass

/-- The passes of the loop of `processStream`, in order: each entry holds the
arguments and the result of one call of `pass`. -/
def processStreamSteps (env : Env) (reenter : BitcoinStream → Buffer → Option BitcoinStream) :
    Nat → BitcoinStream → Buffer → List PassRecord
  | 0, _, _ => []
  | fuel + 1, s, nextData =>
    { before := s, data := nextData, result := pass env reenter s nextData } ::
      match pass env reenter s nextData with
      | Pass.continue s1 rest => processStreamSteps env reenter fuel s1 rest
      | _ => []

/-- The buffers of `t` are those of `s` after `set` wrote the slice `x` at the
current position: into the body buffer at `bodyPos` when `headerPos` is 24, into
the header buffer at `headerPos` otherwise. -/
def StoredIn (s : BitcoinStream) (x : Buffer) (t : BitcoinStream) : Prop :=
  if s.headerPos = 24 then bufSet s.body x s.bodyPos = some t.body ∧ t.header = s.header
  else bufSet s.header x s.headerPos = some t.header ∧ t.body = s.body

/-- What a pass did with the data it was given: the slice it took is in the
buffer of the state it left; a pass that continues took at least one byte and
goes on with exactly the bytes that follow the slice; a pass that breaks took
all the bytes that were left. -/
def PassRecord.Sound (rec : PassRecord) : Prop :=
  match rec.result with
  | Pass.continue t rest =>
    StoredIn rec.before (written rec.before rec.data) t ∧
      rec.data = written rec.before rec.data ++ rest ∧
      1 ≤ (written rec.before rec.data).length
  | Pass.break t =>
    StoredIn rec.before (written rec.before rec.data) t ∧
      rec.data = written rec.before rec.data
  | Pass.throw _ t => StoredIn rec.before (written rec.before rec.data) t
  | Pass.timeout => False

/-! ### More examples -/

/-- The stream after a `push` of the first 29 bytes of the `ping` frame on a new
stream: the header is complete and five bytes of the body are in. -/
def midBodyExample : BitcoinStream :=
  (push exampleEnv 1 BitcoinStream.new ((pingFrame.bytes exampleEnv).take 29)).getD
    BitcoinStream.new

/-- An environment whose `message` listener calls `destroy` when it receives the
first message. -/
def destroyingEnv : Env where
  hashRaw := sha256
  bufToString := exampleText
  onMessage := fun hist _ =>
    if hist.length = 0 then [Action.destroy Errors.InvalidChecksum] else []
  onStreamError := fun _ _ => []

/-- The stream after a `push` of one chunk that holds a `ping` frame and a
`verack` frame on a new stream, in `destroyingEnv`. -/
def handlerDestroyedExample : BitcoinStream :=
  (push destroyingEnv 1 BitcoinStream.new
    (pingFrame.bytes exampleEnv ++ verackFrame.bytes exampleEnv)).getD BitcoinStream.new

/-- The stream after a `push` of a `ping` frame followed by a `push` of a `verack`
frame on a new stream, in `destroyingEnv`. -/
def handlerDestroyedSplitExample : BitcoinStream :=
  (pushAll destroyingEnv 1 BitcoinStream.new
    [pingFrame.bytes exampleEnv, verackFrame.bytes exampleEnv]).getD BitcoinStream.new

/-- An environment whose `message` listener, when it receives the first message,
pushes a `verack` frame and then calls `destroy`. -/
def pushThenDestroyEnv : Env where
  hashRaw := sha256
  bufToString := exampleText
  onMessage := fun hist _ =>
    if hist.length = 0 then
      [Action.push (verackFrame.bytes exampleEnv), Action.destroy Errors.InvalidChecksum]
    else []
  onStreamError := fun _ _ => []

/-- The stream after a `push` of a `ping` frame on a new stream, in
`pushThenDestroyEnv`. -/
def pushThenDestroyExample : BitcoinStream :=
  ((processLoop pushThenDestroyEnv 1 BitcoinStream.new (pingFrame.bytes exampleEnv)).getD
    (BitcoinStream.new, none)).1

/-! ## Buffers: lemmas -/

theorem relIndex_natCast (len n : Nat) : relIndex len (n : Int) = min n len := by
  unfold relIndex
  have h : ¬ ((n : Int) < 0) := by omega
  simp [h]

theorem relIndex_zero (len : Nat) : relIndex len 0 = 0 := by
  have := relIndex_natCast len 0
  simpa using this

theorem subarray_zero_natCast (buf : Buffer) (n : Nat) : subarray buf 0 (n : Int) = buf.take n := by
  unfold subarray
  rw [relIndex_zero, relIndex_natCast]
  simp [List.take_eq_take]

theorem subarrayFrom_natCast (buf : Buffer) (n : Nat) : subarrayFrom buf (n : Int) = buf.drop n := by
  unfold subarrayFrom subarray
  rw [relIndex_natCast, relIndex_natCast]
  simp
  by_cases h : n ≤ buf.length
  · simp [Nat.min_eq_left h]
  · have h' : buf.length ≤ n := by omega
    simp [Nat.min_eq_right h', List.drop_eq_nil_of_le h']

theorem subarray_natCast (buf : Buffer) (a b : Nat) :
    subarray buf (a : Int) (b : Int) = (buf.drop a).take (b - a) := by
  unfold subarray
  rw [relIndex_natCast, relIndex_natCast]
  by_cases ha : a ≤ buf.length
  · rw [Nat.min_eq_left ha]
    by_cases hb : b ≤ buf.length
    · rw [Nat.min_eq_left hb]
    · have hb' : buf.length ≤ b := by omega
      rw [Nat.min_eq_right hb']
      rw [List.take_of_length_le (by simp), List.take_of_length_le (by simp; omega)]
  · have ha' : buf.length ≤ a := by omega
    rw [Nat.min_eq_right ha']
    simp [List.drop_eq_nil_of_le ha']

theorem bufSet_fits (target src : Buffer) (off : Nat) (h : off + src.length ≤ target.length) :
    bufSet target src off = some (splice target src off) := by
  simp [bufSet, splice, h]

theorem splice_length (buf src : Buffer) (off : Nat) (h : off + src.length ≤ buf.length) :
    (splice buf src off).length = buf.length := by
  simp [splice]; omega

theorem splice_nil (buf : Buffer) (off : Nat) : splice buf [] off = buf := by
  simp [splice]

theorem take_splice (buf src : Buffer) (off : Nat) (h : off + src.length ≤ buf.length) :
    (splice buf src off).take (off + src.length) = buf.take off ++ src := by
  have h1 : (buf.take off ++ src).length = off + src.length := by simp; omega
  unfold splice
  rw [← h1, List.take_left']
  rfl

theorem drop_splice (buf src : Buffer) (off : Nat) (h : off + src.length ≤ buf.length) :
    (splice buf src off).drop (off + src.length) = buf.drop (off + src.length) := by
  have h1 : (buf.take off ++ src).length = off + src.length := by simp; omega
  unfold splice
  rw [← h1, List.drop_left']
  rw [h1]

theorem splice_splice (buf a b : Buffer) (off : Nat) (h : off + a.length + b.length ≤ buf.length) :
    splice (splice buf a off) b (off + a.length) = splice buf (a ++ b) off := by
  have h1 : off + a.length ≤ buf.length := by omega
  unfold splice
  rw [show (List.take off buf ++ a ++ List.drop (off + a.length) buf) = splice buf a off from rfl]
  rw [take_splice buf a off h1]
  have : List.drop (off + a.length + b.length) (splice buf a off)
      = List.drop (off + a.length + b.length) buf := by
    rw [← List.drop_drop, drop_splice buf a off h1, List.drop_drop]
  rw [this]
  simp [Nat.add_assoc]

/-! ## One pass of the decoder -/

theorem advance_natCast (r : Completion) (d : Buffer) (n : Nat) :
    advance r d (n : Int) = advanceN r (d.drop n) := by
  unfold advance advanceN
  rw [subarrayFrom_natCast]

theorem need_pos (s : BitcoinStream) (h : Inv s) : 0 < need s := by
  unfold need
  by_cases hm : s.headerPos = 24
  · obtain ⟨L, hL, _, hbp⟩ := h.in_body hm
    simp [hm, hL]; omega
  · have := h.hp_le
    simp [hm]; omega

theorem pass_eq (env : Env) (r : BitcoinStream → Buffer → Option BitcoinStream)
    (s : BitcoinStream) (d : Buffer) (h : Inv s) :
    pass env r s d =
      if d.length < need s then Pass.break (absorb s d)
      else advanceN (complete env r (decide (s.headerPos = 24)) (absorb s (d.take (need s))))
        (d.drop (need s)) := by
  by_cases hm : s.headerPos = 24
  · obtain ⟨L, hL, hL2, hbp⟩ := h.in_body hm
    have hneed : need s = L - s.bodyPos := by simp [need, hm, hL]
    have hptr : (((s.bodySize.getD 0 : Nat) : Int) - (s.bodyPos : Int)) = ((L - s.bodyPos : Nat) : Int) := by
      simp [hL]; omega
    have hblen := h.body_len
    unfold pass
    simp only [hm, if_true, hptr, subarray_zero_natCast, advance_natCast]
    have hfit : s.bodyPos + (List.take (L - s.bodyPos) d).length ≤ s.body.length := by
      simp [List.length_take]; omega
    rw [bufSet_fits _ _ _ hfit]
    simp only [hneed]
    by_cases hshort : d.length < L - s.bodyPos
    · have htake : List.take (L - s.bodyPos) d = d := List.take_of_length_le (by omega)
      have hne : ¬ (some L = some (s.bodyPos + d.length)) := by
        intro hh; injection hh; omega
      simp [hshort, htake, hL, hne, absorb, hm]
    · have hlen : (List.take (L - s.bodyPos) d).length = L - s.bodyPos := by
        simp [List.length_take]; omega
      have he : s.bodyPos + (L - s.bodyPos) = L := by omega
      simp [hshort, hlen, hL, he, absorb, hm, complete, completeBody]
  · have hlt : s.headerPos < 24 := by have := h.hp_le; omega
    have hneed : need s = 24 - s.headerPos := by simp [need, hm]
    have hptr : ((24 : Int) - (s.headerPos : Int)) = ((24 - s.headerPos : Nat) : Int) := by
      omega
    have hhlen := h.header_len
    unfold pass
    simp only [hm, if_false, hptr, subarray_zero_natCast, advance_natCast]
    have hfit : s.headerPos + (List.take (24 - s.headerPos) d).length ≤ s.header.length := by
      simp [List.length_take]; omega
    rw [bufSet_fits _ _ _ hfit]
    simp only [hneed]
    by_cases hshort : d.length < 24 - s.headerPos
    · have htake : List.take (24 - s.headerPos) d = d := List.take_of_length_le (by omega)
      have hne : ¬ (s.headerPos + d.length = 24) := by omega
      simp [hshort, htake, hne, absorb, hm]
    · have hlen : (List.take (24 - s.headerPos) d).length = 24 - s.headerPos := by
        simp [List.length_take]; omega
      have he : s.headerPos + (24 - s.headerPos) = 24 := by omega
      simp only [hshort, if_false, hlen, he, absorb, hm, complete, completeHeader, decide_False]
      simp only [advanceN, Bool.false_eq_true, if_false]
      split_ifs <;> rfl

/-! ## Listeners that make no call: a pass and the loop -/

theorem quiet_quiet (env : Env) : Quiet env.quiet :=
  ⟨fun _ _ => rfl, fun _ _ => rfl⟩

theorem extends_refl (s : BitcoinStream) : Extends s s :=
  ⟨rfl, rfl, rfl, ⟨[], by simp⟩⟩

theorem extends_trans {s t u : BitcoinStream} (h1 : Extends s t) (h2 : Extends t u) :
    Extends s u := by
  obtain ⟨n1, hn1⟩ := h1.emitted_ext
  obtain ⟨n2, hn2⟩ := h2.emitted_ext
  exact ⟨h2.queue_eq.trans h1.queue_eq, h2.busy_eq.trans h1.busy_eq,
    h2.destroyed_eq.trans h1.destroyed_eq, ⟨n1 ++ n2, by rw [hn2, hn1, List.append_assoc]⟩⟩

theorem receivedBody_quiet (env : Env) (hq : Quiet env)
    (r : BitcoinStream → Buffer → Option BitcoinStream) (s : BitcoinStream) (mb : Buffer) :
    receivedBody env r s mb =
      if subarray (doubleHash env mb) 0 4 ≠ subarray s.header 20 24 then
        Completion.throw Errors.InvalidChecksum s
      else Completion.normal (newMessage { s with emitted := s.emitted ++
        [Event.message { command := BufferToString env (subarray s.header 4 16), body := mb }] }) := by
  unfold receivedBody emitMessage
  simp only [hq.1, List.foldlM_nil]

theorem complete_quiet (env : Env) (hq : Quiet env)
    (r r' : BitcoinStream → Buffer → Option BitcoinStream) (b : Bool) (s : BitcoinStream) :
    complete env r b s = complete env r' b s := by
  unfold complete completeBody completeHeader
  simp only [receivedBody_quiet env hq r, receivedBody_quiet env hq r']

theorem inv_absorb (s : BitcoinStream) (d : Buffer) (h : Inv s) (hd : d.length < need s) :
    Inv (absorb s d) ∧ need (absorb s d) = need s - d.length ∧
      ((absorb s d).headerPos = 24 ↔ s.headerPos = 24) ∧ Extends s (absorb s d) := by
  by_cases hm : s.headerPos = 24
  · obtain ⟨L, hL, hL2, hbp⟩ := h.in_body hm
    have hneed : need s = L - s.bodyPos := by simp [need, hm, hL]
    rw [hneed] at hd
    have hb := h.body_len
    refine ⟨⟨?_, ?_, ?_, ?_, ?_⟩, ?_, ?_, ?_⟩
    · simpa [absorb, hm] using h.header_len
    · simp only [absorb, hm, if_true]
      rw [splice_length _ _ _ (by omega)]; exact hb
    · simp [absorb, hm]
    · intro _
      exact ⟨L, by simp [absorb, hm, hL], hL2, by simp [absorb, hm]; omega⟩
    · intro hlt; simp [absorb, hm] at hlt
    · simp [need, absorb, hm, hL]; omega
    · simp [absorb, hm]
    · exact ⟨by simp [absorb, hm], by simp [absorb, hm], by simp [absorb, hm],
        ⟨[], by simp [absorb, hm]⟩⟩
  · have hlt : s.headerPos < 24 := by have := h.hp_le; omega
    have hneed : need s = 24 - s.headerPos := by simp [need, hm]
    rw [hneed] at hd
    have hh := h.header_len
    have hne : ¬ (s.headerPos + d.length = 24) := by omega
    refine ⟨⟨?_, ?_, ?_, ?_, ?_⟩, ?_, ?_, ?_⟩
    · simp only [absorb, hm, if_false]
      rw [splice_length _ _ _ (by omega)]; exact hh
    · simpa [absorb, hm] using h.body_len
    · simp [absorb, hm]; omega
    · intro h24; simp [absorb, hm] at h24; omega
    · intro _; simpa [absorb, hm] using h.in_header hlt
    · simp [need, absorb, hm, hne]; omega
    · simp [absorb, hm, hne]
    · exact ⟨by simp [absorb, hm], by simp [absorb, hm], by simp [absorb, hm],
        ⟨[], by simp [absorb, hm]⟩⟩

theorem complete_props (env : Env) (hq : Quiet env)
    (r : BitcoinStream → Buffer → Option BitcoinStream) (s : BitcoinStream) (x : Buffer)
    (h : Inv s) (hx : x.length = need s) :
    match complete env r (decide (s.headerPos = 24)) (absorb s x) with
    | Completion.normal t => Inv t ∧ Extends s t
    | Completion.throw _ t => Extends s t ∧ t.emitted = s.emitted
    | Completion.timeout => False := by
  by_cases hm : s.headerPos = 24
  · obtain ⟨L, hL, hL2, hbp⟩ := h.in_body hm
    have hneed : need s = L - s.bodyPos := by simp [need, hm, hL]
    rw [hneed] at hx
    have hb := h.body_len
    have hsl : (splice s.body x s.bodyPos).length = MAX_PAYLOAD_LENGTH := by
      rw [splice_length _ _ _ (by omega)]; exact hb
    simp only [complete, hm, decide_True, if_true, completeBody, receivedBody_quiet env hq]
    split_ifs with hc
    · exact ⟨⟨by simp [absorb, hm], by simp [absorb, hm], by simp [absorb, hm],
        ⟨[], by simp [absorb, hm]⟩⟩, by simp [absorb, hm]⟩
    · refine ⟨⟨?_, ?_, ?_, ?_, ?_⟩, ?_⟩
      · simpa [newMessage, absorb, hm] using h.header_len
      · simpa [newMessage, absorb, hm] using hsl
      · simp [newMessage]
      · intro h24; simp [newMessage] at h24
      · intro _; simp [newMessage]
      · exact ⟨by simp [newMessage, absorb, hm], by simp [newMessage, absorb, hm],
          by simp [newMessage, absorb, hm], ⟨_, by simp [newMessage, absorb, hm]; rfl⟩⟩
  · have hlt : s.headerPos < 24 := by have := h.hp_le; omega
    have hneed : need s = 24 - s.headerPos := by simp [need, hm]
    rw [hneed] at hx
    have hh := h.header_len
    have hsl : (splice s.header x s.headerPos).length = 24 := by
      rw [splice_length _ _ _ (by omega)]; exact hh
    have hbp := h.in_header hlt
    have he : s.headerPos + x.length = 24 := by omega
    simp only [complete, hm, decide_False, Bool.false_eq_true, if_false, completeHeader,
      receivedBody_quiet env hq]
    have hE : Extends s (absorb s x) :=
      ⟨by simp [absorb, hm], by simp [absorb, hm], by simp [absorb, hm],
        ⟨[], by simp [absorb, hm]⟩⟩
    have hem : (absorb s x).emitted = s.emitted := by simp [absorb, hm]
    split_ifs with h1 h2 h3 h4
    · exact ⟨hE, hem⟩
    · exact ⟨hE, hem⟩
    · exact ⟨hE, hem⟩
    · refine ⟨⟨?_, ?_, ?_, ?_, ?_⟩, ?_⟩
      · simpa [newMessage, absorb, hm] using hsl
      · simpa [newMessage, absorb, hm] using h.body_len
      · simp [newMessage]
      · intro h24; simp [newMessage] at h24
      · intro _; simp [newMessage]
      · exact ⟨by simp [newMessage, absorb, hm], by simp [newMessage, absorb, hm],
          by simp [newMessage, absorb, hm], ⟨_, by simp [newMessage, absorb, hm]; rfl⟩⟩
    · refine ⟨⟨?_, ?_, ?_, ?_, ?_⟩, ?_⟩
      · simpa [absorb, hm] using hsl
      · simpa [absorb, hm] using h.body_len
      · simp [absorb, hm, he]
      · intro _
        refine ⟨readUInt32LE (absorb s x).header 16, rfl, by omega, ?_⟩
        simp [absorb, hm, hbp]
        simp [absorb, hm] at h3
        omega
      · intro hlt'; simp [absorb, hm, he] at hlt'
      · exact ⟨by simp [absorb, hm], by simp [absorb, hm], by simp [absorb, hm],
          ⟨[], by simp [absorb, hm]⟩⟩

theorem absorb_absorb (s : BitcoinStream) (a x : Buffer) (h : Inv s)
    (hax : a.length + x.length ≤ need s) (ha : a.length < need s) :
    absorb (absorb s a) x = absorb s (a ++ x) := by
  by_cases hm : s.headerPos = 24
  · obtain ⟨L, hL, hL2, hbp⟩ := h.in_body hm
    have hneed : need s = L - s.bodyPos := by simp [need, hm, hL]
    rw [hneed] at hax ha
    have hb := h.body_len
    simp only [absorb, hm, if_true]
    rw [splice_splice _ _ _ _ (by omega)]
    simp [Nat.add_assoc]
  · have hlt : s.headerPos < 24 := by have := h.hp_le; omega
    have hneed : need s = 24 - s.headerPos := by simp [need, hm]
    rw [hneed] at hax ha
    have hh := h.header_len
    have hne : ¬ (s.headerPos + a.length = 24) := by omega
    simp only [absorb, hm, if_false, hne]
    rw [splice_splice _ _ _ _ (by omega)]
    simp [Nat.add_assoc]

theorem pass_append_short (env : Env) (r : BitcoinStream → Buffer → Option BitcoinStream)
    (s : BitcoinStream) (a b : Buffer) (h : Inv s) (ha : a.length < need s) :
    pass env r s (a ++ b) = pass env r (absorb s a) b := by
  obtain ⟨hI, hn, hmode, _⟩ := inv_absorb s a h ha
  rw [pass_eq env r s (a ++ b) h, pass_eq env r (absorb s a) b hI, hn]
  have hdec : decide ((absorb s a).headerPos = 24) = decide (s.headerPos = 24) := by
    simp only [hmode]
  rw [hdec]
  by_cases hs : b.length < need s - a.length
  · have hs' : (a ++ b).length < need s := by simp; omega
    rw [if_pos hs, if_pos hs', absorb_absorb s a b h (by omega) ha]
  · have hs' : ¬ (a ++ b).length < need s := by simp; omega
    rw [if_neg hs, if_neg hs']
    have ht : List.take (need s) (a ++ b) = a ++ List.take (need s - a.length) b := by
      rw [List.take_append_eq_append_take, List.take_of_length_le (by omega)]
    have hd : List.drop (need s) (a ++ b) = List.drop (need s - a.length) b := by
      rw [List.drop_append_eq_append_drop, List.drop_eq_nil_of_le (by omega)]; rfl
    rw [ht, hd, absorb_absorb s a _ h (by simp [List.length_take]; omega) ha]

theorem pass_append_full (env : Env) (r : BitcoinStream → Buffer → Option BitcoinStream)
    (s : BitcoinStream) (a b : Buffer) (h : Inv s) (ha : need s ≤ a.length) :
    pass env r s (a ++ b) = (pass env r s a).followedBy b := by
  rw [pass_eq env r s (a ++ b) h, pass_eq env r s a h]
  have hs : ¬ a.length < need s := by omega
  have hs' : ¬ (a ++ b).length < need s := by simp; omega
  rw [if_neg hs, if_neg hs']
  have ht : List.take (need s) (a ++ b) = List.take (need s) a := by
    rw [List.take_append_eq_append_take]
    have : need s - a.length = 0 := by omega
    simp [this]
  have hd : List.drop (need s) (a ++ b) = List.drop (need s) a ++ b := by
    rw [List.drop_append_eq_append_drop]
    have : need s - a.length = 0 := by omega
    simp [this]
  rw [ht, hd]
  cases hC : complete env r (decide (s.headerPos = 24)) (absorb s (List.take (need s) a)) with
  | normal t =>
    simp only [advanceN, Pass.followedBy]
    by_cases hrest : (List.drop (need s) a).length > 0
    · have : (List.drop (need s) a ++ b).length > 0 := by simp at hrest ⊢; omega
      simp only [hrest, this, if_true]
    · have hnil : List.drop (need s) a = [] := by
        apply List.eq_nil_of_length_eq_zero; omega
      simp [hnil]
  | throw e t => simp [advanceN, Pass.followedBy]
  | timeout => simp [advanceN, Pass.followedBy]

/-- Facts on a pass in a quiet environment. -/
theorem pass_props (env : Env) (hq : Quiet env)
    (r : BitcoinStream → Buffer → Option BitcoinStream) (s : BitcoinStream) (d : Buffer)
    (h : Inv s) :
    match pass env r s d with
    | Pass.continue t rest => Inv t ∧ Extends s t ∧ rest.length < d.length
    | Pass.break t => Inv t ∧ Extends s t
    | Pass.throw _ t => Extends s t
    | Pass.timeout => False := by
  rw [pass_eq env r s d h]
  by_cases hs : d.length < need s
  · rw [if_pos hs]
    obtain ⟨hI, _, _, hE⟩ := inv_absorb s d h hs
    exact ⟨hI, hE⟩
  · rw [if_neg hs]
    have hx : (List.take (need s) d).length = need s := by simp [List.length_take]; omega
    have hp := complete_props env hq r s _ h hx
    have hpos := need_pos s h
    cases hC : complete env r (decide (s.headerPos = 24)) (absorb s (List.take (need s) d)) with
    | normal t =>
      rw [hC] at hp
      simp only [advanceN]
      split_ifs with hrest
      · exact ⟨hp.1, hp.2, by simp; omega⟩
      · exact hp
    | throw e t =>
      rw [hC] at hp
      exact hp.1
    | timeout =>
      rw [hC] at hp
      exact hp

theorem pass_quiet (env : Env) (hq : Quiet env)
    (r r' : BitcoinStream → Buffer → Option BitcoinStream) (s : BitcoinStream) (d : Buffer)
    (h : Inv s) : pass env r s d = pass env r' s d := by
  rw [pass_eq env r s d h, pass_eq env r' s d h, complete_quiet env hq r r']

theorem loop_succ (env : Env) (r : BitcoinStream → Buffer → Option BitcoinStream)
    (f : Nat) (s : BitcoinStream) (d : Buffer) :
    processStreamLoop env r (f + 1) s d =
      match pass env r s d with
      | Pass.continue s1 rest => processStreamLoop env r f s1 rest
      | Pass.break s1 => Completion.normal s1
      | Pass.throw e s1 => Completion.throw e s1
      | Pass.timeout => Completion.timeout := rfl

theorem loop_props (env : Env) (hq : Quiet env)
    (r : BitcoinStream → Buffer → Option BitcoinStream) :
    ∀ (f : Nat) (s : BitcoinStream) (d : Buffer), Inv s → d.length + 1 ≤ f →
    match processStreamLoop env r f s d with
    | Completion.normal t => Inv t ∧ Extends s t
    | Completion.throw _ t => Extends s t
    | Completion.timeout => False := by
  intro f
  induction f with
  | zero => intro s d _ hf; omega
  | succ n ih =>
    intro s d h hf
    have hp := pass_props env hq r s d h
    unfold processStreamLoop
    cases hP : pass env r s d with
    | «continue» t rest =>
      rw [hP] at hp
      simp only
      have := ih t rest hp.1 (by omega)
      cases hL : processStreamLoop env r n t rest with
      | normal u => rw [hL] at this; exact ⟨this.1, extends_trans hp.2.1 this.2⟩
      | throw e u => rw [hL] at this; exact extends_trans hp.2.1 this
      | timeout => rw [hL] at this; exact this
    | «break» t => rw [hP] at hp; exact hp
    | throw e t => rw [hP] at hp; exact hp
    | timeout => rw [hP] at hp; exact hp

theorem loop_fuel (env : Env) (hq : Quiet env)
    (r r' : BitcoinStream → Buffer → Option BitcoinStream) :
    ∀ (f1 f2 : Nat) (s : BitcoinStream) (d : Buffer), Inv s → d.length + 1 ≤ f1 →
    d.length + 1 ≤ f2 → processStreamLoop env r f1 s d = processStreamLoop env r' f2 s d := by
  intro f1
  induction f1 with
  | zero => intro f2 s d _ hf; omega
  | succ n ih =>
    intro f2 s d h hf1 hf2
    obtain ⟨m, rfl⟩ : ∃ m, f2 = m + 1 := ⟨f2 - 1, by omega⟩
    have hp := pass_props env hq r s d h
    unfold processStreamLoop
    rw [← pass_quiet env hq r r' s d h]
    cases hP : pass env r s d with
    | «continue» t rest =>
      rw [hP] at hp
      exact ih m t rest hp.1 (by omega) (by omega)
    | «break» t => rfl
    | throw e t => rfl
    | timeout => rfl

theorem loop_nil (env : Env) (r : BitcoinStream → Buffer → Option BitcoinStream)
    (f : Nat) (s : BitcoinStream) (h : Inv s) :
    processStreamLoop env r (f + 1) s [] = Completion.normal s := by
  unfold processStreamLoop
  rw [pass_eq env r s [] h]
  have hpos := need_pos s h
  have : absorb s [] = s := by
    unfold absorb
    split_ifs <;> simp [splice_nil]
  simp [hpos, this]

theorem loop_append (env : Env) (hq : Quiet env)
    (r : BitcoinStream → Buffer → Option BitcoinStream) :
    ∀ (fa : Nat) (s : BitcoinStream) (a b : Buffer) (f fb : Nat), Inv s →
    a.length + 1 ≤ fa → (a ++ b).length + 1 ≤ f → b.length + 1 ≤ fb →
    processStreamLoop env r f s (a ++ b) =
      (processStreamLoop env r fa s a).andThen (fun t => processStreamLoop env r fb t b) := by
  intro fa
  induction fa with
  | zero => intro s a b f fb _ hfa; omega
  | succ n ih =>
    intro s a b f fb h hfa hf hfb
    obtain ⟨m, rfl⟩ : ∃ m, f = m + 1 := ⟨f - 1, by omega⟩
    obtain ⟨k, rfl⟩ : ∃ k, fb = k + 1 := ⟨fb - 1, by omega⟩
    simp only [List.length_append] at hf
    by_cases ha : a.length < need s
    · -- the whole of `a` goes into the buffer being filled
      obtain ⟨hI, _, _, _⟩ := inv_absorb s a h ha
      have h1 : processStreamLoop env r (n + 1) s a = Completion.normal (absorb s a) := by
        unfold processStreamLoop
        rw [pass_eq env r s a h, if_pos ha]
      rw [h1]
      simp only [Completion.andThen]
      rw [loop_fuel env hq r r (k + 1) (m + 1) (absorb s a) b hI (by omega) (by omega)]
      rw [loop_succ env r m s (a ++ b), loop_succ env r m (absorb s a) b,
        pass_append_short env r s a b h ha]
    · have ha' : need s ≤ a.length := by omega
      have hp := pass_props env hq r s a h
      have hpos := need_pos s h
      rw [loop_succ env r m s (a ++ b), loop_succ env r n s a,
        pass_append_full env r s a b h ha']
      cases hP : pass env r s a with
      | «continue» t rest =>
        rw [hP] at hp
        simp only [Pass.followedBy]
        exact ih t rest b m (k + 1) hp.1 (by omega) (by simp; omega) (by omega)
      | «break» t =>
        rw [hP] at hp
        simp only [Pass.followedBy, Completion.andThen]
        split_ifs with hb
        · simp only
          exact loop_fuel env hq r r m (k + 1) t b hp.1 (by omega) (by omega)
        · have hnil : b = [] := List.eq_nil_of_length_eq_zero (by omega)
          subst hnil
          simp only
          rw [loop_nil env r k t hp.1]
      | throw e t => simp [Pass.followedBy, Completion.andThen]
      | timeout => simp [Pass.followedBy, Completion.andThen]

/-! ## `push` on an idle stream, and chunk-split invariance -/

theorem inv_of_fields {s t : BitcoinStream} (h : Inv s) (h1 : t.header = s.header)
    (h2 : t.headerPos = s.headerPos) (h3 : t.body = s.body) (h4 : t.bodySize = s.bodySize)
    (h5 : t.bodyPos = s.bodyPos) : Inv t := by
  refine ⟨?_, ?_, ?_, ?_, ?_⟩
  · rw [h1]; exact h.header_len
  · rw [h3]; exact h.body_len
  · rw [h2]; exact h.hp_le
  · rw [h2, h4, h5]; exact h.in_body
  · rw [h2, h5]; exact h.in_header

theorem inv_new : Inv BitcoinStream.new := by
  refine ⟨by simp [BitcoinStream.new], by simp [BitcoinStream.new], by simp [BitcoinStream.new],
    ?_, ?_⟩
  · intro h; simp [BitcoinStream.new] at h
  · intro _; rfl

theorem idle_new : Idle BitcoinStream.new := ⟨inv_new, rfl, rfl, rfl⟩

theorem push_busy (env : Env) (fuel : Nat) (s : BitcoinStream) (d : Buffer)
    (hb : s.busy = true) : push env fuel s d = some { s with queue := s.queue ++ [d] } := by
  simp [push, pushWith, hb]

theorem destroy_quiet (env : Env) (hq : Quiet env)
    (r : BitcoinStream → Buffer → Option BitcoinStream) (s : BitcoinStream) (e : Errors) :
    destroy env r s e = some { s with destroyed := true, busy := true, queue := [],
                                      emitted := s.emitted ++ [Event.streamError e] } := by
  simp [destroy, emitStreamError, hq.2]

theorem drain_succ (env : Env) (n : Nat) (s : BitcoinStream) (p : Buffer) :
    drain env (n + 1) s p =
      match processStream env
          (fun t q => (drain env n { t with busy := true } q).map Prod.fst) s p with
      | Completion.timeout => none
      | Completion.throw e s1 =>
        (destroy env (fun t q => (drain env n { t with busy := true } q).map Prod.fst) s1 e).map
          (fun s2 => (s2, some e))
      | Completion.normal s1 =>
        match s1.queue with
        | [] => some ({ s1 with busy := false }, none)
        | q :: rest => drain env n { s1 with queue := rest } q := rfl

theorem drain_quiet (env : Env) (hq : Quiet env) (sb : BitcoinStream) (hI : Inv sb)
    (hnd : sb.destroyed = false) (hqn : sb.queue = []) (n : Nat) (d : Buffer) :
    (drain env (n + 1) sb d).map Prod.fst =
      settle (processStreamLoop env (fun _ _ => none) (d.length + 1) sb d) := by
  have hp := loop_props env hq (fun _ _ => none) (d.length + 1) sb d hI (le_refl _)
  rw [drain_succ]
  have hps : ∀ R, processStream env R sb d =
      processStreamLoop env (fun _ _ => none) (d.length + 1) sb d := by
    intro R
    unfold processStream
    rw [if_neg (by simp [hnd])]
    exact loop_fuel env hq _ _ _ _ _ _ hI (le_refl _) (le_refl _)
  rw [hps]
  cases hL : processStreamLoop env (fun _ _ => none) (d.length + 1) sb d with
  | normal t =>
    rw [hL] at hp
    have hq' : t.queue = [] := by rw [hp.2.queue_eq]; exact hqn
    simp [settle, hq']
  | throw e t =>
    simp [settle, destroy_quiet env hq]
  | timeout => rw [hL] at hp; exact hp.elim

theorem push_quiet (env : Env) (hq : Quiet env) (s : BitcoinStream) (hs : Idle s)
    (fuel : Nat) (hf : 1 ≤ fuel) (d : Buffer) :
    push env fuel s d = settle (feed env s d) := by
  obtain ⟨n, rfl⟩ : ∃ n, fuel = n + 1 := ⟨fuel - 1, by omega⟩
  have hI : Inv { s with busy := true } := inv_of_fields hs.inv rfl rfl rfl rfl rfl
  have h1 : push env (n + 1) s d = (drain env (n + 1) { s with busy := true } d).map Prod.fst := by
    simp [push, pushWith, hs.not_busy, processLoop]
  rw [h1, drain_quiet env hq _ hI hs.not_destroyed hs.queue_nil]
  rfl

/-- The two ways a `push` on an idle stream ends, with listeners that make no call. -/
theorem push_quiet_cases (env : Env) (hq : Quiet env) (s : BitcoinStream) (hs : Idle s)
    (fuel : Nat) (hf : 1 ≤ fuel) (d : Buffer) :
    (∃ t, feed env s d = Completion.normal t ∧ Inv t ∧ Extends { s with busy := true } t ∧
        push env fuel s d = some { t with busy := false } ∧ Idle { t with busy := false }) ∨
    (∃ e t, feed env s d = Completion.throw e t ∧ Extends { s with busy := true } t ∧
        push env fuel s d = settle (Completion.throw e t)) := by
  have hI : Inv { s with busy := true } := inv_of_fields hs.inv rfl rfl rfl rfl rfl
  have hp := loop_props env hq (fun _ _ => none) (d.length + 1) { s with busy := true } d hI
    (le_refl _)
  rw [push_quiet env hq s hs fuel hf d]
  cases hL : feed env s d with
  | normal t =>
    left
    unfold feed at hL
    rw [hL] at hp
    refine ⟨t, rfl, hp.1, hp.2, rfl, ?_⟩
    exact ⟨inv_of_fields hp.1 rfl rfl rfl rfl rfl, rfl,
      by simpa using hp.2.destroyed_eq.trans hs.not_destroyed,
      by simpa using hp.2.queue_eq.trans hs.queue_nil⟩
  | throw e t =>
    right
    unfold feed at hL
    rw [hL] at hp
    exact ⟨e, t, rfl, hp, rfl⟩
  | timeout =>
    unfold feed at hL
    rw [hL] at hp; exact hp.elim

theorem feed_append (env : Env) (hq : Quiet env) (s : BitcoinStream) (hs : Idle s)
    (a b : Buffer) :
    feed env s (a ++ b) = (feed env s a).andThen (fun t => feed env { t with busy := false } b) := by
  have hI : Inv { s with busy := true } := inv_of_fields hs.inv rfl rfl rfl rfl rfl
  have hp := loop_props env hq (fun _ _ => none) (a.length + 1) { s with busy := true } a hI
    (le_refl _)
  unfold feed
  rw [loop_append env hq _ (a.length + 1) _ a b _ (b.length + 1) hI (le_refl _) (le_refl _)
    (le_refl _)]
  cases hL : processStreamLoop env (fun _ _ => none) (a.length + 1) { s with busy := true } a with
  | normal t =>
    rw [hL] at hp
    have hb : t.busy = true := hp.2.busy_eq
    have : ({ ({ t with busy := false } : BitcoinStream) with busy := true } : BitcoinStream) = t := by
      cases t; simp_all
    simp only [Completion.andThen, this]
  | throw e t => rfl
  | timeout => rfl

theorem pushAll_nil (env : Env) (fuel : Nat) (s : BitcoinStream) :
    pushAll env fuel s [] = some s := rfl

theorem pushAll_cons (env : Env) (fuel : Nat) (s : BitcoinStream) (c : Buffer)
    (cs : List Buffer) :
    pushAll env fuel s (c :: cs) = (push env fuel s c).bind (fun t => pushAll env fuel t cs) := by
  simp [pushAll, List.foldlM_cons]

theorem pushAll_busy (env : Env) (fuel : Nat) (cs : List Buffer) :
    ∀ s : BitcoinStream, s.busy = true →
      pushAll env fuel s cs = some { s with queue := s.queue ++ cs } := by
  induction cs with
  | nil => intro s _; simp [pushAll_nil]
  | cons c cs ih =>
    intro s hb
    rw [pushAll_cons, push_busy env fuel s c hb]
    simp only [Option.some_bind]
    rw [ih { s with queue := s.queue ++ [c] } hb]
    simp

theorem settle_normal_idle_eq (s : BitcoinStream) (hb : s.busy = false) :
    ({ ({ s with busy := true } : BitcoinStream) with busy := false } : BitcoinStream) = s := by
  cases s; simp_all

theorem feed_nil (env : Env) (s : BitcoinStream) (hs : Idle s) :
    feed env s [] = Completion.normal { s with busy := true } := by
  unfold feed
  exact loop_nil env _ 0 _ (inv_of_fields hs.inv rfl rfl rfl rfl rfl)

/-- Pushing `a ++ b` on an idle stream: either `a` is decoded without error and
the push continues as a push of `b` on the stream that `a` left, or `a` ends in
an error and the push of `a ++ b` ends in the same state as the push of `a`. -/
theorem push_append_core (env : Env) (hq : Quiet env) (s : BitcoinStream) (hs : Idle s)
    (fuel : Nat) (hf : 1 ≤ fuel) (a b : Buffer) :
    ∃ s1, push env fuel s a = some s1 ∧
      ((Idle s1 ∧ push env fuel s (a ++ b) = push env fuel s1 b) ∨
       (s1.destroyed = true ∧ s1.busy = true ∧ push env fuel s (a ++ b) = some s1)) := by
  rcases push_quiet_cases env hq s hs fuel hf a with ⟨t, hfeed, _, _, hpush, hidle⟩ |
    ⟨e, t, hfeed, _, hpush⟩
  · refine ⟨_, hpush, Or.inl ⟨hidle, ?_⟩⟩
    rw [push_quiet env hq s hs fuel hf (a ++ b), feed_append env hq s hs a b, hfeed,
      push_quiet env hq _ hidle fuel hf b]
    rfl
  · refine ⟨_, hpush, Or.inr ⟨rfl, rfl, ?_⟩⟩
    rw [push_quiet env hq s hs fuel hf (a ++ b), feed_append env hq s hs a b, hfeed]
    rfl

theorem push_nil_idle (env : Env) (hq : Quiet env) (s : BitcoinStream) (hs : Idle s)
    (fuel : Nat) (hf : 1 ≤ fuel) : push env fuel s [] = some s := by
  rw [push_quiet env hq s hs fuel hf, feed_nil env s hs]
  simp only [settle]
  rw [settle_normal_idle_eq s hs.not_busy]

theorem push_total_idle (env : Env) (hq : Quiet env) (s : BitcoinStream) (hs : Idle s)
    (fuel : Nat) (hf : 1 ≤ fuel) (d : Buffer) :
    ∃ s', push env fuel s d = some s' ∧
      (Idle s' ∨ (s'.destroyed = true ∧ s'.busy = true)) := by
  rcases push_quiet_cases env hq s hs fuel hf d with ⟨t, _, _, _, hpush, hidle⟩ |
    ⟨e, t, _, _, hpush⟩
  · exact ⟨_, hpush, Or.inl hidle⟩
  · exact ⟨_, hpush, Or.inr ⟨rfl, rfl⟩⟩

/-- Chunks pushed one by one against their concatenation pushed at once: the two
final states differ at most in the queue, and are equal when no error occurred. -/
theorem pushAll_join (env : Env) (hq : Quiet env) (fuel : Nat) (hf : 1 ≤ fuel)
    (chunks : List Buffer) :
    ∀ s : BitcoinStream, Idle s →
      ∃ sw sc, push env fuel s chunks.flatten = some sw ∧ pushAll env fuel s chunks = some sc ∧
        sc = { sw with queue := sc.queue } ∧ (sw.destroyed = false → sc = sw) := by
  induction chunks with
  | nil =>
    intro s hs
    exact ⟨s, s, by simpa using push_nil_idle env hq s hs fuel hf, rfl, rfl, fun _ => rfl⟩
  | cons c cs ih =>
    intro s hs
    obtain ⟨s1, h1, hcase⟩ := push_append_core env hq s hs fuel hf c cs.flatten
    rw [pushAll_cons, h1]
    simp only [Option.some_bind, List.flatten_cons]
    rcases hcase with ⟨hidle, heq⟩ | ⟨hd, hb, heq⟩
    · rw [heq]
      exact ih s1 hidle
    · rw [heq, pushAll_busy env fuel cs s1 hb]
      exact ⟨s1, _, rfl, rfl, rfl, fun h => by rw [hd] at h; cases h⟩

theorem reachable_good (env : Env) (hq : Quiet env) (s : BitcoinStream)
    (hr : Reachable env s) : Idle s ∨ (s.destroyed = true ∧ s.busy = true) := by
  induction hr with
  | new => exact Or.inl idle_new
  | push s s' fuel packet _ hpush ih =>
    rcases ih with hidle | ⟨hd, hb⟩
    · have hf : 1 ≤ fuel := by
        rcases Nat.eq_zero_or_pos fuel with h0 | h0
        · subst h0
          simp [push, pushWith, hidle.not_busy, processLoop, drain] at hpush
        · exact h0
      obtain ⟨s'', h2, hcase⟩ := push_total_idle env hq s hidle fuel hf packet
      rw [hpush] at h2
      cases h2
      exact hcase
    · rw [push_busy env fuel s packet hb] at hpush
      cases hpush
      exact Or.inr ⟨hd, hb⟩

theorem reachable_idle (env : Env) (hq : Quiet env) (s : BitcoinStream)
    (hr : Reachable env s) (hb : s.busy = false) : Idle s := by
  rcases reachable_good env hq s hr with h | ⟨_, h⟩
  · exact h
  · rw [hb] at h; cases h

/-- Chunk-split invariance with listeners that make no call on the stream: on an
idle, non-destroyed reachable stream, `push (a ++ b)` emits the same notifications, in
the same order, as `push a` followed by `push b`, and when no error occurred the
two final states are equal (so the header buffer, `headerPos`, the body buffer,
`bodySize` and `bodyPos` are); the same holds for any list of chunks pushed one
by one against their concatenation pushed at once. -/
theorem push_chunk_split_invariance (env : Env) (hq : Quiet env) (s : BitcoinStream)
    (hr : Reachable env s) (hidle : s.busy = false) (_hnd : s.destroyed = false)
    (fuel : Nat) (hf : 1 ≤ fuel) :
    (∀ a b : Buffer, ∃ s12 s1 s2, push env fuel s (a ++ b) = some s12 ∧
        push env fuel s a = some s1 ∧ push env fuel s1 b = some s2 ∧
        s2.emitted = s12.emitted ∧ (s12.destroyed = false → s2 = s12)) ∧
    (∀ chunks : List Buffer, ∃ sw sc, push env fuel s chunks.flatten = some sw ∧
        pushAll env fuel s chunks = some sc ∧
        sc.emitted = sw.emitted ∧ (sw.destroyed = false → sc = sw)) := by
  have hs := reachable_idle env hq s hr hidle
  refine ⟨fun a b => ?_, fun chunks => ?_⟩
  swap
  · obtain ⟨sw, sc, h1, h2, h3, h4⟩ := pushAll_join env hq fuel hf chunks s hs
    exact ⟨sw, sc, h1, h2, by rw [h3], h4⟩
  obtain ⟨s1, h1, hcase⟩ := push_append_core env hq s hs fuel hf a b
  rcases hcase with ⟨hidle1, heq⟩ | ⟨hd, hb, heq⟩
  · obtain ⟨s2, h2, _⟩ := push_total_idle env hq s1 hidle1 fuel hf b
    exact ⟨s2, s1, s2, by rw [heq, h2], h1, h2, rfl, fun _ => rfl⟩
  · refine ⟨s1, s1, _, heq, h1, push_busy env fuel s1 b hb, rfl, fun h => ?_⟩
    rw [hd] at h; cases h

/-! ## Little-endian fields -/

theorem readUInt32LE_append_right (pre l : Buffer) (k : Nat) :
    readUInt32LE (pre ++ l) (pre.length + k) = readUInt32LE l k := by
  have h : ∀ j, (pre ++ l).getD (pre.length + k + j) 0 = l.getD (k + j) 0 := by
    intro j
    rw [List.getD_append_right _ _ _ _ (by omega)]
    congr 1
    omega
  have h0 := h 0
  simp only [Nat.add_zero] at h0
  unfold readUInt32LE
  rw [h0, h 1, h 2, h 3]

theorem readUInt32LE_append_left (l post : Buffer) (k : Nat) (hk : k + 4 ≤ l.length) :
    readUInt32LE (l ++ post) k = readUInt32LE l k := by
  unfold readUInt32LE
  rw [List.getD_append _ _ _ _ (by omega), List.getD_append _ _ _ _ (by omega),
    List.getD_append _ _ _ _ (by omega), List.getD_append _ _ _ _ (by omega)]

theorem readUInt32LE_uint32LE (n : Nat) (h : n < 2 ^ 32) : readUInt32LE (uint32LE n) 0 = n := by
  simp only [readUInt32LE, uint32LE, List.getD_cons_zero, List.getD_cons_succ, Fin.ofNat,
    Nat.zero_add]
  omega

theorem uint32LE_length (n : Nat) : (uint32LE n).length = 4 := rfl

theorem uint32LE_readUInt32LE (buf : Buffer) (off : Nat) (h : off + 4 ≤ buf.length) :
    uint32LE (readUInt32LE buf off) = (buf.drop off).take 4 := by
  have hsplit : buf = buf.take off ++ buf.drop off := (List.take_append_drop off buf).symm
  have hlen : (buf.take off).length = off := by simp [List.length_take]; omega
  have hdl : (buf.drop off).length = buf.length - off := by simp
  obtain ⟨b0, t0, h0⟩ : ∃ b0 t0, buf.drop off = b0 :: t0 :=
    List.exists_cons_of_length_pos (by omega)
  have ht0 : t0.length + 1 = buf.length - off := by rw [← hdl, h0]; rfl
  obtain ⟨b1, t1, h1⟩ : ∃ b1 t1, t0 = b1 :: t1 := List.exists_cons_of_length_pos (by omega)
  subst h1
  obtain ⟨b2, t2, h2⟩ : ∃ b2 t2, t1 = b2 :: t2 :=
    List.exists_cons_of_length_pos (by simp at ht0; omega)
  subst h2
  obtain ⟨b3, t3, h3⟩ : ∃ b3 t3, t2 = b3 :: t3 :=
    List.exists_cons_of_length_pos (by simp at ht0; omega)
  subst h3
  have hr : readUInt32LE buf off = readUInt32LE (b0 :: b1 :: b2 :: b3 :: t3) 0 := by
    conv_lhs => rw [hsplit, h0]
    have := readUInt32LE_append_right (buf.take off) (b0 :: b1 :: b2 :: b3 :: t3) 0
    rw [hlen] at this
    simpa using this
  rw [hr, h0]
  simp only [readUInt32LE, uint32LE, List.getD_cons_zero, List.getD_cons_succ, Nat.zero_add,
    List.take_succ_cons, List.take_zero]
  have e0 := b0.isLt
  have e1 := b1.isLt
  have e2 := b2.isLt
  have e3 := b3.isLt
  congr 1
  · apply Fin.ext; simp only [Fin.ofNat]; omega
  congr 1
  · apply Fin.ext; simp only [Fin.ofNat]; omega
  congr 1
  · apply Fin.ext; simp only [Fin.ofNat]; omega
  congr 1
  · apply Fin.ext; simp only [Fin.ofNat]; omega

theorem readUInt32LE_lt (buf : Buffer) (off : Nat) : readUInt32LE buf off < 2 ^ 32 := by
  unfold readUInt32LE
  have e0 := (buf.getD off 0).isLt
  have e1 := (buf.getD (off + 1) 0).isLt
  have e2 := (buf.getD (off + 2) 0).isLt
  have e3 := (buf.getD (off + 3) 0).isLt
  omega

theorem subarray_4_16 (buf : Buffer) : subarray buf 4 16 = (buf.drop 4).take 12 := by
  have := subarray_natCast buf 4 16
  simpa using this

theorem subarray_20_24 (buf : Buffer) : subarray buf 20 24 = (buf.drop 20).take 4 := by
  have := subarray_natCast buf 20 24
  simpa using this

theorem subarray_0_4 (buf : Buffer) : subarray buf 0 4 = buf.take 4 := by
  have := subarray_zero_natCast buf 4
  simpa using this

/-! ## Headers, bodies and frames -/

theorem loop_exact (env : Env) (r : BitcoinStream → Buffer → Option BitcoinStream) (f : Nat)
    (s : BitcoinStream) (x : Buffer) (h : Inv s) (hx : x.length = need s) :
    processStreamLoop env r (f + 1) s x =
      complete env r (decide (s.headerPos = 24)) (absorb s x) := by
  rw [loop_succ, pass_eq env r s x h, if_neg (by omega)]
  have h1 : List.take (need s) x = x := List.take_of_length_le (by omega)
  have h2 : List.drop (need s) x = [] := List.drop_eq_nil_of_le (by omega)
  rw [h1, h2]
  cases complete env r (decide (s.headerPos = 24)) (absorb s x) <;> simp [advanceN]

theorem loop_short (env : Env) (r : BitcoinStream → Buffer → Option BitcoinStream) (f : Nat)
    (s : BitcoinStream) (x : Buffer) (h : Inv s) (hx : x.length < need s) :
    processStreamLoop env r (f + 1) s x = Completion.normal (absorb s x) := by
  rw [loop_succ, pass_eq env r s x h, if_pos hx]

theorem splice_full (buf src : Buffer) (h : src.length = buf.length) : splice buf src 0 = src := by
  unfold splice
  simp [List.drop_eq_nil_of_le (le_of_eq h.symm)]

theorem idle_busy_inv (s : BitcoinStream) (hs : Idle s) : Inv { s with busy := true } :=
  inv_of_fields hs.inv rfl rfl rfl rfl rfl

/-- The 24 bytes of a header given to a stream that awaits a header. -/
theorem feed_header (env : Env) (s : BitcoinStream) (hs : Clean s) (hdr : Buffer)
    (hlen : hdr.length = 24) :
    feed env s hdr = completeHeader env (fun _ _ => none)
      { s with busy := true, header := hdr, headerPos := 24 } := by
  have hI := idle_busy_inv s hs.idle
  have hhp : ({ s with busy := true } : BitcoinStream).headerPos = 0 := hs.at_header
  have hneed : need { s with busy := true } = 24 := by simp [need, hs.at_header]
  unfold feed
  rw [loop_exact env _ _ _ hdr hI (by rw [hneed, hlen])]
  have hne : ¬ (({ s with busy := true } : BitcoinStream).headerPos = 24) := by rw [hhp]; omega
  have hab : absorb { s with busy := true } hdr =
      { s with busy := true, header := hdr, headerPos := 24 } := by
    unfold absorb
    rw [if_neg hne]
    have h1 : splice s.header hdr 0 = hdr := splice_full _ _ (by rw [hlen, hs.idle.inv.header_len])
    simp [hs.at_header, h1, hlen]
  rw [hab]
  simp [complete, hne]

/-- The bytes of a body given to a stream that awaits exactly these bytes. -/
theorem feed_body (env : Env) (s : BitcoinStream) (hs : Idle s) (body : Buffer)
    (hhp : s.headerPos = 24) (hbp : s.bodyPos = 0) (hsz : s.bodySize = some body.length) :
    feed env s body = receivedBody env (fun _ _ => none)
      { s with busy := true, body := body ++ s.body.drop body.length, bodyPos := body.length }
      body := by
  have hI := idle_busy_inv s hs
  obtain ⟨L, hL, hL2, _⟩ := hs.inv.in_body hhp
  have hLe : L = body.length := by rw [hsz] at hL; injection hL with h; exact h.symm
  subst hLe
  have hneed : need { s with busy := true } = body.length := by simp [need, hhp, hsz, hbp]
  unfold feed
  rw [loop_exact env _ _ _ body hI (by rw [hneed])]
  have hm : ({ s with busy := true } : BitcoinStream).headerPos = 24 := hhp
  have hab : absorb { s with busy := true } body =
      { s with busy := true, body := body ++ s.body.drop body.length,
               bodyPos := body.length } := by
    unfold absorb
    rw [if_pos hm]
    simp [splice, hbp]
  rw [hab]
  have hb := hs.inv.body_len
  have hac : allocCopy (body ++ List.drop body.length s.body) body.length = body := by
    unfold allocCopy
    have : body.length - (body ++ List.drop body.length s.body).length = 0 := by simp
    rw [this]
    simp
  simp [complete, hhp, completeBody, hac]

theorem Frame.bytes_eq (env : Env) (f : Frame) : f.bytes env = f.header env ++ f.body := rfl

theorem headerBytes_length (cmd chk : Buffer) (L : Nat) (hc : cmd.length = 12)
    (hk : chk.length = 4) : (headerBytes cmd L chk).length = 24 := by
  simp [headerBytes, uint32LE_length, hc, hk]

theorem headerBytes_magic (cmd chk : Buffer) (L : Nat) :
    readUInt32LE (headerBytes cmd L chk) 0 = MAGIC_BYTE := by
  unfold headerBytes
  rw [List.append_assoc, List.append_assoc,
    readUInt32LE_append_left _ _ 0 (by simp [uint32LE_length])]
  exact readUInt32LE_uint32LE MAGIC_BYTE (by decide)

theorem headerBytes_size (cmd chk : Buffer) (L : Nat) (hc : cmd.length = 12)
    (hL : L < 2 ^ 32) : readUInt32LE (headerBytes cmd L chk) 16 = L := by
  unfold headerBytes
  rw [List.append_assoc]
  have hpre : (uint32LE MAGIC_BYTE ++ cmd).length = 16 := by
    simp [uint32LE_length, hc]
  have := readUInt32LE_append_right (uint32LE MAGIC_BYTE ++ cmd) (uint32LE L ++ chk) 0
  rw [hpre] at this
  rw [this, readUInt32LE_append_left _ _ 0 (by simp [uint32LE_length])]
  exact readUInt32LE_uint32LE _ hL

theorem headerBytes_command (cmd chk : Buffer) (L : Nat) (hc : cmd.length = 12) :
    subarray (headerBytes cmd L chk) 4 16 = cmd := by
  rw [subarray_4_16]
  unfold headerBytes
  rw [List.append_assoc, List.append_assoc, List.drop_left' (uint32LE_length _),
    List.take_left' hc]

theorem headerBytes_checksum (cmd chk : Buffer) (L : Nat) (hc : cmd.length = 12)
    (hk : chk.length = 4) : subarray (headerBytes cmd L chk) 20 24 = chk := by
  rw [subarray_20_24]
  unfold headerBytes
  have hpre : (uint32LE MAGIC_BYTE ++ cmd ++ uint32LE L).length = 20 := by
    simp [uint32LE_length, hc]
  rw [List.drop_left' hpre, List.take_of_length_le (by rw [hk])]

theorem Frame.header_length (env : Env) (f : Frame) (hf : f.WellFormed env) :
    (f.header env).length = 24 :=
  headerBytes_length _ _ _ hf.command_len hf.checksum_len

theorem Frame.header_magic (env : Env) (f : Frame) :
    readUInt32LE (f.header env) 0 = MAGIC_BYTE :=
  headerBytes_magic _ _ _

theorem Frame.header_size (env : Env) (f : Frame) (hf : f.WellFormed env) :
    readUInt32LE (f.header env) 16 = f.body.length := by
  have hb := hf.body_len
  unfold MAX_PAYLOAD_LENGTH at hb
  exact headerBytes_size _ _ _ hf.command_len (by omega)

theorem Frame.header_command (env : Env) (f : Frame) (hf : f.WellFormed env) :
    subarray (f.header env) 4 16 = f.command :=
  headerBytes_command _ _ _ hf.command_len

theorem Frame.header_checksum (env : Env) (f : Frame) (hf : f.WellFormed env) :
    subarray (f.header env) 20 24 = f.checksum env :=
  headerBytes_checksum _ _ _ hf.command_len hf.checksum_len

theorem completeHeader_frame (env : Env) (hq : Quiet env)
    (r : BitcoinStream → Buffer → Option BitcoinStream) (s : BitcoinStream) (f : Frame)
    (hf : f.WellFormed env) (hs : s.header = f.header env) :
    completeHeader env r s =
      if f.body.length = 0 then
        Completion.normal (newMessage { s with emitted := s.emitted ++
          [Event.message (f.message env)] })
      else Completion.normal { s with bodySize := some f.body.length } := by
  have hb := hf.body_len
  unfold completeHeader
  rw [hs]
  simp only [Frame.header_magic, Frame.header_size env f hf, ne_eq, not_true_eq_false, if_false,
    gt_iff_lt, Nat.not_lt.mpr hb]
  by_cases hz : f.body.length = 0
  · have hnil : f.body = [] := List.eq_nil_of_length_eq_zero hz
    rw [if_pos hz, if_pos hz, receivedBody_quiet env hq, hs]
    have hck : subarray (doubleHash env NO_PAYLOAD) 0 4 = subarray (f.header env) 20 24 := by
      rw [Frame.header_checksum env f hf, subarray_0_4]
      simp [Frame.checksum, hnil, NO_PAYLOAD]
    simp only [hck, ne_eq, not_true_eq_false, if_false]
    simp [Frame.message, Frame.header_command env f hf, hnil, NO_PAYLOAD]
  · rw [if_neg hz, if_neg hz]

theorem receivedBody_frame (env : Env) (hq : Quiet env)
    (r : BitcoinStream → Buffer → Option BitcoinStream) (s : BitcoinStream) (f : Frame)
    (hf : f.WellFormed env) (hs : s.header = f.header env) :
    receivedBody env r s f.body =
      Completion.normal (newMessage { s with emitted := s.emitted ++
        [Event.message (f.message env)] }) := by
  rw [receivedBody_quiet env hq, hs]
  have hck : subarray (doubleHash env f.body) 0 4 = subarray (f.header env) 20 24 := by
    rw [Frame.header_checksum env f hf, subarray_0_4]
    rfl
  simp only [hck, ne_eq, not_true_eq_false, if_false]
  simp [Frame.message, Frame.header_command env f hf]

/-- A well-formed frame given to a stream that awaits a header: its message is
emitted and the stream awaits a header again. -/
theorem feed_frame (env : Env) (hq : Quiet env) (s : BitcoinStream) (hs : Clean s) (f : Frame)
    (hf : f.WellFormed env) :
    ∃ t, feed env s (f.bytes env) = Completion.normal t ∧ t.headerPos = 0 ∧
      t.emitted = s.emitted ++ [Event.message (f.message env)] := by
  have hhl := Frame.header_length env f hf
  have h0 : s.bodyPos = 0 := hs.idle.inv.in_header (by rw [hs.at_header]; omega)
  have hH := feed_header env s hs _ hhl
  rw [completeHeader_frame env hq _ _ f hf rfl] at hH
  by_cases hz : f.body.length = 0
  · have hnil : f.body = [] := List.eq_nil_of_length_eq_zero hz
    rw [if_pos hz] at hH
    rw [Frame.bytes_eq, hnil, List.append_nil, hH]
    exact ⟨_, rfl, by simp [newMessage], by simp [newMessage]⟩
  · rw [if_neg hz] at hH
    rw [Frame.bytes_eq, feed_append env hq s hs.idle, hH]
    simp only [Completion.andThen]
    rcases push_quiet_cases env hq s hs.idle 1 (le_refl 1) (f.header env) with
      ⟨t, hfeed, _, _, _, hidle⟩ | ⟨e, t, hfeed, _, _⟩
    · rw [hH] at hfeed
      cases hfeed
      rw [feed_body env _ hidle f.body rfl h0 rfl, receivedBody_frame env hq _ _ f hf rfl]
      exact ⟨_, rfl, by simp [newMessage], by simp [newMessage]⟩
    · rw [hH] at hfeed
      cases hfeed

theorem push_frame (env : Env) (hq : Quiet env) (fuel : Nat) (hfl : 1 ≤ fuel)
    (s : BitcoinStream) (hs : Clean s) (f : Frame) (hf : f.WellFormed env) :
    ∃ s', push env fuel s (f.bytes env) = some s' ∧ Clean s' ∧
      s'.emitted = s.emitted ++ [Event.message (f.message env)] := by
  obtain ⟨t, hfeed, hhp, hem⟩ := feed_frame env hq s hs f hf
  rcases push_quiet_cases env hq s hs.idle fuel hfl (f.bytes env) with
    ⟨t', hfeed', _, _, hpush, hidle⟩ | ⟨e, t', hfeed', _, _⟩
  · rw [hfeed] at hfeed'
    cases hfeed'
    exact ⟨_, hpush, ⟨hidle, hhp⟩, hem⟩
  · rw [hfeed] at hfeed'
    cases hfeed'

theorem framesBytes_cons (env : Env) (f : Frame) (fs : List Frame) :
    framesBytes env (f :: fs) = f.bytes env ++ framesBytes env fs := by
  simp [framesBytes]

/-- Well-formed frames at the start of a chunk are decoded one after the other,
and the push goes on with the rest of the chunk on a stream that awaits a header. -/
theorem push_frames_then (env : Env) (hq : Quiet env) (fuel : Nat) (hfl : 1 ≤ fuel)
    (frames : List Frame) (hwf : ∀ f ∈ frames, f.WellFormed env) :
    ∀ s : BitcoinStream, Clean s →
      ∃ s', Clean s' ∧ s'.emitted = s.emitted ++ framesEvents env frames ∧
        ∀ rest, push env fuel s (framesBytes env frames ++ rest) = push env fuel s' rest := by
  induction frames with
  | nil =>
    intro s hs
    exact ⟨s, hs, by simp [framesEvents], fun rest => by simp [framesBytes]⟩
  | cons f fs ih =>
    intro s hs
    obtain ⟨s1, hpush, hclean, hem⟩ :=
      push_frame env hq fuel hfl s hs f (hwf f (List.mem_cons_self _ _))
    obtain ⟨s', hclean', hem', hrest⟩ :=
      ih (fun g hg => hwf g (List.mem_cons_of_mem _ hg)) s1 hclean
    refine ⟨s', hclean', ?_, fun rest => ?_⟩
    · rw [hem', hem]
      simp [framesEvents]
    · rw [framesBytes_cons, List.append_assoc, ← hrest rest]
      obtain ⟨s1', h1, hcase⟩ :=
        push_append_core env hq s hs.idle fuel hfl (f.bytes env) (framesBytes env fs ++ rest)
      rw [hpush] at h1
      cases h1
      rcases hcase with ⟨_, heq⟩ | ⟨hd, _, _⟩
      · exact heq
      · rw [hclean.idle.not_destroyed] at hd; cases hd

theorem clean_new : Clean BitcoinStream.new := ⟨idle_new, rfl⟩

/-- C1. The concatenation of well-formed frames pushed as one chunk to a new
stream, with listeners that make no call: one `message` per frame, in frame order,
each with the decoded command field and exactly the body bytes of its frame, no
`streamError`, and at the end `headerPos = 0`, `bodyPos = 0`, `busy` and
`destroyed` unset. -/
theorem push_wellFormed_frames (env : Env) (hq : Quiet env) (fuel : Nat) (hfl : 1 ≤ fuel)
    (frames : List Frame) (hwf : ∀ f ∈ frames, f.WellFormed env) :
    ∃ s', push env fuel BitcoinStream.new (framesBytes env frames) = some s' ∧
      s'.emitted = frames.map (fun f => Event.message
        { command := BufferToString env f.command, body := f.body }) ∧
      s'.headerPos = 0 ∧ s'.bodyPos = 0 ∧ s'.busy = false ∧ s'.destroyed = false := by
  obtain ⟨s', hclean, hem, hrest⟩ :=
    push_frames_then env hq fuel hfl frames hwf BitcoinStream.new clean_new
  have h := hrest []
  rw [List.append_nil, push_nil_idle env hq s' hclean.idle fuel hfl] at h
  refine ⟨s', h, ?_, hclean.at_header, ?_, hclean.idle.not_busy, hclean.idle.not_destroyed⟩
  · rw [hem]
    simp [BitcoinStream.new, framesEvents, Frame.message]
  · exact hclean.idle.inv.in_header (by rw [hclean.at_header]; omega)

theorem push_throw_then (env : Env) (hq : Quiet env) (fuel : Nat) (hfl : 1 ≤ fuel)
    (s : BitcoinStream) (hs : Idle s) (x : Buffer) (e : Errors) (t : BitcoinStream)
    (hx : feed env s x = Completion.throw e t) (tail : Buffer) :
    push env fuel s (x ++ tail) = settle (Completion.throw e t) := by
  rw [push_quiet env hq s hs fuel hfl, feed_append env hq s hs, hx]
  rfl

theorem pushAll_of_flatten (env : Env) (hq : Quiet env) (fuel : Nat) (hfl : 1 ≤ fuel)
    (s : BitcoinStream) (hs : Idle s) (chunks : List Buffer) (sw : BitcoinStream)
    (h : push env fuel s chunks.flatten = some sw) :
    ∃ sc, pushAll env fuel s chunks = some sc ∧ sc = { sw with queue := sc.queue } ∧
      (sw.destroyed = false → sc = sw) := by
  obtain ⟨sw', sc, h1, h2, h3, h4⟩ := pushAll_join env hq fuel hfl chunks s hs
  rw [h] at h1
  cases h1
  exact ⟨sc, h2, h3, h4⟩

theorem magic_ne_of_take (bad : Buffer) (hlen : bad.length = 24)
    (hm : bad.take 4 ≠ uint32LE MAGIC_BYTE) : readUInt32LE bad 0 ≠ MAGIC_BYTE := by
  intro h
  apply hm
  have := uint32LE_readUInt32LE bad 0 (by omega)
  rw [h] at this
  simpa using this.symm

/-- A completed header whose first four bytes are not the magic value. -/
theorem feed_bad_magic (env : Env) (s : BitcoinStream) (hs : Clean s) (bad : Buffer)
    (hlen : bad.length = 24) (hm : bad.take 4 ≠ uint32LE MAGIC_BYTE) :
    ∃ t, feed env s bad = Completion.throw Errors.UnsupportedNetwork t ∧
      t.emitted = s.emitted := by
  rw [feed_header env s hs bad hlen]
  unfold completeHeader
  rw [if_pos (magic_ne_of_take bad hlen hm)]
  exact ⟨_, rfl, rfl⟩

/-- A completed header with the magic value and a declared length above 2048. -/
theorem feed_too_long (env : Env) (s : BitcoinStream) (hs : Clean s) (cmd chk : Buffer)
    (L : Nat) (hc : cmd.length = 12) (hk : chk.length = 4) (hL : L < 2 ^ 32)
    (hbig : MAX_PAYLOAD_LENGTH < L) :
    ∃ t, feed env s (headerBytes cmd L chk) = Completion.throw Errors.PayloadExceedsLimit t ∧
      t.emitted = s.emitted ∧ t.body = s.body ∧ t.bodyPos = s.bodyPos ∧
      t.bodySize = s.bodySize := by
  rw [feed_header env s hs _ (headerBytes_length cmd chk L hc hk)]
  unfold completeHeader
  simp only [headerBytes_magic, headerBytes_size cmd chk L hc hL, ne_eq, not_true_eq_false,
    if_false, gt_iff_lt, hbig, if_true]
  exact ⟨_, rfl, rfl, rfl, rfl, rfl⟩

/-- A frame with the magic value, a declared length equal to the length of its
body and at most 2048, and a checksum field that is not the checksum of the body. -/
theorem feed_bad_checksum (env : Env) (hq : Quiet env) (s : BitcoinStream) (hs : Clean s)
    (cmd chk body : Buffer) (hc : cmd.length = 12) (hk : chk.length = 4)
    (hb : body.length ≤ MAX_PAYLOAD_LENGTH) (hbad : chk ≠ (doubleHash env body).take 4) :
    ∃ t, feed env s (headerBytes cmd body.length chk ++ body) =
        Completion.throw Errors.InvalidChecksum t ∧ t.emitted = s.emitted := by
  have hhl := headerBytes_length cmd chk body.length hc hk
  have h0 : s.bodyPos = 0 := hs.idle.inv.in_header (by rw [hs.at_header]; omega)
  have hL : body.length < 2 ^ 32 := by unfold MAX_PAYLOAD_LENGTH at hb; omega
  have hck : ¬ (subarray (doubleHash env body) 0 4 =
      subarray (headerBytes cmd body.length chk) 20 24) := by
    rw [headerBytes_checksum cmd chk _ hc hk, subarray_0_4]
    exact fun h => hbad h.symm
  have hH := feed_header env s hs _ hhl
  unfold completeHeader at hH
  simp only [headerBytes_magic, headerBytes_size cmd chk _ hc hL, ne_eq, not_true_eq_false,
    if_false, gt_iff_lt, Nat.not_lt.mpr hb] at hH
  by_cases hz : body.length = 0
  · have hnil : body = [] := List.eq_nil_of_length_eq_zero hz
    subst hnil
    rw [if_pos hz, receivedBody_quiet env hq] at hH
    rw [List.append_nil, hH]
    have hck' : subarray (doubleHash env NO_PAYLOAD) 0 4 ≠
        subarray (headerBytes cmd ([] : Buffer).length chk) 20 24 := hck
    rw [if_pos hck']
    exact ⟨_, rfl, rfl⟩
  · rw [if_neg hz] at hH
    rw [feed_append env hq s hs.idle, hH]
    simp only [Completion.andThen]
    rcases push_quiet_cases env hq s hs.idle 1 (le_refl 1) (headerBytes cmd body.length chk) with
      ⟨t, hfeed, _, _, _, hidle⟩ | ⟨e, t, hfeed, _, _⟩
    · rw [hH] at hfeed
      cases hfeed
      rw [feed_body env _ hidle body rfl h0 rfl, receivedBody_quiet env hq]
      have hck' : subarray (doubleHash env body) 0 4 ≠
        subarray (headerBytes cmd body.length chk) 20 24 := hck
      rw [if_pos hck']
      exact ⟨_, rfl, rfl⟩
    · rw [hH] at hfeed
      cases hfeed

/-- Well-formed frames, then bytes on which the decoder throws, then anything,
in any chunking: the messages of the frames, then one `streamError`. -/
theorem pushAll_frames_error (env : Env) (hq : Quiet env) (fuel : Nat) (hfl : 1 ≤ fuel)
    (s : BitcoinStream) (hs : Clean s) (frames : List Frame)
    (hwf : ∀ f ∈ frames, f.WellFormed env) (x : Buffer) (e : Errors)
    (hx : ∀ s1, Clean s1 → ∃ t, feed env s1 x = Completion.throw e t ∧ t.emitted = s1.emitted)
    (tail : Buffer) (chunks : List Buffer)
    (hch : chunks.flatten = framesBytes env frames ++ x ++ tail) :
    ∃ s', pushAll env fuel s chunks = some s' ∧
      s'.emitted = s.emitted ++ framesEvents env frames ++ [Event.streamError e] ∧
      s'.destroyed = true ∧ s'.busy = true := by
  obtain ⟨s1, hclean, hem, hrest⟩ := push_frames_then env hq fuel hfl frames hwf s hs
  obtain ⟨t, hfeed, hemt⟩ := hx s1 hclean
  have hpush : push env fuel s chunks.flatten = settle (Completion.throw e t) := by
    rw [hch, List.append_assoc, hrest, push_throw_then env hq fuel hfl s1 hclean.idle x e t hfeed]
  obtain ⟨sc, hsc, hq1, _⟩ := pushAll_of_flatten env hq fuel hfl s hs.idle chunks _ hpush
  refine ⟨sc, hsc, ?_, ?_, ?_⟩
  · rw [hq1]; simp [hemt, hem]
  · rw [hq1]
  · rw [hq1]

theorem reachable_clean (env : Env) (hq : Quiet env) (s : BitcoinStream)
    (hr : Reachable env s) (hb : s.busy = false) (hhp : s.headerPos = 0) : Clean s :=
  ⟨reachable_idle env hq s hr hb, hhp⟩

/-- Fewer than 24 bytes given to a stream that awaits a header: they are stored at
the start of the header buffer and nothing is emitted. -/
theorem push_short_header (env : Env) (hq : Quiet env) (fuel : Nat) (hfl : 1 ≤ fuel)
    (s : BitcoinStream) (hs : Clean s) (x : Buffer) (hx : x.length < 24) :
    ∃ s', push env fuel s x = some s' ∧ Idle s' ∧ s'.emitted = s.emitted ∧
      s'.headerPos = x.length ∧ s'.header.take x.length = x ∧ s'.bodyPos = 0 := by
  have hI := idle_busy_inv s hs.idle
  have hneed : need { s with busy := true } = 24 := by simp [need, hs.at_header]
  have hfeed : feed env s x = Completion.normal (absorb { s with busy := true } x) := by
    unfold feed
    exact loop_short env _ _ _ x hI (by rw [hneed]; exact hx)
  have h0 : s.bodyPos = 0 := hs.idle.inv.in_header (by rw [hs.at_header]; omega)
  have hne : ¬ (s.headerPos = 24) := by rw [hs.at_header]; omega
  rcases push_quiet_cases env hq s hs.idle fuel hfl x with
    ⟨t, hfeed', _, _, hpush, hidle⟩ | ⟨e, t, hfeed', _, _⟩
  · rw [hfeed] at hfeed'
    cases hfeed'
    refine ⟨_, hpush, hidle, ?_, ?_, ?_, ?_⟩
    · simp [absorb, hne]
    · simp [absorb, hne, hs.at_header]
    · have := take_splice s.header x 0 (by rw [hs.idle.inv.header_len]; omega)
      simpa [absorb, hne, hs.at_header] using this
    · simpa [absorb, hne] using h0
  · rw [hfeed] at hfeed'
    cases hfeed'

/-- C7. A header with the magic value, declared length 0 and the checksum of the
empty body, pushed in any chunking to a stream that awaits a header at
`headerPos = 0` (listeners make no call): one `message` with an empty body is
emitted with no further byte, and the stream is left awaiting a header with
`headerPos = 0` and `bodyPos = 0`; fewer than 24 bytes that follow the header in
the same chunk are stored as the start of the next header. -/
theorem zero_length_frame (env : Env) (hq : Quiet env) (fuel : Nat) (hfl : 1 ≤ fuel)
    (s : BitcoinStream) (hr : Reachable env s) (hidle : s.busy = false)
    (hhp : s.headerPos = 0) (cmd : Buffer) (hc : cmd.length = 12)
    (hk : ((doubleHash env []).take 4).length = 4) :
    (∀ chunks : List Buffer, chunks.flatten = headerBytes cmd 0 ((doubleHash env []).take 4) →
      ∃ s', pushAll env fuel s chunks = some s' ∧
        s'.emitted = s.emitted ++
          [Event.message { command := BufferToString env cmd, body := [] }] ∧
        s'.headerPos = 0 ∧ s'.bodyPos = 0 ∧ s'.busy = false ∧ s'.destroyed = false) ∧
    (∀ tail : Buffer, tail.length < 24 →
      ∃ s', push env fuel s (headerBytes cmd 0 ((doubleHash env []).take 4) ++ tail) = some s' ∧
        s'.emitted = s.emitted ++
          [Event.message { command := BufferToString env cmd, body := [] }] ∧
        s'.headerPos = tail.length ∧ s'.header.take tail.length = tail ∧ s'.bodyPos = 0 ∧
        s'.busy = false ∧ s'.destroyed = false) := by
  have hs := reachable_clean env hq s hr hidle hhp
  have hwf : (⟨cmd, []⟩ : Frame).WellFormed env := ⟨hc, by simp, hk⟩
  have hbytes : (⟨cmd, []⟩ : Frame).bytes env = headerBytes cmd 0 ((doubleHash env []).take 4) := by
    simp [Frame.bytes, Frame.header, Frame.checksum]
  obtain ⟨s1, hpush, hclean, hem⟩ := push_frame env hq fuel hfl s hs ⟨cmd, []⟩ hwf
  rw [hbytes] at hpush
  constructor
  · intro chunks hch
    rw [← hch] at hpush
    obtain ⟨sc, hsc, _, heq⟩ := pushAll_of_flatten env hq fuel hfl s hs.idle chunks s1 hpush
    have := heq hclean.idle.not_destroyed
    subst this
    exact ⟨sc, hsc, hem, hclean.at_header,
      hclean.idle.inv.in_header (by rw [hclean.at_header]; omega), hclean.idle.not_busy,
      hclean.idle.not_destroyed⟩
  · intro tail htail
    obtain ⟨s1', h1, hcase⟩ := push_append_core env hq s hs.idle fuel hfl
      (headerBytes cmd 0 ((doubleHash env []).take 4)) tail
    rw [hpush] at h1
    cases h1
    rcases hcase with ⟨_, heq⟩ | ⟨hd, _, _⟩
    · obtain ⟨s2, h2, hidle2, hem2, hhp2, hhdr2, hbp2⟩ :=
        push_short_header env hq fuel hfl s1 hclean tail htail
      rw [heq]
      exact ⟨s2, h2, by rw [hem2, hem]; rfl, hhp2, hhdr2, hbp2, hidle2.not_busy,
        hidle2.not_destroyed⟩
    · rw [hclean.idle.not_destroyed] at hd; cases hd

/-- A completed header with the magic value and a declared length of at most 2048:
what the stream emits on it is nothing, a message, or `InvalidChecksum`. -/
theorem push_header_in_limit (env : Env) (hq : Quiet env) (fuel : Nat) (hfl : 1 ≤ fuel)
    (s : BitcoinStream) (hs : Clean s) (cmd chk : Buffer) (L : Nat) (hc : cmd.length = 12)
    (hk : chk.length = 4) (hL : L ≤ MAX_PAYLOAD_LENGTH) :
    ∃ s', push env fuel s (headerBytes cmd L chk) = some s' ∧
      (s'.emitted = s.emitted ∨ (∃ m, s'.emitted = s.emitted ++ [Event.message m]) ∨
        s'.emitted = s.emitted ++ [Event.streamError Errors.InvalidChecksum]) := by
  have hhl := headerBytes_length cmd chk L hc hk
  have hL' : L < 2 ^ 32 := by unfold MAX_PAYLOAD_LENGTH at hL; omega
  have hH := feed_header env s hs _ hhl
  unfold completeHeader at hH
  simp only [headerBytes_magic, headerBytes_size cmd chk _ hc hL', ne_eq, not_true_eq_false,
    if_false, gt_iff_lt, Nat.not_lt.mpr hL] at hH
  rw [push_quiet env hq s hs.idle fuel hfl, hH]
  by_cases hz : L = 0
  · rw [if_pos hz, receivedBody_quiet env hq]
    split_ifs with hck
    · exact ⟨_, rfl, Or.inr (Or.inr rfl)⟩
    · exact ⟨_, rfl, Or.inr (Or.inl ⟨_, rfl⟩)⟩
  · rw [if_neg hz]
    exact ⟨_, rfl, Or.inl rfl⟩

/-- C5. A completed header with the magic value, pushed in any chunking to a
stream that awaits a header (listeners make no call): the notification
`streamError PayloadExceedsLimit` is emitted if and only if the little-endian
value `L` of its bytes 16..19 is greater than 2048; and when `L > 2048`, whatever
follows the header, exactly that one notification is added and the body buffer,
`bodyPos` and `bodySize` are what they were before the header. -/
theorem length_check_payloadExceedsLimit (env : Env) (hq : Quiet env) (fuel : Nat)
    (hfl : 1 ≤ fuel) (s : BitcoinStream) (hr : Reachable env s) (hidle : s.busy = false)
    (hhp : s.headerPos = 0) (cmd chk : Buffer) (L : Nat) (hc : cmd.length = 12)
    (hk : chk.length = 4) (hL : L < 2 ^ 32) :
    (∀ chunks : List Buffer, chunks.flatten = headerBytes cmd L chk →
      ∃ s', pushAll env fuel s chunks = some s' ∧
        (Event.streamError Errors.PayloadExceedsLimit ∈ s'.emitted.drop s.emitted.length ↔
          2048 < L)) ∧
    (2048 < L → ∀ (tail : Buffer) (chunks : List Buffer),
      chunks.flatten = headerBytes cmd L chk ++ tail →
      ∃ s', pushAll env fuel s chunks = some s' ∧
        s'.emitted = s.emitted ++ [Event.streamError Errors.PayloadExceedsLimit] ∧
        s'.body = s.body ∧ s'.bodyPos = s.bodyPos ∧ s'.bodySize = s.bodySize) := by
  have hs := reachable_clean env hq s hr hidle hhp
  have hbig : 2048 < L → ∀ (tail : Buffer) (chunks : List Buffer),
      chunks.flatten = headerBytes cmd L chk ++ tail →
      ∃ s', pushAll env fuel s chunks = some s' ∧
        s'.emitted = s.emitted ++ [Event.streamError Errors.PayloadExceedsLimit] ∧
        s'.body = s.body ∧ s'.bodyPos = s.bodyPos ∧ s'.bodySize = s.bodySize := by
    intro hgt tail chunks hch
    obtain ⟨t, hfeed, hem, hbody, hbp, hbs⟩ := feed_too_long env s hs cmd chk L hc hk hL hgt
    have hpush := push_throw_then env hq fuel hfl s hs.idle _ _ t hfeed tail
    rw [← hch] at hpush
    obtain ⟨sc, hsc, hq1, _⟩ := pushAll_of_flatten env hq fuel hfl s hs.idle chunks _ hpush
    refine ⟨sc, hsc, ?_, ?_, ?_, ?_⟩
    · rw [hq1]; simp [hem]
    · rw [hq1]; exact hbody
    · rw [hq1]; exact hbp
    · rw [hq1]; exact hbs
  refine ⟨fun chunks hch => ?_, hbig⟩
  by_cases hgt : 2048 < L
  · obtain ⟨s', h1, h2, _⟩ := hbig hgt [] chunks (by rw [hch, List.append_nil])
    refine ⟨s', h1, ?_⟩
    rw [h2]
    simp [hgt]
  · obtain ⟨sw, hpush, hem⟩ := push_header_in_limit env hq fuel hfl s hs cmd chk L hc hk
      (by unfold MAX_PAYLOAD_LENGTH; omega)
    rw [← hch] at hpush
    obtain ⟨sc, hsc, hq1, _⟩ := pushAll_of_flatten env hq fuel hfl s hs.idle chunks _ hpush
    refine ⟨sc, hsc, ?_⟩
    have hemc : sc.emitted = sw.emitted := by rw [hq1]
    rw [hemc]
    rcases hem with h | ⟨m, h⟩ | h <;> rw [h] <;> simp [hgt]

/-! ## Soundness of the emitted messages -/

theorem header_decompose (h : Buffer) (hlen : h.length = 24)
    (hm : readUInt32LE h 0 = MAGIC_BYTE) :
    h = headerBytes ((h.drop 4).take 12) (readUInt32LE h 16) ((h.drop 20).take 4) := by
  have h1 := uint32LE_readUInt32LE h 0 (by omega)
  have h2 := uint32LE_readUInt32LE h 16 (by omega)
  rw [hm] at h1
  simp only [List.drop_zero] at h1
  unfold headerBytes
  rw [h1, h2]
  have e1 : List.take 4 h ++ List.take 12 (List.drop 4 h) = List.take 16 h := by
    have := List.take_add h 4 12
    simpa using this.symm
  have e2 : List.take 16 h ++ List.take 4 (List.drop 16 h) = List.take 20 h := by
    have := List.take_add h 16 4
    simpa using this.symm
  have e3 : List.take 20 h ++ List.take 4 (List.drop 20 h) = List.take 24 h := by
    have := List.take_add h 20 4
    simpa using this.symm
  rw [e1, e2, e3, List.take_of_length_le (by omega)]

/-- A header that passes the checks and announces a body, then fewer bytes than
the body has: nothing is emitted. -/
theorem push_header_short_body (env : Env) (hq : Quiet env) (fuel : Nat) (hfl : 1 ≤ fuel)
    (s : BitcoinStream) (hs : Clean s) (cmd chk : Buffer) (L : Nat) (hc : cmd.length = 12)
    (hk : chk.length = 4) (hL : L ≤ MAX_PAYLOAD_LENGTH) (hz : L ≠ 0) (d1 : Buffer)
    (hd1 : d1.length < L) :
    ∃ s', push env fuel s (headerBytes cmd L chk ++ d1) = some s' ∧ s'.emitted = s.emitted := by
  have hhl := headerBytes_length cmd chk L hc hk
  have hL' : L < 2 ^ 32 := by unfold MAX_PAYLOAD_LENGTH at hL; omega
  have h0 : s.bodyPos = 0 := hs.idle.inv.in_header (by rw [hs.at_header]; omega)
  have hH := feed_header env s hs _ hhl
  unfold completeHeader at hH
  simp only [headerBytes_magic, headerBytes_size cmd chk _ hc hL', ne_eq, not_true_eq_false,
    if_false, gt_iff_lt, Nat.not_lt.mpr hL, hz] at hH
  rcases push_quiet_cases env hq s hs.idle fuel hfl (headerBytes cmd L chk) with
    ⟨t, hfeed, _, _, hpush, hidle⟩ | ⟨e, t, hfeed, _, _⟩
  · rw [hH] at hfeed
    cases hfeed
    obtain ⟨s1', h1, hcase⟩ := push_append_core env hq s hs.idle fuel hfl
      (headerBytes cmd L chk) d1
    rw [hpush] at h1
    cases h1
    rcases hcase with ⟨_, heq⟩ | ⟨hd, _, _⟩
    · rw [heq, push_quiet env hq _ hidle fuel hfl]
      have hI := idle_busy_inv _ hidle
      have hfeed2 := loop_short env (fun _ _ => none) d1.length _ d1 hI
        (by simp [need, h0]; omega)
      unfold feed
      rw [hfeed2]
      refine ⟨_, rfl, ?_⟩
      simp [absorb]
    · simp at hd
      rw [hs.idle.not_destroyed] at hd; cases hd
  · rw [hH] at hfeed
    cases hfeed

theorem decode_error (env : Env) (hq : Quiet env) (fuel : Nat) (hfl : 1 ≤ fuel)
    (s : BitcoinStream) (hs : Clean s) (x tail : Buffer) (e : Errors)
    (hx : ∃ t, feed env s x = Completion.throw e t ∧ t.emitted = s.emitted) :
    ∃ (frames : List Frame) (rest : Buffer) (s' : BitcoinStream),
      x ++ tail = framesBytes env frames ++ rest ∧
      (∀ f ∈ frames, f.WellFormed env) ∧ push env fuel s (x ++ tail) = some s' ∧
      (s'.emitted = s.emitted ++ framesEvents env frames ∨
        ∃ e, s'.emitted = s.emitted ++ framesEvents env frames ++ [Event.streamError e]) := by
  obtain ⟨t, hfeed, hem⟩ := hx
  refine ⟨[], x ++ tail, _, by simp [framesBytes], by simp,
    push_throw_then env hq fuel hfl s hs.idle x e t hfeed tail, Or.inr ⟨e, ?_⟩⟩
  simp [settle, hem, framesEvents]

/-- One chunk given to a stream that awaits a header: the messages emitted are
those of well-formed frames that stand one after the other at the start of the
chunk, possibly followed by one `streamError`. -/
theorem decode_sound (env : Env) (hq : Quiet env) (fuel : Nat) (hfl : 1 ≤ fuel) :
    ∀ (n : Nat) (d : Buffer), d.length ≤ n → ∀ s : BitcoinStream, Clean s →
    ∃ (frames : List Frame) (rest : Buffer) (s' : BitcoinStream),
      d = framesBytes env frames ++ rest ∧
      (∀ f ∈ frames, f.WellFormed env) ∧ push env fuel s d = some s' ∧
      (s'.emitted = s.emitted ++ framesEvents env frames ∨
        ∃ e, s'.emitted = s.emitted ++ framesEvents env frames ++ [Event.streamError e]) := by
  intro n
  induction n with
  | zero =>
    intro d hd s hs
    have hnil : d = [] := List.eq_nil_of_length_eq_zero (by omega)
    subst hnil
    exact ⟨[], [], s, by simp [framesBytes], by simp, push_nil_idle env hq s hs.idle fuel hfl,
      Or.inl (by simp [framesEvents])⟩
  | succ n ih =>
    intro d hd s hs
    -- a frame `f` at the start of the chunk, then the induction hypothesis
    have hframe : ∀ (f : Frame) (d' : Buffer), f.WellFormed env → d = f.bytes env ++ d' →
        ∃ (frames : List Frame) (rest : Buffer) (s' : BitcoinStream),
          d = framesBytes env frames ++ rest ∧
          (∀ f ∈ frames, f.WellFormed env) ∧ push env fuel s d = some s' ∧
          (s'.emitted = s.emitted ++ framesEvents env frames ∨
            ∃ e, s'.emitted = s.emitted ++ framesEvents env frames ++ [Event.streamError e]) := by
      intro f d' hwf hdeq
      have hfl24 : (f.bytes env).length ≥ 24 := by
        rw [Frame.bytes_eq, List.length_append, Frame.header_length env f hwf]; omega
      have hd' : d'.length ≤ n := by
        have : d.length = (f.bytes env).length + d'.length := by rw [hdeq]; simp
        omega
      obtain ⟨s1, hclean, hem, hrest⟩ := push_frames_then env hq fuel hfl [f]
        (by intro g hg; simp at hg; rw [hg]; exact hwf) s hs
      obtain ⟨frames, rest, s', h1, h2, h3, h4⟩ := ih d' hd' s1 hclean
      refine ⟨f :: frames, rest, s', ?_, ?_, ?_, ?_⟩
      · rw [hdeq, framesBytes_cons, List.append_assoc, ← h1]
      · intro g hg
        rcases List.mem_cons.mp hg with rfl | hg
        · exact hwf
        · exact h2 g hg
      · have := hrest d'
        simp only [framesBytes, List.map_cons, List.map_nil, List.flatten_cons, List.flatten_nil,
          List.append_nil] at this
        rw [hdeq, this, h3]
      · simp only [framesEvents, List.map_cons, List.map_nil] at hem h4 ⊢
        rcases h4 with h4 | ⟨e, h4⟩
        · left; rw [h4, hem]; simp
        · right; exact ⟨e, by rw [h4, hem]; simp⟩
    by_cases hshort : d.length < 24
    · obtain ⟨s', h1, _, h2, _⟩ := push_short_header env hq fuel hfl s hs d hshort
      exact ⟨[], d, s', by simp [framesBytes], by simp, h1, Or.inl (by simp [framesEvents, h2])⟩
    · have hsplit : d = d.take 24 ++ d.drop 24 := (List.take_append_drop 24 d).symm
      have hhl : (d.take 24).length = 24 := by simp [List.length_take]; omega
      by_cases hm : readUInt32LE (d.take 24) 0 = MAGIC_BYTE
      swap
      · -- the magic value is wrong
        rw [hsplit]
        refine decode_error env hq fuel hfl s hs _ _ Errors.UnsupportedNetwork ?_
        rw [feed_header env s hs _ hhl]
        unfold completeHeader
        rw [if_pos hm]
        exact ⟨_, rfl, rfl⟩
      have hdec := header_decompose (d.take 24) hhl hm
      generalize hcmd : ((d.take 24).drop 4).take 12 = cmd at hdec
      generalize hLdef : readUInt32LE (d.take 24) 16 = L at hdec
      generalize hchk : ((d.take 24).drop 20).take 4 = chk at hdec
      have hc : cmd.length = 12 := by rw [← hcmd]; simp [List.length_take]; omega
      have hk : chk.length = 4 := by rw [← hchk]; simp [List.length_take]; omega
      have hL32 : L < 2 ^ 32 := by rw [← hLdef]; exact readUInt32LE_lt _ _
      by_cases hbig : MAX_PAYLOAD_LENGTH < L
      · -- the declared length is above the limit
        rw [hsplit, hdec]
        exact decode_error env hq fuel hfl s hs _ _ Errors.PayloadExceedsLimit
          (by
            obtain ⟨t, h1, h2, _⟩ := feed_too_long env s hs cmd chk L hc hk hL32 hbig
            exact ⟨t, h1, h2⟩)
      have hLle : L ≤ MAX_PAYLOAD_LENGTH := by omega
      by_cases hlong : (d.drop 24).length < L
      · -- the body is not complete
        have hz : L ≠ 0 := by omega
        obtain ⟨s', h1, h2⟩ := push_header_short_body env hq fuel hfl s hs cmd chk L hc hk hLle hz
          (d.drop 24) hlong
        rw [← hdec, ← hsplit] at h1
        exact ⟨[], d, s', by simp [framesBytes], by simp, h1,
          Or.inl (by simp [framesEvents, h2])⟩
      · have hbl : ((d.drop 24).take L).length = L := by
          rw [List.length_take]; omega
        have hsplit2 : d = headerBytes cmd L chk ++ (d.drop 24).take L ++ (d.drop 24).drop L := by
          rw [List.append_assoc, List.take_append_drop, ← hdec, ← hsplit]
        by_cases hsum : chk = (doubleHash env ((d.drop 24).take L)).take 4
        · -- a well-formed frame
          have hwf : (⟨cmd, (d.drop 24).take L⟩ : Frame).WellFormed env :=
            ⟨hc, by rw [hbl]; exact hLle, by simp only [Frame.checksum]; rw [← hsum]; exact hk⟩
          refine hframe ⟨cmd, (d.drop 24).take L⟩ ((d.drop 24).drop L) hwf ?_
          simp only [Frame.bytes, Frame.header, Frame.checksum]
          rw [hbl, ← hsum]
          exact hsplit2
        · -- the checksum is wrong
          rw [hsplit2]
          have := feed_bad_checksum env hq s hs cmd chk ((d.drop 24).take L) hc hk
            (by rw [hbl]; exact hLle) hsum
          rw [hbl] at this
          exact decode_error env hq fuel hfl s hs _ _ Errors.InvalidChecksum this

/-- C3. Soundness of emission: for every sequence of chunks pushed to a new stream
(listeners make no call), the byte stream starts with the bytes of well-formed
frames (magic value, declared length equal to the body length and at most 2048,
checksum field equal to the first four bytes of `doubleHash(body)`) standing one
after the other, and the notifications are exactly the messages of these frames,
in order, possibly followed by one `streamError`: no message is emitted for
anything else. -/
theorem emitted_messages_sound (env : Env) (hq : Quiet env) (fuel : Nat) (hfl : 1 ≤ fuel)
    (chunks : List Buffer) :
    ∃ (s' : BitcoinStream) (frames : List Frame) (rest : Buffer),
      pushAll env fuel BitcoinStream.new chunks = some s' ∧
      chunks.flatten = framesBytes env frames ++ rest ∧
      (∀ f ∈ frames, f.WellFormed env) ∧
      (s'.emitted = frames.map (fun f => Event.message (f.message env)) ∨
        ∃ e, s'.emitted = frames.map (fun f => Event.message (f.message env)) ++
          [Event.streamError e]) := by
  obtain ⟨frames, rest, sw, h1, h2, h3, h4⟩ :=
    decode_sound env hq fuel hfl chunks.flatten.length chunks.flatten (le_refl _)
      BitcoinStream.new clean_new
  obtain ⟨sc, hsc, hq1, _⟩ := pushAll_of_flatten env hq fuel hfl BitcoinStream.new idle_new
    chunks sw h3
  have hem : sc.emitted = sw.emitted := by rw [hq1]
  refine ⟨sc, frames, rest, hsc, h1, h2, ?_⟩
  rw [hem]
  simpa [BitcoinStream.new, framesEvents] using h4

/-- Well-formed frames, then bytes on which the decoder emits nothing and does not
throw, in any chunking: the messages of the frames and nothing else. -/
theorem pushAll_frames_silent (env : Env) (hq : Quiet env) (fuel : Nat) (hfl : 1 ≤ fuel)
    (s : BitcoinStream) (hs : Clean s) (frames : List Frame)
    (hwf : ∀ f ∈ frames, f.WellFormed env) (x : Buffer)
    (hx : ∀ s1, Clean s1 → ∃ s', push env fuel s1 x = some s' ∧ s'.emitted = s1.emitted)
    (chunks : List Buffer) (hch : chunks.flatten = framesBytes env frames ++ x) :
    ∃ s', pushAll env fuel s chunks = some s' ∧
      s'.emitted = s.emitted ++ framesEvents env frames := by
  obtain ⟨s1, hclean, hem, hrest⟩ := push_frames_then env hq fuel hfl frames hwf s hs
  obtain ⟨sw, hsw, hemw⟩ := hx s1 hclean
  have hpush : push env fuel s chunks.flatten = some sw := by
    rw [hch, hrest, hsw]
  obtain ⟨sc, hsc, hq1, _⟩ := pushAll_of_flatten env hq fuel hfl s hs.idle chunks _ hpush
  refine ⟨sc, hsc, ?_⟩
  rw [hq1]
  simp [hemw, hem]

/-- A proper start of a frame that has the magic value and a declared length of
at most 2048, equal to the length of its body: nothing is emitted on it. -/
theorem push_frame_start (env : Env) (hq : Quiet env) (fuel : Nat) (hfl : 1 ≤ fuel)
    (s : BitcoinStream) (hs : Clean s) (cmd chk body : Buffer) (hc : cmd.length = 12)
    (hk : chk.length = 4) (hb : body.length ≤ MAX_PAYLOAD_LENGTH) (k : Nat)
    (hkl : k < 24 + body.length) :
    ∃ s', push env fuel s ((headerBytes cmd body.length chk ++ body).take k) = some s' ∧
      s'.emitted = s.emitted := by
  have hhl := headerBytes_length cmd chk body.length hc hk
  by_cases hk24 : k < 24
  · obtain ⟨s', h1, _, h2, _⟩ := push_short_header env hq fuel hfl s hs
      ((headerBytes cmd body.length chk ++ body).take k)
      (by rw [List.length_take]; omega)
    exact ⟨s', h1, h2⟩
  · have htake : (headerBytes cmd body.length chk ++ body).take k =
        headerBytes cmd body.length chk ++ body.take (k - 24) := by
      rw [List.take_append_eq_append_take, hhl, List.take_of_length_le (by omega)]
    rw [htake]
    exact push_header_short_body env hq fuel hfl s hs cmd chk body.length hc hk hb (by omega)
      (body.take (k - 24)) (by rw [List.length_take]; omega)

/-- C4. A new stream, listeners that make no call, and a byte stream made of
well-formed frames, then a header whose first four bytes are not the
little-endian encoding of `0xD9B4BEF9` (its other 20 bytes are arbitrary), then
anything: in any chunking the notifications are the messages of the frames
followed by exactly one `streamError` carrying `UnsupportedNetwork`, already
when the chunks end with the 24th byte of that header, and whatever follows in
the same chunk or in later chunks adds nothing. As long as fewer than 24 bytes of
that header have been pushed, only the messages of the frames are emitted. -/
theorem bad_magic_unsupportedNetwork (env : Env) (hq : Quiet env) (fuel : Nat) (hfl : 1 ≤ fuel)
    (frames : List Frame) (hwf : ∀ f ∈ frames, f.WellFormed env) (bad : Buffer)
    (hlen : bad.length = 24) (hm : bad.take 4 ≠ uint32LE MAGIC_BYTE) :
    (∀ (tail : Buffer) (chunks : List Buffer),
      chunks.flatten = framesBytes env frames ++ bad ++ tail →
      ∃ s', pushAll env fuel BitcoinStream.new chunks = some s' ∧
        s'.emitted = frames.map (fun f => Event.message (f.message env)) ++
          [Event.streamError Errors.UnsupportedNetwork] ∧
        s'.destroyed = true) ∧
    (∀ (k : Nat) (chunks : List Buffer), k < 24 →
      chunks.flatten = framesBytes env frames ++ bad.take k →
      ∃ s', pushAll env fuel BitcoinStream.new chunks = some s' ∧
        s'.emitted = frames.map (fun f => Event.message (f.message env))) := by
  constructor
  · intro tail chunks hch
    obtain ⟨s', h1, h2, h3, _⟩ := pushAll_frames_error env hq fuel hfl BitcoinStream.new
      clean_new frames hwf bad Errors.UnsupportedNetwork
      (fun s1 hs1 => feed_bad_magic env s1 hs1 bad hlen hm) tail chunks hch
    refine ⟨s', h1, ?_, h3⟩
    rw [h2]
    simp [BitcoinStream.new, framesEvents]
  · intro k chunks hk hch
    obtain ⟨s', h1, h2⟩ := pushAll_frames_silent env hq fuel hfl BitcoinStream.new clean_new
      frames hwf (bad.take k)
      (fun s1 hs1 => by
        obtain ⟨s', h1, _, h2, _⟩ := push_short_header env hq fuel hfl s1 hs1 (bad.take k)
          (by rw [List.length_take]; omega)
        exact ⟨s', h1, h2⟩)
      chunks hch
    refine ⟨s', h1, ?_⟩
    rw [h2]
    simp [BitcoinStream.new, framesEvents]

/-- C6. A stream that awaits a header, listeners that make no call, and a byte
stream made of well-formed frames, then a frame with the magic value, a declared
length `L ≤ 2048` equal to the length of its body and a checksum field that
differs from the first four bytes of `doubleHash(body)`, then anything: in any
chunking (one chunk included) the notifications added are the messages of the
frames that precede, then exactly one `streamError` carrying `InvalidChecksum`;
the message of the failing frame and of the frames after it are not emitted. As
long as the last byte of the failing frame has not been pushed, only the messages
of the frames that precede are emitted. -/
theorem bad_checksum_invalidChecksum (env : Env) (hq : Quiet env) (fuel : Nat) (hfl : 1 ≤ fuel)
    (s : BitcoinStream) (hr : Reachable env s) (hidle : s.busy = false)
    (hhp : s.headerPos = 0) (frames : List Frame) (hwf : ∀ f ∈ frames, f.WellFormed env)
    (cmd chk body : Buffer) (hc : cmd.length = 12) (hk : chk.length = 4)
    (hb : body.length ≤ MAX_PAYLOAD_LENGTH) (hbad : chk ≠ (doubleHash env body).take 4) :
    (∀ (tail : Buffer) (chunks : List Buffer),
      chunks.flatten =
        framesBytes env frames ++ (headerBytes cmd body.length chk ++ body) ++ tail →
      ∃ s', pushAll env fuel s chunks = some s' ∧
        s'.emitted = s.emitted ++ frames.map (fun f => Event.message (f.message env)) ++
          [Event.streamError Errors.InvalidChecksum] ∧
        s'.destroyed = true) ∧
    (∀ (k : Nat) (chunks : List Buffer), k < 24 + body.length →
      chunks.flatten =
        framesBytes env frames ++ (headerBytes cmd body.length chk ++ body).take k →
      ∃ s', pushAll env fuel s chunks = some s' ∧
        s'.emitted = s.emitted ++ frames.map (fun f => Event.message (f.message env))) := by
  have hs := reachable_clean env hq s hr hidle hhp
  constructor
  · intro tail chunks hch
    obtain ⟨s', h1, h2, h3, _⟩ := pushAll_frames_error env hq fuel hfl s hs frames hwf
      (headerBytes cmd body.length chk ++ body) Errors.InvalidChecksum
      (fun s1 hs1 => feed_bad_checksum env hq s1 hs1 cmd chk body hc hk hb hbad) tail chunks hch
    exact ⟨s', h1, h2, h3⟩
  · intro k chunks hkl hch
    exact pushAll_frames_silent env hq fuel hfl s hs frames hwf _
      (fun s1 hs1 => push_frame_start env hq fuel hfl s1 hs1 cmd chk body hc hk hb k hkl)
      chunks hch

/-! ## Listeners that call `push`: the drain and its end on an error -/

theorem grows_refl (s : BitcoinStream) : Grows s s := ⟨rfl, rfl, ⟨[], by simp⟩⟩

theorem grows_trans {s t u : BitcoinStream} (h1 : Grows s t) (h2 : Grows t u) : Grows s u := by
  obtain ⟨n1, hn1⟩ := h1.emitted_ext
  obtain ⟨n2, hn2⟩ := h2.emitted_ext
  exact ⟨h2.busy_eq.trans h1.busy_eq, h2.destroyed_eq.trans h1.destroyed_eq,
    ⟨n1 ++ n2, by rw [hn2, hn1, List.map_append, List.append_assoc]⟩⟩

theorem pushWith_busy (r : BitcoinStream → Buffer → Option BitcoinStream) (s : BitcoinStream)
    (p : Buffer) (hb : s.busy = true) :
    pushWith r s p = some { s with queue := s.queue ++ [p] } := by
  simp [pushWith, hb]

theorem foldlM_pushWith_busy (r : BitcoinStream → Buffer → Option BitcoinStream)
    (cs : List Buffer) : ∀ s : BitcoinStream, s.busy = true →
      cs.foldlM (pushWith r) s = some { s with queue := s.queue ++ cs } := by
  induction cs with
  | nil => intro s _; simp
  | cons c cs ih =>
    intro s hb
    rw [List.foldlM_cons, pushWith_busy r s c hb]
    simp only [Option.bind_eq_bind, Option.some_bind]
    rw [ih { s with queue := s.queue ++ [c] } hb]
    simp

/-- The method `destroy`: the flags are set, the queue is emptied, the
notification is emitted, and the queue then receives what the listener pushes. -/
theorem destroy_eq (env : Env) (r : BitcoinStream → Buffer → Option BitcoinStream)
    (s : BitcoinStream) (e : Errors) :
    destroy env r s e = some { s with destroyed := true, busy := true,
                                      queue := env.onStreamError s.emitted e,
                                      emitted := s.emitted ++ [Event.streamError e] } := by
  unfold destroy emitStreamError
  rw [foldlM_pushWith_busy r _ _ rfl]
  simp

theorem foldlM_runAction_pushOnly (env : Env)
    (r : BitcoinStream → Buffer → Option BitcoinStream) (acts : List Action) :
    (∀ a ∈ acts, ∃ p, a = Action.push p) → ∀ s : BitcoinStream, s.busy = true →
      acts.foldlM (runAction env r) s = some { s with queue := s.queue ++ pushedChunks acts } := by
  induction acts with
  | nil => intro _ s _; simp [pushedChunks]
  | cons a acts ih =>
    intro hall s hb
    obtain ⟨p, rfl⟩ := hall a (List.mem_cons_self _ _)
    rw [List.foldlM_cons]
    simp only [runAction, pushWith_busy r s p hb, Option.bind_eq_bind, Option.some_bind]
    rw [ih (fun b hb' => hall b (List.mem_cons_of_mem _ hb')) { s with queue := s.queue ++ [p] } hb]
    simp [pushedChunks]

theorem emitMessage_pushOnly (env : Env) (hpo : PushOnly env)
    (r : BitcoinStream → Buffer → Option BitcoinStream) (s : BitcoinStream) (m : Message)
    (hb : s.busy = true) :
    emitMessage env r s m = some { s with emitted := s.emitted ++ [Event.message m],
                                          queue := s.queue ++
                                            pushedChunks (env.onMessage s.emitted m) } := by
  unfold emitMessage
  rw [foldlM_runAction_pushOnly env r _ (hpo s.emitted m)
    { s with emitted := s.emitted ++ [Event.message m] } hb]

theorem receivedBody_pushOnly (env : Env) (hpo : PushOnly env)
    (r : BitcoinStream → Buffer → Option BitcoinStream) (s : BitcoinStream) (mb : Buffer)
    (hb : s.busy = true) :
    receivedBody env r s mb =
      if subarray (doubleHash env mb) 0 4 ≠ subarray s.header 20 24 then
        Completion.throw Errors.InvalidChecksum s
      else Completion.normal (newMessage { s with
        emitted := s.emitted ++ [Event.message
          { command := BufferToString env (subarray s.header 4 16), body := mb }],
        queue := s.queue ++ pushedChunks (env.onMessage s.emitted
          { command := BufferToString env (subarray s.header 4 16), body := mb }) }) := by
  unfold receivedBody
  simp only [emitMessage_pushOnly env hpo r s _ hb]

theorem receivedBody_grows (env : Env) (hpo : PushOnly env)
    (r : BitcoinStream → Buffer → Option BitcoinStream) (s0 s : BitcoinStream) (mb : Buffer)
    (hb : s.busy = true) (hg : Grows s0 s) :
    match receivedBody env r s mb with
    | Completion.normal t => Grows s0 t
    | Completion.throw _ t => Grows s0 t
    | Completion.timeout => False := by
  rw [receivedBody_pushOnly env hpo r s mb hb]
  split_ifs
  · exact hg
  · exact grows_trans hg ⟨rfl, rfl, ⟨[_], rfl⟩⟩

theorem advance_grows (s0 : BitcoinStream) (c : Completion) (d : Buffer) (ptr : Int)
    (h : match c with
      | Completion.normal t => Grows s0 t
      | Completion.throw _ t => Grows s0 t
      | Completion.timeout => False) :
    match advance c d ptr with
    | Pass.continue t _ => Grows s0 t
    | Pass.break t => Grows s0 t
    | Pass.throw _ t => Grows s0 t
    | Pass.timeout => False := by
  cases c with
  | normal t =>
    simp only [advance]
    split_ifs <;> exact h
  | throw e t => exact h
  | timeout => exact h

/-- A pass with a `message` listener that only pushes, on a busy stream: the flags
are unchanged and only messages are emitted. -/
theorem pass_grows (env : Env) (hpo : PushOnly env)
    (r : BitcoinStream → Buffer → Option BitcoinStream) (s : BitcoinStream) (d : Buffer)
    (hb : s.busy = true) :
    match pass env r s d with
    | Pass.continue t _ => Grows s t
    | Pass.break t => Grows s t
    | Pass.throw _ t => Grows s t
    | Pass.timeout => False := by
  unfold pass
  by_cases hm : s.headerPos = 24
  · simp only [hm, if_true]
    cases bufSet s.body (subarray d 0 (((s.bodySize.getD 0 : Nat) : Int) - (s.bodyPos : Int)))
        s.bodyPos with
    | none => exact grows_refl s
    | some buf =>
      simp only
      split_ifs
      · exact advance_grows s _ _ _
          (receivedBody_grows env hpo r s _ _ hb ⟨rfl, rfl, ⟨[], by simp⟩⟩)
      · exact ⟨rfl, rfl, ⟨[], by simp⟩⟩
  · simp only [hm, if_false]
    cases bufSet s.header (subarray d 0 ((24 : Int) - (s.headerPos : Int))) s.headerPos with
    | none => exact grows_refl s
    | some buf =>
      simp only
      split_ifs
      · exact ⟨rfl, rfl, ⟨[], by simp⟩⟩
      · exact ⟨rfl, rfl, ⟨[], by simp⟩⟩
      · exact advance_grows s _ _ _
          (receivedBody_grows env hpo r s _ _ hb ⟨rfl, rfl, ⟨[], by simp⟩⟩)
      · exact advance_grows s _ _ _ (show Grows s _ from ⟨rfl, rfl, ⟨[], by simp⟩⟩)
      · exact ⟨rfl, rfl, ⟨[], by simp⟩⟩

theorem loop_grows (env : Env) (hpo : PushOnly env)
    (r : BitcoinStream → Buffer → Option BitcoinStream) :
    ∀ (f : Nat) (s : BitcoinStream) (d : Buffer), s.busy = true →
    match processStreamLoop env r f s d with
    | Completion.normal t => Grows s t
    | Completion.throw _ t => Grows s t
    | Completion.timeout => True := by
  intro f
  induction f with
  | zero => intro s d _; simp [processStreamLoop]
  | succ n ih =>
    intro s d hb
    have hp := pass_grows env hpo r s d hb
    rw [loop_succ]
    cases hP : pass env r s d with
    | «continue» t rest =>
      rw [hP] at hp
      simp only
      have := ih t rest (hp.busy_eq.trans hb)
      cases hL : processStreamLoop env r n t rest with
      | normal u => rw [hL] at this; exact grows_trans hp this
      | throw e u => rw [hL] at this; exact grows_trans hp this
      | timeout => trivial
    | «break» t => rw [hP] at hp; exact hp
    | throw e t => rw [hP] at hp; exact hp
    | timeout => rw [hP] at hp; exact hp.elim

theorem processStream_grows (env : Env) (hpo : PushOnly env)
    (r : BitcoinStream → Buffer → Option BitcoinStream) (s : BitcoinStream) (d : Buffer)
    (hb : s.busy = true) :
    match processStream env r s d with
    | Completion.normal t => Grows s t
    | Completion.throw _ t => Grows s t
    | Completion.timeout => True := by
  unfold processStream
  split_ifs
  · exact grows_refl s
  · exact loop_grows env hpo r _ s d hb

/-- The state in which `destroy` leaves the stream `s1` when it is called with `e`. -/
theorem drain_caught (env : Env) : ∀ (fuel : Nat) (s : BitcoinStream) (p : Buffer)
    (s' : BitcoinStream) (e : Errors), drain env fuel s p = some (s', some e) →
    ∃ s1 : BitcoinStream, s'.destroyed = true ∧ s'.busy = true ∧
      s'.queue = env.onStreamError s1.emitted e ∧
      s'.emitted = s1.emitted ++ [Event.streamError e] := by
  intro fuel
  induction fuel with
  | zero => intro s p s' e h; simp [drain] at h
  | succ n ih =>
    intro s p s' e h
    rw [drain_succ] at h
    cases hP : processStream env
        (fun t q => (drain env n { t with busy := true } q).map Prod.fst) s p with
    | timeout => rw [hP] at h; simp at h
    | throw e1 s1 =>
      rw [hP] at h
      simp only [destroy_eq, Option.map_some', Option.some.injEq, Prod.mk.injEq] at h
      obtain ⟨h1, h2⟩ := h
      cases h2
      subst h1
      exact ⟨s1, rfl, rfl, rfl, rfl⟩
    | normal s1 =>
      rw [hP] at h
      simp only at h
      cases hq : s1.queue with
      | nil => rw [hq] at h; simp at h
      | cons q rest =>
        rw [hq] at h
        exact ih _ _ _ _ h

/-- C9. A stream destroyed by the error `e` caught in the drain of a `push`
(whatever the listeners do): it is left with `destroyed` and `busy` set, the
`streamError` is the last notification although the listener may have pushed
chunks while it ran, and every later sequence of calls of `push` returns, emits
nothing and leaves `destroyed` and `busy` set. -/
theorem destroyed_stream_stays_silent (env : Env) (fuel : Nat) (s : BitcoinStream)
    (packet : Buffer) (s' : BitcoinStream) (e : Errors)
    (h : processLoop env fuel s packet = some (s', some e)) :
    s'.destroyed = true ∧ s'.busy = true ∧
    s'.emitted.getLast? = some (Event.streamError e) ∧
    ∀ (fuel' : Nat) (chunks : List Buffer), ∃ s'', pushAll env fuel' s' chunks = some s'' ∧
      s''.emitted = s'.emitted ∧ s''.destroyed = true ∧ s''.busy = true := by
  obtain ⟨s1, hd, hb, _, hem⟩ := drain_caught env fuel _ packet s' e h
  refine ⟨hd, hb, by rw [hem]; simp, fun fuel' chunks => ?_⟩
  exact ⟨_, pushAll_busy env fuel' chunks s' hb, rfl, hd, hb⟩

theorem drain_caught_pushOnly (env : Env) (hpo : PushOnly env) :
    ∀ (fuel : Nat) (s : BitcoinStream) (p : Buffer) (s' : BitcoinStream) (e : Errors),
    s.busy = true → drain env fuel s p = some (s', some e) →
    ∃ msgs : List Message,
      s'.emitted = s.emitted ++ msgs.map Event.message ++ [Event.streamError e] ∧
      s'.queue = env.onStreamError (s.emitted ++ msgs.map Event.message) e := by
  intro fuel
  induction fuel with
  | zero => intro s p s' e _ h; simp [drain] at h
  | succ n ih =>
    intro s p s' e hb h
    rw [drain_succ] at h
    have hg := processStream_grows env hpo
      (fun t q => (drain env n { t with busy := true } q).map Prod.fst) s p hb
    cases hP : processStream env
        (fun t q => (drain env n { t with busy := true } q).map Prod.fst) s p with
    | timeout => rw [hP] at h; simp at h
    | throw e1 s1 =>
      rw [hP] at h hg
      simp only [destroy_eq, Option.map_some', Option.some.injEq, Prod.mk.injEq] at h
      obtain ⟨h1, h2⟩ := h
      cases h2
      subst h1
      obtain ⟨msgs, hm⟩ := hg.emitted_ext
      exact ⟨msgs, by simp [hm], by simp [hm]⟩
    | normal s1 =>
      rw [hP] at h hg
      simp only at h
      cases hq : s1.queue with
      | nil => rw [hq] at h; simp at h
      | cons q rest =>
        rw [hq] at h
        obtain ⟨msgs1, hm1⟩ := hg.emitted_ext
        obtain ⟨msgs2, hm2, hq2⟩ := ih { s1 with queue := rest } q s' e (hg.busy_eq.trans hb) h
        refine ⟨msgs1 ++ msgs2, ?_, ?_⟩
        · rw [hm2, hm1]; simp
        · rw [hq2, hm1]; simp

/-- C10, as amended. With a `message` listener that only pushes: when the drain of
a `push` ends because `processStream` threw `e`, the stream is left with
`destroyed` and `busy` set; the notifications of this push are messages followed
by exactly one `streamError`, which carries `e` and is the last one, so no chunk
is processed after the failing one; and the queue holds exactly the chunks that
the `streamError` listener pushed while it ran (none when it pushes nothing):
the chunks queued before the error are dropped. -/
theorem drain_stops_on_error (env : Env) (hpo : PushOnly env) (fuel : Nat)
    (s : BitcoinStream) (packet : Buffer) (s' : BitcoinStream) (e : Errors)
    (h : processLoop env fuel s packet = some (s', some e)) :
    s'.destroyed = true ∧ s'.busy = true ∧
    ∃ msgs : List Message,
      s'.emitted = s.emitted ++ msgs.map Event.message ++ [Event.streamError e] ∧
      s'.queue = env.onStreamError (s.emitted ++ msgs.map Event.message) e := by
  obtain ⟨_, hd, hb, _, _⟩ := drain_caught env fuel _ packet s' e h
  exact ⟨hd, hb, drain_caught_pushOnly env hpo fuel { s with busy := true } packet s' e rfl h⟩

/-! ## Listeners that call `push`: the order of processing -/

theorem pushOnly_quiet (env : Env) : PushOnly env.quiet := by
  intro h m a ha
  simp [Env.quiet] at ha

theorem pushesAlong_append (env : Env) (new1 : List Event) :
    ∀ (hist : List Event) (new2 : List Event),
    pushesAlong env hist (new1 ++ new2) =
      pushesAlong env hist new1 ++ pushesAlong env (hist ++ new1) new2 := by
  induction new1 with
  | nil => intro hist new2; simp [pushesAlong]
  | cons ev rest ih =>
    intro hist new2
    cases ev with
    | message m =>
      have h := ih (hist ++ [Event.message m]) new2
      rw [List.cons_append]
      simp only [pushesAlong]
      rw [h]
      simp [List.append_assoc]
    | streamError e =>
      have h := ih (hist ++ [Event.streamError e]) new2
      rw [List.cons_append]
      simp only [pushesAlong]
      rw [h]
      simp [List.append_assoc]

theorem requeue_self (env : Env) (q : List Buffer) (s : BitcoinStream) :
    requeue env s.emitted q s = { s with queue := q } := by
  simp [requeue, pushesAlong]

theorem receivedBody_sim (env : Env) (hpo : PushOnly env)
    (r r' : BitcoinStream → Buffer → Option BitcoinStream) (s sQ : BitcoinStream)
    (q : List Buffer) (mb : Buffer) (hb : sQ.busy = true) (hs : s = { sQ with queue := q }) :
    receivedBody env r s mb =
      (receivedBody env.quiet r' sQ mb).mapState (requeue env sQ.emitted q) := by
  subst hs
  rw [receivedBody_pushOnly env hpo r { sQ with queue := q } mb hb,
    receivedBody_pushOnly env.quiet (pushOnly_quiet env) r' sQ mb hb]
  have hdh : doubleHash env.quiet mb = doubleHash env mb := rfl
  have hbs : ∀ b, BufferToString env.quiet b = BufferToString env b := fun _ => rfl
  simp only [hdh, hbs]
  split_ifs
  · simp [Completion.mapState, requeue, pushesAlong]
  · simp [Completion.mapState, requeue, pushesAlong, newMessage, Env.quiet, pushedChunks]

theorem advance_mapState (f : BitcoinStream → BitcoinStream) (c : Completion) (d : Buffer)
    (ptr : Int) : advance (c.mapState f) d ptr = (advance c d ptr).mapState f := by
  cases c with
  | normal t =>
    simp only [Completion.mapState, advance]
    split_ifs <;> rfl
  | throw e t => rfl
  | timeout => rfl

/-- One pass with a `message` listener that only pushes, on a busy stream, against
the same pass with listeners that make no call: the same result, except that the
queue has received the pushed chunks. -/
theorem pass_sim (env : Env) (hpo : PushOnly env)
    (r r' : BitcoinStream → Buffer → Option BitcoinStream) (sQ : BitcoinStream)
    (q : List Buffer) (d : Buffer) (hb : sQ.busy = true) :
    pass env r { sQ with queue := q } d =
      (pass env.quiet r' sQ d).mapState (requeue env sQ.emitted q) := by
  unfold pass
  simp only []
  by_cases hm : sQ.headerPos = 24
  · rw [if_pos hm, if_pos hm]
    cases bufSet sQ.body (subarray d 0 (((sQ.bodySize.getD 0 : Nat) : Int) - (sQ.bodyPos : Int)))
        sQ.bodyPos with
    | none => simp [Pass.mapState, requeue, pushesAlong]
    | some buf =>
      simp only
      split_ifs
      · rw [← advance_mapState]
        congr 1
        exact receivedBody_sim env hpo r r' _ _ q _ hb rfl
      · simp [Pass.mapState, requeue, pushesAlong]
  · rw [if_neg hm, if_neg hm]
    cases bufSet sQ.header (subarray d 0 ((24 : Int) - (sQ.headerPos : Int))) sQ.headerPos with
    | none => simp [Pass.mapState, requeue, pushesAlong]
    | some buf =>
      simp only
      split_ifs
      · simp [Pass.mapState, requeue, pushesAlong]
      · simp [Pass.mapState, requeue, pushesAlong]
      · rw [← advance_mapState]
        congr 1
        exact receivedBody_sim env hpo r r' _ _ q _ hb rfl
      · rw [← advance_mapState]
        congr 1
        simp [Completion.mapState, requeue, pushesAlong]
      · simp [Pass.mapState, requeue, pushesAlong]

theorem requeue_trans (env : Env) (base : List Event) (q : List Buffer)
    (t u : BitcoinStream) (new1 new2 : List Event) (h1 : t.emitted = base ++ new1)
    (h2 : u.emitted = t.emitted ++ new2) :
    requeue env t.emitted (requeue env base q t).queue u = requeue env base q u := by
  unfold requeue
  simp only
  rw [h2, h1, List.drop_left, List.drop_left, List.append_assoc base, List.drop_left,
    pushesAlong_append, List.append_assoc]

theorem grows_emitted {s t : BitcoinStream} (h : Grows s t) :
    ∃ new, t.emitted = s.emitted ++ new := by
  obtain ⟨msgs, hm⟩ := h.emitted_ext
  exact ⟨_, hm⟩

theorem loop_sim (env : Env) (hpo : PushOnly env)
    (r r' : BitcoinStream → Buffer → Option BitcoinStream) :
    ∀ (f : Nat) (sQ : BitcoinStream) (q : List Buffer) (d : Buffer), sQ.busy = true →
    processStreamLoop env r f { sQ with queue := q } d =
      (processStreamLoop env.quiet r' f sQ d).mapState (requeue env sQ.emitted q) := by
  intro f
  induction f with
  | zero => intro sQ q d _; rfl
  | succ n ih =>
    intro sQ q d hb
    have hp := pass_grows env.quiet (pushOnly_quiet env) r' sQ d hb
    rw [loop_succ, loop_succ, pass_sim env hpo r r' sQ q d hb]
    cases hP : pass env.quiet r' sQ d with
    | «continue» tQ rest =>
      rw [hP] at hp
      have hb1 : tQ.busy = true := hp.busy_eq.trans hb
      simp only [Pass.mapState]
      have hrq : requeue env sQ.emitted q tQ =
          { tQ with queue := (requeue env sQ.emitted q tQ).queue } := rfl
      rw [hrq, ih tQ _ rest hb1]
      have hl := loop_grows env.quiet (pushOnly_quiet env) r' n tQ rest hb1
      obtain ⟨new1, h1⟩ := grows_emitted hp
      cases hL : processStreamLoop env.quiet r' n tQ rest with
      | normal u =>
        rw [hL] at hl
        obtain ⟨new2, h2⟩ := grows_emitted hl
        simp only [Completion.mapState]
        rw [requeue_trans env sQ.emitted q tQ u new1 new2 h1 h2]
      | throw e u =>
        rw [hL] at hl
        obtain ⟨new2, h2⟩ := grows_emitted hl
        simp only [Completion.mapState]
        rw [requeue_trans env sQ.emitted q tQ u new1 new2 h1 h2]
      | timeout => rfl
    | «break» tQ => rfl
    | throw e tQ => rfl
    | timeout => rfl

/-- A run of `processStream` with a `message` listener that only pushes, on a
busy stream, against the same run with listeners that make no call: the same
result, except that the queue has received the pushed chunks, in the order of
the pushes. No pushed chunk is processed during the run. -/
theorem processStream_sim (env : Env) (hpo : PushOnly env)
    (r r' : BitcoinStream → Buffer → Option BitcoinStream) (s sQ : BitcoinStream)
    (q : List Buffer) (d : Buffer) (hb : sQ.busy = true) (hs : s = { sQ with queue := q }) :
    processStream env r s d =
      (processStream env.quiet r' sQ d).mapState (requeue env sQ.emitted q) := by
  subst hs
  unfold processStream
  simp only []
  by_cases hd : sQ.destroyed = true
  · rw [if_pos hd, if_pos hd]
    simp only [Completion.mapState, requeue_self]
  · rw [if_neg hd, if_neg hd]
    exact loop_sim env hpo r r' _ sQ q d hb

/-- The ways a `push` with one unit of fuel ends on an idle stream, with listeners
that make no call. -/
theorem push_quiet_one (env : Env) (S : BitcoinStream) (p : Buffer) (u : BitcoinStream)
    (hb : S.busy = false) (h : push env.quiet 1 S p = some u) :
    (∃ t, processStream env.quiet
          (fun t q => (drain env.quiet 0 { t with busy := true } q).map Prod.fst)
          { S with busy := true } p = Completion.normal t ∧
        t.queue = [] ∧ u = { t with busy := false } ∧ Grows { S with busy := true } t) ∨
    (u.destroyed = true ∧ u.busy = true ∧ ∃ new, u.emitted = S.emitted ++ new) := by
  have hg := processStream_grows env.quiet (pushOnly_quiet env)
    (fun t q => (drain env.quiet 0 { t with busy := true } q).map Prod.fst)
    { S with busy := true } p rfl
  simp only [push, pushWith, hb, processLoop, Bool.false_eq_true, if_false] at h
  rw [drain_succ] at h
  cases hP : processStream env.quiet
      (fun t q => (drain env.quiet 0 { t with busy := true } q).map Prod.fst)
      { S with busy := true } p with
  | timeout => rw [hP] at h; simp at h
  | throw e t =>
    rw [hP] at h hg
    simp only [destroy_eq, Option.map_some', Option.some.injEq] at h
    subst h
    obtain ⟨new, hn⟩ := grows_emitted hg
    exact Or.inr ⟨rfl, rfl, ⟨new ++ [Event.streamError e], by simp [hn]⟩⟩
  | normal t =>
    rw [hP] at h hg
    simp only at h
    cases hq : t.queue with
    | nil =>
      rw [hq] at h
      simp only [Option.map_some', Option.some.injEq] at h
      refine Or.inl ⟨t, rfl, hq, ?_, hg⟩
      rw [← h]
      cases t
      simp_all
    | cons q rest =>
      rw [hq] at h
      simp [drain] at h

theorem push_quiet_emitted (env : Env) (S : BitcoinStream) (p : Buffer) (u : BitcoinStream)
    (h : push env.quiet 1 S p = some u) : ∃ new, u.emitted = S.emitted ++ new := by
  by_cases hb : S.busy = true
  · rw [push_busy _ _ _ _ hb] at h
    cases h
    exact ⟨[], by simp⟩
  · have hb' : S.busy = false := by simpa using hb
    rcases push_quiet_one env S p u hb' h with ⟨t, _, _, hu, hg⟩ | ⟨_, _, hnew⟩
    · obtain ⟨new, hn⟩ := grows_emitted hg
      exact ⟨new, by rw [hu]; exact hn⟩
    · exact hnew

theorem pushAll_quiet_emitted (env : Env) (cs : List Buffer) :
    ∀ (S u : BitcoinStream), pushAll env.quiet 1 S cs = some u →
      ∃ new, u.emitted = S.emitted ++ new := by
  induction cs with
  | nil =>
    intro S u h
    rw [pushAll_nil] at h
    cases h
    exact ⟨[], by simp⟩
  | cons c cs ih =>
    intro S u h
    rw [pushAll_cons] at h
    cases hp : push env.quiet 1 S c with
    | none => rw [hp] at h; simp at h
    | some S1 =>
      rw [hp] at h
      simp only [Option.some_bind] at h
      obtain ⟨n1, h1⟩ := push_quiet_emitted env S c S1 hp
      obtain ⟨n2, h2⟩ := ih S1 u h
      exact ⟨n1 ++ n2, by rw [h2, h1, List.append_assoc]⟩

theorem pushAll_busy_destroyed (env : Env) (fuel : Nat) (cs : List Buffer) (u s2 : BitcoinStream)
    (hb : u.busy = true) (hd : u.destroyed = true) (h : pushAll env fuel u cs = some s2) :
    s2.destroyed = true := by
  rw [pushAll_busy env fuel cs u hb] at h
  cases h
  exact hd

theorem drain_done (env : Env) : ∀ (fuel : Nat) (s : BitcoinStream) (p : Buffer)
    (s' : BitcoinStream), drain env fuel s p = some (s', none) →
    s'.busy = false ∧ s'.queue = [] := by
  intro fuel
  induction fuel with
  | zero => intro s p s' h; simp [drain] at h
  | succ n ih =>
    intro s p s' h
    rw [drain_succ] at h
    cases hP : processStream env
        (fun t q => (drain env n { t with busy := true } q).map Prod.fst) s p with
    | timeout => rw [hP] at h; simp at h
    | throw e1 s1 =>
      rw [hP] at h
      simp [destroy_eq] at h
    | normal s1 =>
      rw [hP] at h
      simp only at h
      cases hq : s1.queue with
      | nil =>
        rw [hq] at h
        simp only [Option.some.injEq, Prod.mk.injEq, and_true] at h
        subst h
        exact ⟨rfl, rfl⟩
      | cons q rest =>
        rw [hq] at h
        exact ih _ _ _ h

theorem idle_of_queue_nil (t : BitcoinStream) (h : t.queue = []) :
    ({ t with busy := false, queue := [] } : BitcoinStream) = { t with busy := false } := by
  obtain ⟨tq, tb, td, th, thp, tbd, tbs, tbp, te⟩ := t
  simp only at h
  subst h
  rfl

/-- The drain of the queue, with a `message` listener that only pushes: it ends in
the state that the chunks pushed one after the other would give with listeners
that make no call, the chunks being the packet, then the queue, then the chunks
pushed while the packet is processed, provided no error occurs and nothing is
pushed after the packet has been processed. -/
theorem drain_fifo (env : Env) (hpo : PushOnly env) :
    ∀ (n : Nat) (X : BitcoinStream) (p : Buffer) (u s2 : BitcoinStream),
    X.busy = true →
    push env.quiet 1 { X with busy := false, queue := [] } p = some u →
    u.destroyed = false →
    pushAll env.quiet 1 u
      (X.queue ++ pushesAlong env X.emitted (u.emitted.drop X.emitted.length)) = some s2 →
    s2.destroyed = false →
    pushesAlong env u.emitted (s2.emitted.drop u.emitted.length) = [] →
    (X.queue ++ pushesAlong env X.emitted (u.emitted.drop X.emitted.length)).length + 1 ≤ n →
    drain env n X p = some (s2, none) := by
  intro n
  induction n with
  | zero => intro X p u s2 _ _ _ _ _ _ hn; omega
  | succ n ih =>
    intro X p u s2 hb hu hud hs2 hs2d hno hn
    rcases push_quiet_one env _ p u rfl hu with ⟨t, hP, htq, hut, hg⟩ | ⟨hd, _, _⟩
    swap
    · rw [hud] at hd; cases hd
    have hXQ : ({ ({ X with busy := false, queue := [] } : BitcoinStream) with busy := true }
        : BitcoinStream) = { X with queue := [] } := by
      cases X; simp_all
    rw [hXQ] at hP hg
    have hX : X = { ({ X with queue := [] } : BitcoinStream) with queue := X.queue } := by
      cases X; rfl
    have hsim := processStream_sim env hpo
      (fun t q => (drain env n { t with busy := true } q).map Prod.fst)
      (fun t q => (drain env.quiet 0 { t with busy := true } q).map Prod.fst)
      X { X with queue := [] } X.queue p hb hX
    rw [hP] at hsim
    simp only [Completion.mapState] at hsim
    have htb : t.busy = true := hg.busy_eq.trans hb
    have hue : u.emitted = t.emitted := by rw [hut]
    rw [drain_succ, hsim]
    simp only [requeue]
    rw [hue] at hs2 hn hno
    cases hL : X.queue ++ pushesAlong env X.emitted (t.emitted.drop X.emitted.length) with
    | nil =>
      rw [hL] at hs2
      rw [pushAll_nil] at hs2
      cases hs2
      simp only [Option.some.injEq, Prod.mk.injEq, and_true]
      rw [hut]
      exact idle_of_queue_nil t htq
    | cons d rest =>
      rw [hL] at hs2 hn
      simp only
      rw [pushAll_cons] at hs2
      cases hp1 : push env.quiet 1 u d with
      | none => rw [hp1] at hs2; simp at hs2
      | some u1 =>
        rw [hp1] at hs2
        simp only [Option.some_bind] at hs2
        obtain ⟨newd, hnewd⟩ := push_quiet_emitted env u d u1 hp1
        obtain ⟨newr, hnewr⟩ := pushAll_quiet_emitted env rest u1 s2 hs2
        have hu1d : u1.destroyed = false := by
          have hub : u.busy = false := by rw [hut]
          rcases push_quiet_one env u d u1 hub hp1 with ⟨t1, _, _, hu1, hg1⟩ | ⟨hd1, hb1, _⟩
          · rw [hu1]
            have := hg1.destroyed_eq
            simp only at this ⊢
            rw [this]; exact hud
          · have := pushAll_busy_destroyed env.quiet 1 rest u1 s2 hb1 hd1 hs2
            rw [hs2d] at this; cases this
        -- nothing is pushed while `d` and the chunks after it are processed
        have hsplit : pushesAlong env t.emitted newd = [] ∧
            pushesAlong env (t.emitted ++ newd) newr = [] := by
          rw [hnewr, hnewd, hue, List.append_assoc, List.drop_left, pushesAlong_append] at hno
          exact List.append_eq_nil.mp hno
        have hX' : ({ ({ ({ t with queue := d :: rest } : BitcoinStream) with queue := rest }
            : BitcoinStream) with busy := false, queue := [] } : BitcoinStream) = u := by
          rw [hut]
          exact idle_of_queue_nil t htq
        refine ih { ({ t with queue := d :: rest } : BitcoinStream) with queue := rest } d u1 s2
          htb (by rw [hX']; exact hp1) hu1d ?_ hs2d ?_ ?_
        · simp only
          rw [hnewd, hue, List.drop_left, hsplit.1, List.append_nil]
          exact hs2
        · rw [hnewr, List.drop_left, hnewd, hue]
          exact hsplit.2
        · simp only
          rw [hnewd, hue, List.drop_left, hsplit.1, List.append_nil]
          simp only [List.length_cons] at hn
          omega

theorem pushesAlong_quiet (env : Env) (new : List Event) :
    ∀ hist : List Event, pushesAlong env.quiet hist new = [] := by
  induction new with
  | nil => intro hist; rfl
  | cons ev rest ih =>
    intro hist
    cases ev with
    | message m =>
      simp only [pushesAlong, ih]
      simp [Env.quiet, pushedChunks]
    | streamError e =>
      simp only [pushesAlong, ih]
      simp [Env.quiet]

/-- A run of `processStream` with listeners that make no call leaves the queue as
it was. -/
theorem processStream_quiet_queue (env : Env)
    (r : BitcoinStream → Buffer → Option BitcoinStream) (s : BitcoinStream) (d : Buffer)
    (t : BitcoinStream) (hb : s.busy = true)
    (h : processStream env.quiet r s d = Completion.normal t) : t.queue = s.queue := by
  have hs : s = { s with queue := s.queue } := by cases s; rfl
  have hsim := processStream_sim env.quiet (pushOnly_quiet env) r r s s s.queue d hb hs
  have hqq : env.quiet.quiet = env.quiet := rfl
  rw [hqq, h] at hsim
  simp only [Completion.mapState, Completion.normal.injEq] at hsim
  rw [hsim]
  simp [requeue, pushesAlong_quiet]

theorem drain_emitted (env : Env) (hpo : PushOnly env) :
    ∀ (fuel : Nat) (s : BitcoinStream) (p : Buffer) (s' : BitcoinStream) (x : Option Errors),
    s.busy = true → drain env fuel s p = some (s', x) →
    ∃ new, s'.emitted = s.emitted ++ new := by
  intro fuel
  induction fuel with
  | zero => intro s p s' x _ h; simp [drain] at h
  | succ n ih =>
    intro s p s' x hb h
    rw [drain_succ] at h
    have hg := processStream_grows env hpo
      (fun t q => (drain env n { t with busy := true } q).map Prod.fst) s p hb
    cases hP : processStream env
        (fun t q => (drain env n { t with busy := true } q).map Prod.fst) s p with
    | timeout => rw [hP] at h; simp at h
    | throw e1 s1 =>
      rw [hP] at h hg
      simp only [destroy_eq, Option.map_some', Option.some.injEq, Prod.mk.injEq] at h
      obtain ⟨h1, _⟩ := h
      subst h1
      obtain ⟨new, hn⟩ := grows_emitted hg
      exact ⟨new ++ [Event.streamError e1], by simp [hn]⟩
    | normal s1 =>
      rw [hP] at h hg
      simp only at h
      obtain ⟨new1, hn1⟩ := grows_emitted hg
      cases hq : s1.queue with
      | nil =>
        rw [hq] at h
        simp only [Option.some.injEq, Prod.mk.injEq] at h
        obtain ⟨h1, _⟩ := h
        subst h1
        exact ⟨new1, hn1⟩
      | cons q rest =>
        rw [hq] at h
        obtain ⟨new2, hn2⟩ := ih { s1 with queue := rest } q s' x (hg.busy_eq.trans hb) h
        exact ⟨new1 ++ new2, by rw [hn2]; simp [hn1]⟩

/-- The drain of the queue, with a `message` listener that only pushes, when it
ends without an error: the final state is the one that the chunks pushed one
after the other give with listeners that make no call, the chunks being the
packet, then the queue, then every chunk pushed during the drain, in the order
of the pushes. -/
theorem drain_fifo_sound (env : Env) (hpo : PushOnly env) :
    ∀ (n : Nat) (X : BitcoinStream) (p : Buffer) (s' : BitcoinStream),
    X.busy = true → drain env n X p = some (s', none) →
    pushAll env.quiet 1 { X with busy := false, queue := [] }
      (p :: (X.queue ++ pushesAlong env X.emitted (s'.emitted.drop X.emitted.length))) =
      some s' := by
  intro n
  induction n with
  | zero => intro X p s' _ h; simp [drain] at h
  | succ n ih =>
    intro X p s' hb h
    have hX : X = { ({ X with queue := [] } : BitcoinStream) with queue := X.queue } := by
      cases X; rfl
    have hsim := processStream_sim env hpo
      (fun t q => (drain env n { t with busy := true } q).map Prod.fst)
      (fun t q => (drain env.quiet 0 { t with busy := true } q).map Prod.fst)
      X { X with queue := [] } X.queue p hb hX
    have hXQ : ({ ({ X with busy := false, queue := [] } : BitcoinStream) with busy := true }
        : BitcoinStream) = { X with queue := [] } := by
      cases X; simp_all
    rw [drain_succ, hsim] at h
    cases hP : processStream env.quiet
        (fun t q => (drain env.quiet 0 { t with busy := true } q).map Prod.fst)
        { X with queue := [] } p with
    | timeout => rw [hP] at h; simp [Completion.mapState] at h
    | throw e t => rw [hP] at h; simp [Completion.mapState, destroy_eq] at h
    | normal t =>
      rw [hP] at h
      simp only [Completion.mapState, requeue] at h
      have hg := processStream_grows env.quiet (pushOnly_quiet env)
        (fun t q => (drain env.quiet 0 { t with busy := true } q).map Prod.fst)
        { X with queue := [] } p hb
      rw [hP] at hg
      have htq : t.queue = [] :=
        processStream_quiet_queue env _ { X with queue := [] } p t hb hP
      have htb : t.busy = true := hg.busy_eq.trans hb
      obtain ⟨new1, hn1⟩ := grows_emitted hg
      simp only at hn1
      -- the push of `p` on the idle stream, with listeners that make no call
      have hpush : push env.quiet 1 { X with busy := false, queue := [] } p =
          some { t with busy := false } := by
        simp only [push, pushWith, processLoop, Bool.false_eq_true, if_false]
        rw [drain_succ, hXQ, hP]
        simp only [htq, Option.map_some']
      rw [pushAll_cons, hpush]
      simp only [Option.some_bind]
      cases hL : X.queue ++ pushesAlong env X.emitted (t.emitted.drop X.emitted.length) with
      | nil =>
        rw [hL] at h
        simp only [Option.some.injEq, Prod.mk.injEq, and_true] at h
        subst h
        simp only
        rw [hL, pushAll_nil]
        congr 1
        exact (idle_of_queue_nil t htq).symm
      | cons d rest =>
        rw [hL] at h
        simp only at h
        have hih := ih { ({ t with queue := d :: rest } : BitcoinStream) with queue := rest } d s'
          htb h
        obtain ⟨new2, hn2⟩ := drain_emitted env hpo n
          { ({ t with queue := d :: rest } : BitcoinStream) with queue := rest } d s' none htb h
        simp only at hih hn2
        have hu : ({ ({ ({ t with queue := d :: rest } : BitcoinStream) with queue := rest }
            : BitcoinStream) with busy := false, queue := [] } : BitcoinStream) =
            { t with busy := false } := idle_of_queue_nil t htq
        rw [hu] at hih
        have hlist : X.queue ++ pushesAlong env X.emitted (s'.emitted.drop X.emitted.length) =
            d :: (rest ++ pushesAlong env t.emitted (s'.emitted.drop t.emitted.length)) := by
          rw [hn2, List.drop_left, hn1, List.append_assoc, List.drop_left, pushesAlong_append,
            ← List.append_assoc]
          rw [hn1, List.drop_left] at hL
          rw [hL]
          rfl
        rw [hlist]
        exact hih

/-- C8. Re-entrant FIFO, for a `push c` on an idle stream whose `message` listener
only calls `push`. Whenever `push c` returns without an error, its final state is
the one that `c` followed by every chunk pushed by the listener, in the order of
the pushes, give when they are pushed one after the other with listeners that
make no call: no pushed chunk is processed before `processStream c` has finished,
they are processed in the order of the pushes, each once. And when the listener
calls `push d1`, ..., `push dk` while `c` is processed and pushes nothing later,
and `c`, `d1`, ..., `dk` are decoded without error, `push c` does return (fuel
`k + 1` is enough), in that state, with `busy` unset and the queue empty. -/
theorem push_reentrant_fifo (env : Env) (hpo : PushOnly env) (s : BitcoinStream)
    (hidle : s.busy = false) (hq : s.queue = []) (c : Buffer) :
    (∀ (fuel : Nat) (s' : BitcoinStream), processLoop env fuel s c = some (s', none) →
      pushAll env.quiet 1 s
        (c :: pushesAlong env s.emitted (s'.emitted.drop s.emitted.length)) = some s' ∧
      s'.busy = false ∧ s'.queue = []) ∧
    (∀ (s1 s2 : BitcoinStream), push env.quiet 1 s c = some s1 → s1.destroyed = false →
      pushAll env.quiet 1 s1
        (pushesAlong env s.emitted (s1.emitted.drop s.emitted.length)) = some s2 →
      s2.destroyed = false →
      pushesAlong env s1.emitted (s2.emitted.drop s1.emitted.length) = [] →
      ∀ fuel : Nat,
        (pushesAlong env s.emitted (s1.emitted.drop s.emitted.length)).length + 1 ≤ fuel →
        push env fuel s c = some s2 ∧ s2.busy = false ∧ s2.queue = []) := by
  have hS : ({ ({ s with busy := true } : BitcoinStream) with busy := false, queue := [] }
      : BitcoinStream) = s := by
    cases s; simp_all
  constructor
  · intro fuel s' h
    have hsound := drain_fifo_sound env hpo fuel { s with busy := true } c s' rfl h
    rw [hS] at hsound
    simp only [hq, List.nil_append] at hsound
    exact ⟨hsound, drain_done env fuel _ c s' h⟩
  · intro s1 s2 hc hc_ok hds hds_ok hno fuel hfuel
    have hdrain := drain_fifo env hpo fuel { s with busy := true } c s1 s2 rfl
      (by rw [hS]; exact hc) hc_ok (by simpa [hq] using hds) hds_ok hno
      (by simpa [hq] using hfuel)
    have hpush : push env fuel s c = some s2 := by
      simp only [push, pushWith, hidle, processLoop, Bool.false_eq_true, if_false, hdrain,
        Option.map_some']
    exact ⟨hpush, drain_done env fuel _ c s2 hdrain⟩

/-! ## Any listeners: what holds between two calls of `push` -/

theorem sameDecoder_refl (s : BitcoinStream) : SameDecoder s s := ⟨rfl, rfl, rfl, rfl, rfl⟩

theorem sameDecoder_trans {s t u : BitcoinStream} (h1 : SameDecoder s t) (h2 : SameDecoder t u) :
    SameDecoder s u :=
  ⟨h2.header_eq.trans h1.header_eq, h2.headerPos_eq.trans h1.headerPos_eq,
    h2.body_eq.trans h1.body_eq, h2.bodySize_eq.trans h1.bodySize_eq,
    h2.bodyPos_eq.trans h1.bodyPos_eq⟩

theorem runs_refl (env : Env) (s : BitcoinStream) (hb : s.busy = true) : Runs env s s :=
  ⟨hb, id, fun _ => ⟨[], by simp, by simp [pushesAlong]⟩⟩

theorem runs_trans {env : Env} {s t u : BitcoinStream} (h1 : Runs env s t) (h2 : Runs env t u) :
    Runs env s u := by
  refine ⟨h2.busy, fun h => h2.destroyed_mono (h1.destroyed_mono h), fun hu => ?_⟩
  have ht : t.destroyed = false := by
    cases hd : t.destroyed with
    | false => rfl
    | true => rw [h2.destroyed_mono hd] at hu; cases hu
  obtain ⟨n1, he1, hq1⟩ := h1.track ht
  obtain ⟨n2, he2, hq2⟩ := h2.track hu
  refine ⟨n1 ++ n2, by rw [he2, he1, List.append_assoc], ?_⟩
  rw [hq2, hq1, he1, pushesAlong_append, List.append_assoc]

/-- The calls made by a `message` listener while `busy` is set: each returns, the
decoder fields are left alone, `busy` stays set, and unless one of them is
`destroy` the queue receives the pushed chunks and nothing is emitted. -/
theorem foldlM_runAction_busy (env : Env)
    (r : BitcoinStream → Buffer → Option BitcoinStream) (acts : List Action) :
    ∀ s : BitcoinStream, s.busy = true →
      ∃ t, acts.foldlM (runAction env r) s = some t ∧ t.busy = true ∧ SameDecoder s t ∧
        (s.destroyed = true → t.destroyed = true) ∧
        (t.destroyed = false →
          t.emitted = s.emitted ∧ t.queue = s.queue ++ pushedChunks acts) := by
  induction acts with
  | nil =>
    intro s hb
    exact ⟨s, by simp, hb, sameDecoder_refl s, id, fun _ => ⟨rfl, by simp [pushedChunks]⟩⟩
  | cons a acts ih =>
    intro s hb
    cases a with
    | push p =>
      obtain ⟨t, ht, htb, hsd, hmono, htr⟩ := ih { s with queue := s.queue ++ [p] } hb
      refine ⟨t, ?_, htb, ⟨hsd.header_eq, hsd.headerPos_eq, hsd.body_eq, hsd.bodySize_eq,
        hsd.bodyPos_eq⟩, hmono, fun hd => ?_⟩
      · rw [List.foldlM_cons]
        simp only [runAction, pushWith_busy r s p hb, Option.bind_eq_bind, Option.some_bind]
        exact ht
      · obtain ⟨h1, h2⟩ := htr hd
        exact ⟨h1, by rw [h2]; simp [pushedChunks]⟩
    | destroy e =>
      obtain ⟨t, ht, htb, hsd, hmono, _⟩ := ih
        { s with destroyed := true, busy := true, queue := env.onStreamError s.emitted e,
                 emitted := s.emitted ++ [Event.streamError e] } rfl
      refine ⟨t, ?_, htb, ⟨hsd.header_eq, hsd.headerPos_eq, hsd.body_eq, hsd.bodySize_eq,
        hsd.bodyPos_eq⟩, fun _ => hmono rfl, fun hd => ?_⟩
      · rw [List.foldlM_cons]
        simp only [runAction, destroy_eq, Option.bind_eq_bind, Option.some_bind]
        exact ht
      · rw [hmono rfl] at hd; cases hd

theorem emitMessage_busy (env : Env) (r : BitcoinStream → Buffer → Option BitcoinStream)
    (s : BitcoinStream) (m : Message) (hb : s.busy = true) :
    ∃ t, emitMessage env r s m = some t ∧ SameDecoder s t ∧ Runs env s t := by
  obtain ⟨t, ht, htb, hsd, hmono, htr⟩ := foldlM_runAction_busy env r (env.onMessage s.emitted m)
    { s with emitted := s.emitted ++ [Event.message m] } hb
  refine ⟨t, ht, ⟨hsd.header_eq, hsd.headerPos_eq, hsd.body_eq, hsd.bodySize_eq,
    hsd.bodyPos_eq⟩, ⟨htb, hmono, fun hd => ?_⟩⟩
  obtain ⟨h1, h2⟩ := htr hd
  exact ⟨[Event.message m], h1, by rw [h2]; simp [pushesAlong]⟩

theorem runs_congr {env : Env} {s s1 t : BitcoinStream} (hd : s1.destroyed = s.destroyed)
    (hq : s1.queue = s.queue) (he : s1.emitted = s.emitted) (h : Runs env s1 t) :
    Runs env s t := by
  refine ⟨h.busy, fun hs => h.destroyed_mono (hd.trans hs), fun ht => ?_⟩
  obtain ⟨new, h1, h2⟩ := h.track ht
  exact ⟨new, by rw [h1, he], by rw [h2, hq, he]⟩

theorem absorb_fields (s : BitcoinStream) (x : Buffer) :
    (absorb s x).busy = s.busy ∧ (absorb s x).destroyed = s.destroyed ∧
      (absorb s x).queue = s.queue ∧ (absorb s x).emitted = s.emitted ∧
      (absorb s x).bodySize = s.bodySize := by
  unfold absorb
  split_ifs <;> exact ⟨rfl, rfl, rfl, rfl, rfl⟩

theorem runs_absorb (env : Env) (s : BitcoinStream) (x : Buffer) (hb : s.busy = true) :
    Runs env s (absorb s x) := by
  obtain ⟨h1, h2, h3, h4, _⟩ := absorb_fields s x
  exact ⟨h1.trans hb, fun h => h2.trans h, fun _ => ⟨[], by simp [h4], by simp [h3, pushesAlong]⟩⟩

theorem receivedBody_busy (env : Env) (r : BitcoinStream → Buffer → Option BitcoinStream)
    (s : BitcoinStream) (mb : Buffer) (hb : s.busy = true) :
    match receivedBody env r s mb with
    | Completion.normal t => SameDecoder (newMessage s) t ∧ Runs env s t
    | Completion.throw e t => e = Errors.InvalidChecksum ∧ t = s
    | Completion.timeout => False := by
  unfold receivedBody
  simp only
  split_ifs with hc
  · exact ⟨rfl, rfl⟩
  · obtain ⟨t, ht, hsd, hr⟩ := emitMessage_busy env r s
      { command := BufferToString env (subarray s.header 4 16), body := mb } hb
    rw [ht]
    refine ⟨⟨hsd.header_eq, rfl, hsd.body_eq, hsd.bodySize_eq, rfl⟩, ⟨hr.busy, hr.destroyed_mono,
      hr.track⟩⟩

theorem bounded_of_inv (s : BitcoinStream) (h : Inv s) (hz : SizeOk s) : Bounded s := by
  refine ⟨h.header_len, h.body_len, h.hp_le, ?_, hz⟩
  by_cases hm : s.headerPos = 24
  · obtain ⟨L, _, hL2, hbp⟩ := h.in_body hm
    omega
  · have := h.in_header (by have := h.hp_le; omega)
    omega

/-- The end of a pass that filled the header or the body, whatever the listeners
do, `busy` being set: after a normal end the invariant holds again, and the
exception thrown is never the `RangeError` of a write outside a buffer. -/
theorem complete_busy (env : Env) (r : BitcoinStream → Buffer → Option BitcoinStream)
    (s : BitcoinStream) (x : Buffer) (h : Inv s) (hz : SizeOk s) (hb : s.busy = true)
    (hx : x.length = need s) :
    match complete env r (decide (s.headerPos = 24)) (absorb s x) with
    | Completion.normal t => Inv t ∧ SizeOk t ∧ Runs env s t
    | Completion.throw e t => Bounded t ∧ Runs env s t ∧ e ≠ Errors.RangeError
    | Completion.timeout => False := by
  obtain ⟨hab, had, haq, hae, haz⟩ := absorb_fields s x
  have hb1 : (absorb s x).busy = true := hab.trans hb
  have hR := runs_absorb env s x hb
  by_cases hm : s.headerPos = 24
  · obtain ⟨L, hL, hL2, hbp⟩ := h.in_body hm
    have hneed : need s = L - s.bodyPos := by simp [need, hm, hL]
    rw [hneed] at hx
    have hbl := h.body_len
    have hsl : (splice s.body x s.bodyPos).length = MAX_PAYLOAD_LENGTH := by
      rw [splice_length _ _ _ (by omega)]; exact hbl
    have hB : Bounded (absorb s x) := by
      refine ⟨?_, ?_, ?_, ?_, ?_⟩
      · simpa [absorb, hm] using h.header_len
      · simpa [absorb, hm] using hsl
      · simp [absorb, hm]
      · simp [absorb, hm]; omega
      · intro L' hL'; rw [haz] at hL'; exact hz L' hL'
    have hrb := receivedBody_busy env r (absorb s x)
      (allocCopy (absorb s x).body (absorb s x).bodyPos) hb1
    simp only [complete, hm, decide_True, if_true, completeBody]
    cases hC : receivedBody env r (absorb s x)
        (allocCopy (absorb s x).body (absorb s x).bodyPos) with
    | normal t =>
      rw [hC] at hrb
      obtain ⟨hsd, hr⟩ := hrb
      refine ⟨⟨?_, ?_, ?_, ?_, ?_⟩, ?_, runs_congr had haq hae hr⟩
      · rw [hsd.header_eq]; simpa [newMessage] using hB.header_len
      · rw [hsd.body_eq]; simpa [newMessage] using hB.body_len
      · rw [hsd.headerPos_eq]; simp [newMessage]
      · intro h24; rw [hsd.headerPos_eq] at h24; simp [newMessage] at h24
      · intro _; rw [hsd.bodyPos_eq]; simp [newMessage]
      · intro L' hL'
        rw [hsd.bodySize_eq] at hL'
        exact hz L' (by simpa [newMessage, haz] using hL')
    | throw e t =>
      rw [hC] at hrb
      obtain ⟨he, ht⟩ := hrb
      subst he; subst ht
      exact ⟨hB, hR, by decide⟩
    | timeout => rw [hC] at hrb; exact hrb
  · have hlt : s.headerPos < 24 := by have := h.hp_le; omega
    have hneed : need s = 24 - s.headerPos := by simp [need, hm]
    rw [hneed] at hx
    have hhl := h.header_len
    have hsl : (splice s.header x s.headerPos).length = 24 := by
      rw [splice_length _ _ _ (by omega)]; exact hhl
    have hbp := h.in_header hlt
    have he : s.headerPos + x.length = 24 := by omega
    have hB : Bounded (absorb s x) := by
      refine ⟨?_, ?_, ?_, ?_, ?_⟩
      · simpa [absorb, hm] using hsl
      · simpa [absorb, hm] using h.body_len
      · simp [absorb, hm, he]
      · simp [absorb, hm, hbp]
      · intro L' hL'; rw [haz] at hL'; exact hz L' hL'
    simp only [complete, hm, decide_False, Bool.false_eq_true, if_false, completeHeader]
    split_ifs with h1 h2 h3
    · exact ⟨hB, hR, by decide⟩
    · exact ⟨hB, hR, by decide⟩
    · have hrb := receivedBody_busy env r (absorb s x) NO_PAYLOAD hb1
      cases hC : receivedBody env r (absorb s x) NO_PAYLOAD with
      | normal t =>
        rw [hC] at hrb
        obtain ⟨hsd, hr⟩ := hrb
        refine ⟨⟨?_, ?_, ?_, ?_, ?_⟩, ?_, runs_congr had haq hae hr⟩
        · rw [hsd.header_eq]; simpa [newMessage] using hB.header_len
        · rw [hsd.body_eq]; simpa [newMessage] using hB.body_len
        · rw [hsd.headerPos_eq]; simp [newMessage]
        · intro h24; rw [hsd.headerPos_eq] at h24; simp [newMessage] at h24
        · intro _; rw [hsd.bodyPos_eq]; simp [newMessage]
        · intro L' hL'
          rw [hsd.bodySize_eq] at hL'
          exact hz L' (by simpa [newMessage, haz] using hL')
      | throw e t =>
        rw [hC] at hrb
        obtain ⟨he', ht⟩ := hrb
        subst he'; subst ht
        exact ⟨hB, hR, by decide⟩
      | timeout => rw [hC] at hrb; exact hrb
    · refine ⟨⟨?_, ?_, ?_, ?_, ?_⟩, ?_, ⟨hb1, fun hd => had.trans hd, fun _ =>
        ⟨[], by simp [hae], by simp [haq, pushesAlong]⟩⟩⟩
      · exact hB.header_len
      · exact hB.body_len
      · exact hB.hp_le
      · intro _
        refine ⟨readUInt32LE (absorb s x).header 16, rfl, by omega, ?_⟩
        have : (absorb s x).bodyPos = 0 := by simp [absorb, hm, hbp]
        simp only [this]
        omega
      · intro hlt'; simp [absorb, hm, he] at hlt'
      · intro L' hL'
        simp only [Option.some.injEq] at hL'
        subst hL'
        omega

/-- One pass, whatever the listeners do, `busy` being set. -/
theorem pass_busy (env : Env) (r : BitcoinStream → Buffer → Option BitcoinStream)
    (s : BitcoinStream) (d : Buffer) (h : Inv s) (hz : SizeOk s) (hb : s.busy = true) :
    match pass env r s d with
    | Pass.continue t rest => Inv t ∧ SizeOk t ∧ Runs env s t ∧ rest.length < d.length
    | Pass.break t => Inv t ∧ SizeOk t ∧ Runs env s t
    | Pass.throw e t => Bounded t ∧ Runs env s t ∧ e ≠ Errors.RangeError
    | Pass.timeout => False := by
  rw [pass_eq env r s d h]
  by_cases hs : d.length < need s
  · rw [if_pos hs]
    obtain ⟨hI, _, _, _⟩ := inv_absorb s d h hs
    refine ⟨hI, ?_, runs_absorb env s d hb⟩
    intro L hL
    rw [(absorb_fields s d).2.2.2.2] at hL
    exact hz L hL
  · rw [if_neg hs]
    have hx : (List.take (need s) d).length = need s := by simp [List.length_take]; omega
    have hp := complete_busy env r s _ h hz hb hx
    have hpos := need_pos s h
    cases hC : complete env r (decide (s.headerPos = 24)) (absorb s (List.take (need s) d)) with
    | normal t =>
      rw [hC] at hp
      simp only [advanceN]
      split_ifs with hrest
      · exact ⟨hp.1, hp.2.1, hp.2.2, by simp; omega⟩
      · exact hp
    | throw e t =>
      rw [hC] at hp
      exact hp
    | timeout =>
      rw [hC] at hp
      exact hp

/-- The loop of `processStream`, whatever the listeners do, `busy` being set:
`data.length + 1` passes are enough. -/
theorem loop_busy (env : Env) (r : BitcoinStream → Buffer → Option BitcoinStream) :
    ∀ (f : Nat) (s : BitcoinStream) (d : Buffer), Inv s → SizeOk s → s.busy = true →
    d.length + 1 ≤ f →
    match processStreamLoop env r f s d with
    | Completion.normal t => Inv t ∧ SizeOk t ∧ Runs env s t
    | Completion.throw e t => Bounded t ∧ Runs env s t ∧ e ≠ Errors.RangeError
    | Completion.timeout => False := by
  intro f
  induction f with
  | zero => intro s d _ _ _ hf; omega
  | succ n ih =>
    intro s d h hz hb hf
    have hp := pass_busy env r s d h hz hb
    rw [loop_succ]
    cases hP : pass env r s d with
    | «continue» t rest =>
      rw [hP] at hp
      simp only
      obtain ⟨hI, hz', hr, hlen⟩ := hp
      have := ih t rest hI hz' hr.busy (by omega)
      cases hL : processStreamLoop env r n t rest with
      | normal u => rw [hL] at this; exact ⟨this.1, this.2.1, runs_trans hr this.2.2⟩
      | throw e u => rw [hL] at this; exact ⟨this.1, runs_trans hr this.2.1, this.2.2⟩
      | timeout => rw [hL] at this; exact this
    | «break» t => rw [hP] at hp; exact hp
    | throw e t => rw [hP] at hp; exact hp
    | timeout => rw [hP] at hp; exact hp

theorem processStream_busy (env : Env) (r : BitcoinStream → Buffer → Option BitcoinStream)
    (s : BitcoinStream) (d : Buffer) (h : Inv s) (hz : SizeOk s) (hb : s.busy = true) :
    match processStream env r s d with
    | Completion.normal t => Inv t ∧ SizeOk t ∧ Runs env s t
    | Completion.throw e t => Bounded t ∧ Runs env s t ∧ e ≠ Errors.RangeError
    | Completion.timeout => False := by
  unfold processStream
  split_ifs
  · exact ⟨h, hz, runs_refl env s hb⟩
  · exact loop_busy env r _ s d h hz hb (le_refl _)

/-- The drain, whatever the listeners do: the state it returns is settled, the
exception caught is never a `RangeError`, and `destroyed` is not cleared. -/
theorem drain_settled (env : Env) :
    ∀ (n : Nat) (s : BitcoinStream) (p : Buffer) (s' : BitcoinStream) (x : Option Errors),
    Inv s → SizeOk s → s.busy = true → drain env n s p = some (s', x) →
    Settled s' ∧ x ≠ some Errors.RangeError ∧ (s.destroyed = true → s'.destroyed = true) := by
  intro n
  induction n with
  | zero => intro s p s' x _ _ _ h; simp [drain] at h
  | succ n ih =>
    intro s p s' x hI hz hb h
    rw [drain_succ] at h
    have hp := processStream_busy env
      (fun t q => (drain env n { t with busy := true } q).map Prod.fst) s p hI hz hb
    cases hP : processStream env
        (fun t q => (drain env n { t with busy := true } q).map Prod.fst) s p with
    | timeout => rw [hP] at h; simp at h
    | throw e1 s1 =>
      rw [hP] at h hp
      obtain ⟨hB, hr, hne⟩ := hp
      simp only [destroy_eq, Option.map_some', Option.some.injEq, Prod.mk.injEq] at h
      obtain ⟨h1, h2⟩ := h
      subst h1; subst h2
      refine ⟨⟨⟨hB.header_len, hB.body_len, hB.hp_le, hB.bp_le, hB.size_ok⟩, ?_, fun _ => rfl⟩,
        ?_, fun _ => rfl⟩
      · intro hbf; simp at hbf
      · intro hh; injection hh with hh; exact hne hh
    | normal s1 =>
      rw [hP] at h hp
      obtain ⟨hI1, hz1, hr⟩ := hp
      simp only at h
      cases hq : s1.queue with
      | nil =>
        rw [hq] at h
        simp only [Option.some.injEq, Prod.mk.injEq] at h
        obtain ⟨h1, h2⟩ := h
        subst h1; subst h2
        refine ⟨⟨bounded_of_inv _ (inv_of_fields hI1 rfl rfl rfl rfl rfl) hz1,
          fun _ => ⟨inv_of_fields hI1 rfl rfl rfl rfl rfl, rfl⟩, ?_⟩, by simp,
          fun hd => hr.destroyed_mono hd⟩
        intro hbf; simp at hbf
      | cons q rest =>
        rw [hq] at h
        have hI' : Inv { s1 with queue := rest } := inv_of_fields hI1 rfl rfl rfl rfl rfl
        obtain ⟨hS, hx, hmono⟩ := ih { s1 with queue := rest } q s' x hI' hz1 hr.busy h
        exact ⟨hS, hx, fun hd => hmono (hr.destroyed_mono hd)⟩

theorem settled_new : Settled BitcoinStream.new := by
  refine ⟨bounded_of_inv _ inv_new ?_, fun _ => ⟨inv_new, rfl⟩, ?_⟩
  · intro L hL; simp [BitcoinStream.new] at hL
  · intro hb; simp [BitcoinStream.new] at hb

/-- A call of `push` from outside on a settled stream leaves it settled. -/
theorem push_settled (env : Env) (fuel : Nat) (s s' : BitcoinStream) (c : Buffer)
    (hs : Settled s) (h : push env fuel s c = some s') : Settled s' := by
  cases hb : s.busy with
  | true =>
    rw [push_busy env fuel s c hb] at h
    cases h
    exact ⟨⟨hs.bounded.header_len, hs.bounded.body_len, hs.bounded.hp_le, hs.bounded.bp_le,
      hs.bounded.size_ok⟩, fun hbf => by simp [hb] at hbf, fun _ => hs.busy hb⟩
  | false =>
    obtain ⟨hI, _⟩ := hs.idle hb
    simp only [push, pushWith, hb, Bool.false_eq_true, if_false, processLoop,
      Option.map_eq_some', Prod.exists, exists_and_right, exists_eq_right] at h
    obtain ⟨x, hx⟩ := h
    exact (drain_settled env fuel { s with busy := true } c s' x
      (inv_of_fields hI rfl rfl rfl rfl rfl) hs.bounded.size_ok rfl hx).1

theorem reachable_settled (env : Env) (s : BitcoinStream) (hr : Reachable env s) :
    Settled s := by
  induction hr with
  | new => exact settled_new
  | push s s' fuel packet _ hpush ih => exact push_settled env fuel s s' packet ih hpush

/-! ## Any listeners: the passes of `processStream` and the packets of a drain -/

theorem passes_succ (env : Env) (r : BitcoinStream → Buffer → Option BitcoinStream)
    (f : Nat) (s : BitcoinStream) (d : Buffer) :
    processStreamPasses env r (f + 1) s d =
      match pass env r s d with
      | Pass.continue s1 rest =>
        ((processStreamPasses env r f s1 rest).1,
          written s d :: (processStreamPasses env r f s1 rest).2)
      | Pass.break s1 => (Completion.normal s1, [written s d])
      | Pass.throw e s1 => (Completion.throw e s1, [written s d])
      | Pass.timeout => (Completion.timeout, [written s d]) := rfl

/-- The first component of `processStreamPasses` is the loop of `processStream`. -/
theorem passes_fst (env : Env) (r : BitcoinStream → Buffer → Option BitcoinStream) :
    ∀ (f : Nat) (s : BitcoinStream) (d : Buffer),
      (processStreamPasses env r f s d).1 = processStreamLoop env r f s d := by
  intro f
  induction f with
  | zero => intro s d; rfl
  | succ n ih =>
    intro s d
    rw [passes_succ, loop_succ]
    cases pass env r s d with
    | «continue» t rest => exact ih t rest
    | «break» t => rfl
    | throw e t => rfl
    | timeout => rfl

theorem written_eq (s : BitcoinStream) (d : Buffer) (h : Inv s) :
    written s d = d.take (need s) := by
  unfold written
  by_cases hm : s.headerPos = 24
  · obtain ⟨L, hL, _, hbp⟩ := h.in_body hm
    have hptr : (((s.bodySize.getD 0 : Nat) : Int) - (s.bodyPos : Int)) =
        ((L - s.bodyPos : Nat) : Int) := by
      simp [hL]; omega
    rw [if_pos hm, hptr, subarray_zero_natCast]
    simp [need, hm, hL]
  · have hlt : s.headerPos < 24 := by have := h.hp_le; omega
    have hptr : ((24 : Int) - (s.headerPos : Int)) = ((24 - s.headerPos : Nat) : Int) := by
      omega
    rw [if_neg hm, hptr, subarray_zero_natCast]
    simp [need, hm]

/-- More fuel than `data.length + 1` changes neither the result nor the passes. -/
theorem passes_fuel (env : Env) (r : BitcoinStream → Buffer → Option BitcoinStream) :
    ∀ (f1 f2 : Nat) (s : BitcoinStream) (d : Buffer), Inv s → SizeOk s → s.busy = true →
    d.length + 1 ≤ f1 → d.length + 1 ≤ f2 →
    processStreamPasses env r f1 s d = processStreamPasses env r f2 s d := by
  intro f1
  induction f1 with
  | zero => intro f2 s d _ _ _ hf; omega
  | succ n ih =>
    intro f2 s d h hz hb hf1 hf2
    obtain ⟨m, rfl⟩ : ∃ m, f2 = m + 1 := ⟨f2 - 1, by omega⟩
    have hp := pass_busy env r s d h hz hb
    rw [passes_succ, passes_succ]
    cases hP : pass env r s d with
    | «continue» t rest =>
      rw [hP] at hp
      obtain ⟨hI, hz', hr, hlen⟩ := hp
      simp only
      rw [ih m t rest hI hz' hr.busy (by omega) (by omega)]
    | «break» t => rfl
    | throw e t => rfl
    | timeout => rfl

/-- The passes of the loop of `processStream`, whatever the listeners do, `busy`
being set: there are at most `data.length + 1` of them, each pass that continues
has written at least one byte, and on a normal end the slices written are, one
after the other, the whole chunk. -/
theorem passes_props (env : Env) (r : BitcoinStream → Buffer → Option BitcoinStream) :
    ∀ (f : Nat) (s : BitcoinStream) (d : Buffer), Inv s → SizeOk s → s.busy = true →
    (processStreamPasses env r f s d).2.length ≤ d.length + 1 ∧
    (∀ x ∈ (processStreamPasses env r f s d).2.dropLast, 1 ≤ x.length) ∧
    (∀ t, (processStreamPasses env r f s d).1 = Completion.normal t →
      (processStreamPasses env r f s d).2.flatten = d) := by
  intro f
  induction f with
  | zero =>
    intro s d _ _ _
    refine ⟨by simp [processStreamPasses], by simp [processStreamPasses], fun t ht => ?_⟩
    simp [processStreamPasses] at ht
  | succ n ih =>
    intro s d h hz hb
    have hp := pass_busy env r s d h hz hb
    have hpos := need_pos s h
    have hw := written_eq s d h
    have hpe := pass_eq env r s d h
    rw [passes_succ]
    cases hP : pass env r s d with
    | «continue» t rest =>
      rw [hP] at hp hpe
      obtain ⟨hI, hz', hr, hlen⟩ := hp
      obtain ⟨ih1, ih2, ih3⟩ := ih t rest hI hz' hr.busy
      have hfull : ¬ d.length < need s := by
        intro hs; rw [if_pos hs] at hpe; cases hpe
      rw [if_neg hfull] at hpe
      have hrest : rest = d.drop (need s) := by
        cases hC : complete env r (decide (s.headerPos = 24))
            (absorb s (List.take (need s) d)) with
        | normal u =>
          rw [hC] at hpe
          simp only [advanceN] at hpe
          split_ifs at hpe
          cases hpe
          rfl
        | throw e u => rw [hC] at hpe; cases hpe
        | timeout => rw [hC] at hpe; cases hpe
      have hwl : (written s d).length = need s := by
        rw [hw]; simp [List.length_take]; omega
      simp only
      refine ⟨?_, ?_, ?_⟩
      · simp only [List.length_cons]
        have : rest.length + need s = d.length := by rw [hrest]; simp; omega
        omega
      · intro x hx
        cases hws : (processStreamPasses env r n t rest).2 with
        | nil => rw [hws] at hx; simp at hx
        | cons y ys =>
          rw [hws] at hx
          simp only [List.dropLast_cons₂, List.mem_cons] at hx
          rcases hx with rfl | hx
          · omega
          · exact ih2 x (by rw [hws]; exact hx)
      · intro u hu
        rw [List.flatten_cons, ih3 u hu, hw, hrest, List.take_append_drop]
    | «break» t =>
      rw [hP] at hpe
      simp only
      refine ⟨by simp, by simp, fun _ _ => ?_⟩
      rw [List.flatten_cons, List.flatten_nil, List.append_nil, hw]
      apply List.take_of_length_le
      by_cases hs : d.length < need s
      · omega
      · rw [if_neg hs] at hpe
        cases hC : complete env r (decide (s.headerPos = 24))
            (absorb s (List.take (need s) d)) with
        | normal u =>
          rw [hC] at hpe
          simp only [advanceN] at hpe
          split_ifs at hpe with hlen
          simp at hlen
          omega
        | throw e u => rw [hC] at hpe; cases hpe
        | timeout => rw [hC] at hpe; cases hpe
    | throw e t =>
      simp only
      exact ⟨by simp, by simp, fun u hu => by cases hu⟩
    | timeout =>
      simp only
      exact ⟨by simp, by simp, fun u hu => by cases hu⟩

theorem drainTrace_succ (env : Env) (n : Nat) (s : BitcoinStream) (p : Buffer) :
    drainTrace env (n + 1) s p =
      match processStream env
          (fun t q => (drain env n { t with busy := true } q).map Prod.fst) s p with
      | Completion.timeout => none
      | Completion.throw e s1 =>
        (destroy env (fun t q => (drain env n { t with busy := true } q).map Prod.fst) s1 e).map
          (fun s2 => (s2, some e, [p]))
      | Completion.normal s1 =>
        match s1.queue with
        | [] => some ({ s1 with busy := false }, none, [p])
        | q :: rest =>
          (drainTrace env n { s1 with queue := rest } q).map
            (fun res => (res.1, res.2.1, p :: res.2.2)) := rfl

/-- Without its list of packets, `drainTrace` is `drain`. -/
theorem drainTrace_drain (env : Env) :
    ∀ (n : Nat) (s : BitcoinStream) (p : Buffer),
      (drainTrace env n s p).map (fun res => (res.1, res.2.1)) = drain env n s p := by
  intro n
  induction n with
  | zero => intro s p; rfl
  | succ n ih =>
    intro s p
    rw [drainTrace_succ, drain_succ]
    cases processStream env
        (fun t q => (drain env n { t with busy := true } q).map Prod.fst) s p with
    | timeout => rfl
    | throw e s1 => simp [destroy_eq]
    | normal s1 =>
      simp only
      cases s1.queue with
      | nil => rfl
      | cons q rest =>
        simp only
        rw [← ih { s1 with queue := rest } q, Option.map_map]
        rfl

/-- The packets passed to `processStream` by a drain that ends with the stream
not destroyed: the first packet, the chunks that were queued at the start, and
the chunks that the listeners pushed along the notifications, in that order,
each once. -/
theorem drainTrace_log (env : Env) :
    ∀ (n : Nat) (s : BitcoinStream) (p : Buffer) (s' : BitcoinStream) (log : List Buffer),
    Inv s → SizeOk s → s.busy = true → drainTrace env n s p = some (s', none, log) →
    s'.destroyed = false →
    ∃ new, s'.emitted = s.emitted ++ new ∧
      log = p :: (s.queue ++ pushesAlong env s.emitted new) := by
  intro n
  induction n with
  | zero => intro s p s' log _ _ _ h; simp [drainTrace] at h
  | succ n ih =>
    intro s p s' log hI hz hb h hnd
    rw [drainTrace_succ] at h
    have hp := processStream_busy env
      (fun t q => (drain env n { t with busy := true } q).map Prod.fst) s p hI hz hb
    cases hP : processStream env
        (fun t q => (drain env n { t with busy := true } q).map Prod.fst) s p with
    | timeout => rw [hP] at h; simp at h
    | throw e1 s1 =>
      rw [hP] at h
      simp [destroy_eq] at h
    | normal s1 =>
      rw [hP] at h hp
      obtain ⟨hI1, hz1, hr⟩ := hp
      simp only at h
      cases hq : s1.queue with
      | nil =>
        rw [hq] at h
        simp only [Option.some.injEq, Prod.mk.injEq, true_and] at h
        obtain ⟨h1, h2⟩ := h
        subst h1; subst h2
        obtain ⟨new, he, hqq⟩ := hr.track hnd
        rw [hq] at hqq
        refine ⟨new, he, ?_⟩
        rw [← hqq]
      | cons q rest =>
        rw [hq] at h
        simp only [Option.map_eq_some', Prod.mk.injEq, Prod.exists] at h
        obtain ⟨a, x, l, hrec, ha, hx, hl⟩ := h
        subst ha; subst hx; subst hl
        have hI' : Inv { s1 with queue := rest } := inv_of_fields hI1 rfl rfl rfl rfl rfl
        have hdr : drain env n { s1 with queue := rest } q = some (a, none) := by
          rw [← drainTrace_drain, hrec]; rfl
        have hnd1 : s1.destroyed = false := by
          cases hd : s1.destroyed with
          | false => rfl
          | true =>
            have := (drain_settled env n { s1 with queue := rest } q a none hI' hz1 hr.busy
              hdr).2.2 hd
            rw [this] at hnd; cases hnd
        obtain ⟨new1, he1, hq1⟩ := hr.track hnd1
        obtain ⟨new2, he2, hl2⟩ := ih { s1 with queue := rest } q a l hI' hz1 hr.busy hrec hnd
        refine ⟨new1 ++ new2, ?_, ?_⟩
        · rw [he2]; simp only; rw [he1, List.append_assoc]
        · rw [hl2, pushesAlong_append]
          simp only
          rw [← List.cons_append, ← hq, hq1, he1, List.append_assoc]

/-! ## The methods `destroy` and `push`, and `BufferToString` -/

/-- C11, counterexample. On a new stream, `destroy(UnsupportedNetwork)` followed
by `destroy(InvalidChecksum)` notifies `streamError` twice, not once: the second
call reports its own error. -/
theorem destroy_twice_counterexample :
    ((destroy exampleEnv (fun t p => (processLoop exampleEnv 1 t p).map Prod.fst)
          BitcoinStream.new Errors.UnsupportedNetwork).bind
        (fun s1 => destroy exampleEnv (fun t p => (processLoop exampleEnv 1 t p).map Prod.fst)
          s1 Errors.InvalidChecksum)).map (fun s2 => streamErrors s2.emitted) =
      some [Errors.UnsupportedNetwork, Errors.InvalidChecksum] ∧
    [Errors.UnsupportedNetwork, Errors.InvalidChecksum].length ≠ 1 := by
  decide

/-- C11, as amended. The method `destroy` has no test of `destroyed`: called with
`e1` and then with `e2` it leaves `destroyed` and `busy` set and the decoder
fields untouched, as one call does, and it notifies `streamError` once per call,
first with `e1`, then with `e2`. -/
theorem destroy_twice (env : Env) (r : BitcoinStream → Buffer → Option BitcoinStream)
    (s : BitcoinStream) (e1 e2 : Errors) :
    ∃ s1 s2, destroy env r s e1 = some s1 ∧ destroy env r s1 e2 = some s2 ∧
      s1.destroyed = true ∧ s1.busy = true ∧ s2.destroyed = true ∧ s2.busy = true ∧
      SameDecoder s s2 ∧
      s1.emitted = s.emitted ++ [Event.streamError e1] ∧
      s2.emitted = s.emitted ++ [Event.streamError e1, Event.streamError e2] ∧
      streamErrors (s2.emitted.drop s.emitted.length) = [e1, e2] := by
  refine ⟨_, _, destroy_eq env r s e1, destroy_eq env r _ e2, rfl, rfl, rfl, rfl,
    ⟨rfl, rfl, rfl, rfl, rfl⟩, rfl, by simp, ?_⟩
  simp [streamErrors]

/-- C13. A call of `push` while `busy` is set, from outside or from a listener:
the chunk goes to the tail of the queue, behind the entries that were there, and
no other field changes; nothing is emitted and nothing is processed. -/
theorem push_while_busy (env : Env) (fuel : Nat) (s : BitcoinStream) (c : Buffer)
    (hb : s.busy = true) :
    (∀ r : BitcoinStream → Buffer → Option BitcoinStream,
      pushWith r s c = some { s with queue := s.queue ++ [c] }) ∧
    ∃ s', push env fuel s c = some s' ∧ s'.queue = s.queue ++ [c] ∧
      s'.header = s.header ∧ s'.headerPos = s.headerPos ∧ s'.body = s.body ∧
      s'.bodySize = s.bodySize ∧ s'.bodyPos = s.bodyPos ∧ s'.busy = s.busy ∧
      s'.destroyed = s.destroyed ∧ s'.emitted = s.emitted :=
  ⟨fun r => pushWith_busy r s c hb,
    _, push_busy env fuel s c hb, rfl, rfl, rfl, rfl, rfl, rfl, rfl, rfl, rfl⟩

theorem findIdx_zero_start (buf : Buffer) :
    ∀ i : Nat, buf.findIdx? (fun b => b == 0) i =
      if (buf.takeWhile (fun b => b != 0)).length < buf.length then
        some (i + (buf.takeWhile (fun b => b != 0)).length)
      else none := by
  induction buf with
  | nil => intro i; simp
  | cons a rest ih =>
    intro i
    rw [List.findIdx?_cons]
    by_cases ha : a = 0
    · subst ha
      simp
    · have h1 : (a == 0) = false := by simpa using ha
      have h2 : (a != 0) = true := by simpa using ha
      rw [h1, List.takeWhile_cons, h2]
      simp only [Bool.false_eq_true, if_false, if_true, List.length_cons, ih (i + 1)]
      split_ifs <;> first | rfl | omega | (congr 1; omega)

/-- The text returned by `BufferToString`: the decoding of the bytes that precede
the first zero byte. -/
theorem bufferToString_takeWhile (env : Env) (buf : Buffer) :
    BufferToString env buf = env.bufToString (buf.takeWhile (fun b => b != 0)) := by
  unfold BufferToString
  rw [findIdx_zero_start buf 0]
  have hpre := List.takeWhile_append_dropWhile (fun b => b != 0) buf
  by_cases hlt : (buf.takeWhile (fun b => b != 0)).length < buf.length
  · rw [if_pos hlt]
    simp only [Nat.zero_add]
    rw [subarray_zero_natCast]
    have ht : List.take (buf.takeWhile (fun b => b != 0)).length
        (buf.takeWhile (fun b => b != 0) ++ buf.dropWhile (fun b => b != 0)) =
        buf.takeWhile (fun b => b != 0) := List.take_left' rfl
    rw [hpre] at ht
    rw [ht]
  · rw [if_neg hlt]
    simp only
    congr 1
    have hlen : (buf.dropWhile (fun b => b != 0)).length = 0 := by
      have := congrArg List.length hpre
      rw [List.length_append] at this
      omega
    have hnil := List.eq_nil_of_length_eq_zero hlen
    rw [hnil, List.append_nil] at hpre
    exact hpre.symm

theorem takeWhile_before_zero (pre post : Buffer) (h : ∀ b ∈ pre, b ≠ 0) :
    (pre ++ 0 :: post).takeWhile (fun b => b != 0) = pre := by
  induction pre with
  | nil => simp
  | cons a rest ih =>
    have ha : (a != 0) = true := by simpa using h a (List.mem_cons_self _ _)
    rw [List.cons_append, List.takeWhile_cons, ha]
    simp only [if_true]
    rw [ih (fun b hb => h b (List.mem_cons_of_mem _ hb))]

theorem takeWhile_no_zero (buf : Buffer) (h : ∀ b ∈ buf, b ≠ 0) :
    buf.takeWhile (fun b => b != 0) = buf := by
  rw [List.takeWhile_eq_self_iff]
  intro b hb
  simpa using h b hb

/-- C12. The text that `BufferToString` returns is the decoding of the bytes that
precede the first zero byte: what follows that byte is ignored, and a field with
no zero byte is decoded whole. With a decoding that gives `"version"` for the
seven ASCII bytes of that word, and the empty text for no byte, the field
`version` followed by five zero bytes gives `"version"` and a field that starts
with a zero byte gives the empty text. And this is the command of the message
emitted for a frame. -/
theorem bufferToString_first_zero (env : Env) :
    (∀ buf : Buffer, BufferToString env buf = env.bufToString (buf.takeWhile (fun b => b != 0))) ∧
    (∀ pre post : Buffer, (∀ b ∈ pre, b ≠ 0) →
      BufferToString env (pre ++ 0 :: post) = env.bufToString pre) ∧
    (∀ buf : Buffer, (∀ b ∈ buf, b ≠ 0) → BufferToString env buf = env.bufToString buf) ∧
    (env.bufToString [118, 101, 114, 115, 105, 111, 110] = "version" →
      BufferToString env [118, 101, 114, 115, 105, 111, 110, 0, 0, 0, 0, 0] = "version") ∧
    (env.bufToString [] = "" → ∀ rest : Buffer, BufferToString env (0 :: rest) = "") ∧
    (Quiet env → ∀ (fuel : Nat) (f : Frame), 1 ≤ fuel → f.WellFormed env →
      ∃ s', push env fuel BitcoinStream.new (f.bytes env) = some s' ∧
        s'.emitted = [Event.message
          { command := env.bufToString (f.command.takeWhile (fun b => b != 0)),
            body := f.body }]) := by
  refine ⟨bufferToString_takeWhile env, fun pre post h => ?_, fun buf h => ?_, fun h => ?_,
    fun h rest => ?_, fun hq fuel f hfl hf => ?_⟩
  · rw [bufferToString_takeWhile, takeWhile_before_zero pre post h]
  · rw [bufferToString_takeWhile, takeWhile_no_zero buf h]
  · rw [bufferToString_takeWhile]
    exact h
  · rw [bufferToString_takeWhile]
    simpa using h
  · obtain ⟨s', hpush, _, hem⟩ := push_frame env hq fuel hfl BitcoinStream.new clean_new f hf
    refine ⟨s', hpush, ?_⟩
    rw [hem, Frame.message, bufferToString_takeWhile]
    rfl

/-! ## The claims on the reachable states -/

/-- C14. In every state reached from a new stream by calls of `push`, whatever
the listeners do: the two buffers have 24 and 2048 bytes, `headerPos ≤ 24` and
`bodyPos ≤ 2048`; when the stream is not destroyed it is not busy and either
`headerPos < 24`, or `headerPos = 24` and `bodySize` is set with
`1 ≤ bodySize ≤ 2048` and `bodyPos < bodySize`; and no write of `processStream`
falls outside its buffer: the exception that a drain started by `push` catches is
never the `RangeError` of `set`. -/
theorem reachable_buffer_bounds (env : Env) (s : BitcoinStream) (hr : Reachable env s) :
    s.header.length = 24 ∧ s.body.length = 2048 ∧ s.headerPos ≤ 24 ∧ s.bodyPos ≤ 2048 ∧
    (s.destroyed = false → s.busy = false ∧
      (s.headerPos < 24 ∨
        (s.headerPos = 24 ∧ ∃ L, s.bodySize = some L ∧ 1 ≤ L ∧ L ≤ 2048 ∧ s.bodyPos < L))) ∧
    (s.busy = false → ∀ (fuel : Nat) (c : Buffer) (s' : BitcoinStream) (e : Errors),
      processLoop env fuel s c = some (s', some e) → e ≠ Errors.RangeError) := by
  have hS := reachable_settled env s hr
  refine ⟨hS.bounded.header_len, hS.bounded.body_len, hS.bounded.hp_le, hS.bounded.bp_le,
    fun hnd => ?_, fun hb fuel c s' e h => ?_⟩
  · have hb : s.busy = false := by
      cases hb : s.busy with
      | false => rfl
      | true => rw [hS.busy hb] at hnd; cases hnd
    obtain ⟨hI, _⟩ := hS.idle hb
    refine ⟨hb, ?_⟩
    by_cases hm : s.headerPos = 24
    · obtain ⟨L, hL, hL2, hbp⟩ := hI.in_body hm
      exact Or.inr ⟨hm, L, hL, by omega, hL2, hbp⟩
    · exact Or.inl (by have := hI.hp_le; omega)
  · obtain ⟨hI, _⟩ := hS.idle hb
    have := (drain_settled env fuel { s with busy := true } c s' (some e)
      (inv_of_fields hI rfl rfl rfl rfl rfl) hS.bounded.size_ok rfl h).2.1
    intro he
    exact this (by rw [he])

/-- C17, as amended. Drain completeness, whatever the listeners do. A reachable
stream that is not busy has an empty queue. And when a `push` on such a stream
ends without an exception caught, `busy` is unset and the queue is empty on
return; if moreover the stream is not destroyed then, that is if no listener
called `destroy` during the drain, the packets that were passed to
`processStream` are the chunk of the `push` followed by every chunk that the
listeners pushed during the drain, in the order of the pushes, each once. -/
theorem drain_completeness (env : Env) (s : BitcoinStream) (hr : Reachable env s)
    (hidle : s.busy = false) :
    s.queue = [] ∧
    ∀ (fuel : Nat) (c : Buffer) (s' : BitcoinStream),
      processLoop env fuel s c = some (s', none) →
      push env fuel s c = some s' ∧ s'.busy = false ∧ s'.queue = [] ∧
      ∃ log, drainTrace env fuel { s with busy := true } c = some (s', none, log) ∧
        (s'.destroyed = false →
          log = c :: pushesAlong env s.emitted (s'.emitted.drop s.emitted.length)) := by
  have hS := reachable_settled env s hr
  obtain ⟨hI, hq⟩ := hS.idle hidle
  refine ⟨hq, fun fuel c s' h => ?_⟩
  have hI' : Inv { s with busy := true } := inv_of_fields hI rfl rfl rfl rfl rfl
  obtain ⟨hb', hq'⟩ := drain_done env fuel _ c s' h
  have hpush : push env fuel s c = some s' := by
    simp only [push, pushWith, hidle, Bool.false_eq_true, if_false, h, Option.map_some']
  refine ⟨hpush, hb', hq', ?_⟩
  have hd := drainTrace_drain env fuel { s with busy := true } c
  unfold processLoop at h
  rw [h] at hd
  simp only [Option.map_eq_some', Prod.mk.injEq, Prod.exists] at hd
  obtain ⟨a, x, log, hrec, ha, hx⟩ := hd
  subst ha; subst hx
  refine ⟨log, hrec, fun hnd => ?_⟩
  obtain ⟨new, he, hl⟩ := drainTrace_log env fuel { s with busy := true } c a log hI'
    hS.bounded.size_ok rfl hrec hnd
  simp only at he hl
  rw [hl, he, hq, List.drop_left']
  · rfl
  · rfl

theorem steps_succ (env : Env) (r : BitcoinStream → Buffer → Option BitcoinStream)
    (f : Nat) (s : BitcoinStream) (d : Buffer) :
    processStreamSteps env r (f + 1) s d =
      { before := s, data := d, result := pass env r s d } ::
        match pass env r s d with
        | Pass.continue s1 rest => processStreamSteps env r f s1 rest
        | _ => [] := rfl

/-- The slices of `processStreamPasses` are those of the passes that
`processStreamSteps` lists. -/
theorem steps_written (env : Env) (r : BitcoinStream → Buffer → Option BitcoinStream) :
    ∀ (f : Nat) (s : BitcoinStream) (d : Buffer),
      (processStreamSteps env r f s d).map (fun rec => written rec.before rec.data) =
        (processStreamPasses env r f s d).2 := by
  intro f
  induction f with
  | zero => intro s d; rfl
  | succ n ih =>
    intro s d
    rw [steps_succ, passes_succ]
    cases pass env r s d with
    | «continue» t rest => simp only [List.map_cons]; rw [ih t rest]
    | «break» t => rfl
    | throw e t => rfl
    | timeout => rfl

/-- The end of a pass leaves the two buffers as the write left them: neither the
listeners nor `newMessage` touch them. -/
theorem complete_buffers (env : Env) (r : BitcoinStream → Buffer → Option BitcoinStream)
    (b : Bool) (s1 : BitcoinStream) (hb : s1.busy = true) :
    match complete env r b s1 with
    | Completion.normal t => t.header = s1.header ∧ t.body = s1.body
    | Completion.throw _ t => t.header = s1.header ∧ t.body = s1.body
    | Completion.timeout => True := by
  have key : ∀ mb, match receivedBody env r s1 mb with
      | Completion.normal t => t.header = s1.header ∧ t.body = s1.body
      | Completion.throw _ t => t.header = s1.header ∧ t.body = s1.body
      | Completion.timeout => True := by
    intro mb
    have h := receivedBody_busy env r s1 mb hb
    cases hC : receivedBody env r s1 mb with
    | normal t => rw [hC] at h; exact ⟨h.1.header_eq, h.1.body_eq⟩
    | throw e t => rw [hC] at h; rw [h.2]; exact ⟨rfl, rfl⟩
    | timeout => trivial
  cases b with
  | true =>
    simp only [complete, if_true, completeBody]
    exact key _
  | false =>
    simp only [complete, Bool.false_eq_true, if_false, completeHeader]
    split_ifs
    · exact ⟨rfl, rfl⟩
    · exact ⟨rfl, rfl⟩
    · exact key _
    · exact ⟨rfl, rfl⟩

theorem storedIn_absorb (s : BitcoinStream) (x : Buffer) (h : Inv s) (hx : x.length ≤ need s) :
    StoredIn s x (absorb s x) := by
  unfold StoredIn
  by_cases hm : s.headerPos = 24
  · obtain ⟨L, hL, hL2, hbp⟩ := h.in_body hm
    have hneed : need s = L - s.bodyPos := by simp [need, hm, hL]
    rw [hneed] at hx
    have hbl := h.body_len
    rw [if_pos hm, bufSet_fits _ _ _ (by omega)]
    simp [absorb, hm]
  · have hlt : s.headerPos < 24 := by have := h.hp_le; omega
    have hneed : need s = 24 - s.headerPos := by simp [need, hm]
    rw [hneed] at hx
    have hhl := h.header_len
    rw [if_neg hm, bufSet_fits _ _ _ (by omega)]
    simp [absorb, hm]

theorem storedIn_congr {s s1 t : BitcoinStream} {x : Buffer} (h : StoredIn s x s1)
    (hh : t.header = s1.header) (hbd : t.body = s1.body) : StoredIn s x t := by
  unfold StoredIn at h ⊢
  split_ifs at h ⊢
  · rw [hbd, hh]; exact h
  · rw [hbd, hh]; exact h

/-- One pass, whatever the listeners do, `busy` being set: what it did with the
data. -/
theorem pass_sound (env : Env) (r : BitcoinStream → Buffer → Option BitcoinStream)
    (s : BitcoinStream) (d : Buffer) (h : Inv s) (hz : SizeOk s) (hb : s.busy = true) :
    PassRecord.Sound { before := s, data := d, result := pass env r s d } := by
  have hw := written_eq s d h
  have hpos := need_pos s h
  unfold PassRecord.Sound
  simp only
  rw [hw, pass_eq env r s d h]
  by_cases hs : d.length < need s
  · rw [if_pos hs]
    have ht : List.take (need s) d = d := List.take_of_length_le (by omega)
    simp only
    rw [ht]
    exact ⟨storedIn_absorb s d h (by omega), rfl⟩
  · rw [if_neg hs]
    have hx : (List.take (need s) d).length = need s := by simp [List.length_take]; omega
    have hab : (absorb s (List.take (need s) d)).busy = true :=
      (absorb_fields s _).1.trans hb
    have hst := storedIn_absorb s (List.take (need s) d) h (by omega)
    have hcb := complete_buffers env r (decide (s.headerPos = 24))
      (absorb s (List.take (need s) d)) hab
    have hcp := complete_busy env r s _ h hz hb hx
    cases hC : complete env r (decide (s.headerPos = 24)) (absorb s (List.take (need s) d)) with
    | normal t =>
      rw [hC] at hcb
      simp only [advanceN]
      split_ifs with hrest
      · exact ⟨storedIn_congr hst hcb.1 hcb.2, (List.take_append_drop _ _).symm, by omega⟩
      · refine ⟨storedIn_congr hst hcb.1 hcb.2, ?_⟩
        have hnil : List.drop (need s) d = [] := List.eq_nil_of_length_eq_zero (by omega)
        have := List.take_append_drop (need s) d
        rw [hnil, List.append_nil] at this
        exact this.symm
    | throw e t =>
      rw [hC] at hcb
      exact storedIn_congr hst hcb.1 hcb.2
    | timeout =>
      rw [hC] at hcp
      exact hcp

/-- The passes of the loop of `processStream`, whatever the listeners do, `busy`
being set: every entry is a call of `pass` on a state that satisfies the
invariant, and each did with its data what `PassRecord.Sound` says. -/
theorem steps_sound (env : Env) (r : BitcoinStream → Buffer → Option BitcoinStream) :
    ∀ (f : Nat) (s : BitcoinStream) (d : Buffer), Inv s → SizeOk s → s.busy = true →
    ∀ rec ∈ processStreamSteps env r f s d,
      rec.result = pass env r rec.before rec.data ∧ rec.Sound := by
  intro f
  induction f with
  | zero => intro s d _ _ _ rec hrec; simp [processStreamSteps] at hrec
  | succ n ih =>
    intro s d h hz hb rec hrec
    rw [steps_succ, List.mem_cons] at hrec
    rcases hrec with rfl | hrec
    · exact ⟨rfl, pass_sound env r s d h hz hb⟩
    · have hp := pass_busy env r s d h hz hb
      cases hP : pass env r s d with
      | «continue» t rest =>
        rw [hP] at hp hrec
        exact ih t rest hp.1 hp.2.1 hp.2.2.1.busy rec hrec
      | «break» t => rw [hP] at hrec; simp at hrec
      | throw e t => rw [hP] at hrec; simp at hrec
      | timeout => rw [hP] at hrec; simp at hrec

/-- The passes follow one another: the first starts from the state and the chunk
given to `processStream`, and each pass that continues hands its state and the
rest of the data to the next one. -/
theorem steps_chain (env : Env) (r : BitcoinStream → Buffer → Option BitcoinStream) :
    ∀ (f : Nat) (s : BitcoinStream) (d : Buffer),
      (processStreamSteps env r (f + 1) s d).head? =
          some { before := s, data := d, result := pass env r s d } ∧
        List.Chain' (fun a b => a.result = Pass.continue b.before b.data)
          (processStreamSteps env r (f + 1) s d) := by
  intro f
  induction f with
  | zero =>
    intro s d
    rw [steps_succ]
    refine ⟨rfl, ?_⟩
    cases pass env r s d <;> simp [processStreamSteps]
  | succ n ih =>
    intro s d
    rw [steps_succ]
    refine ⟨rfl, ?_⟩
    cases hP : pass env r s d with
    | «continue» t rest =>
      simp only
      obtain ⟨hh, hc⟩ := ih t rest
      rw [List.chain'_cons']
      refine ⟨fun y hy => ?_, hc⟩
      rw [hh] at hy
      simp only [Option.mem_def, Option.some.injEq] at hy
      subst hy
      rfl
    | «break» t => simp
    | throw e t => simp
    | timeout => simp

/-- The last pass gives the result of the loop. -/
theorem steps_last (env : Env) (r : BitcoinStream → Buffer → Option BitcoinStream) :
    ∀ (f : Nat) (s : BitcoinStream) (d : Buffer) (t : BitcoinStream),
      processStreamLoop env r f s d = Completion.normal t →
      ∃ rec, (processStreamSteps env r f s d).getLast? = some rec ∧
        rec.result = Pass.break t := by
  intro f
  induction f with
  | zero => intro s d t h; simp [processStreamLoop] at h
  | succ n ih =>
    intro s d t h
    rw [loop_succ] at h
    rw [steps_succ]
    cases hP : pass env r s d with
    | «continue» u rest =>
      rw [hP] at h
      simp only at h ⊢
      obtain ⟨rec, hl, hr⟩ := ih u rest t h
      refine ⟨rec, ?_, hr⟩
      cases hs : processStreamSteps env r n u rest with
      | nil => rw [hs] at hl; simp at hl
      | cons a as =>
        rw [hs] at hl
        rw [List.getLast?_cons_cons]
        exact hl
    | «break» u =>
      rw [hP] at h
      simp only at h
      cases h
      exact ⟨_, rfl, rfl⟩
    | throw e u => rw [hP] at h; simp at h
    | timeout => rw [hP] at h; simp at h

/-- C18. The call of `processStream` that `processLoop` makes on a reachable
stream that is not destroyed, whatever the chunk and the listeners: the loop ends
within `data.length + 1` passes (more fuel changes nothing, so it is not the fuel
that ends it), each pass that continues has written at least one byte, and on a
normal return the slices written by the passes are, one after the other, the
whole chunk. The slices are those of the calls of `pass` that the loop makes:
the calls follow one another from the state and the chunk given to
`processStream` to the `break` that returns the final state, and each call left
its slice in the header or the body buffer, put by `set` at the position where
the pass started. -/
theorem processStream_terminates (env : Env) (s : BitcoinStream) (hr : Reachable env s)
    (hnd : s.destroyed = false) (r : BitcoinStream → Buffer → Option BitcoinStream)
    (d : Buffer) :
    processStream env r { s with busy := true } d =
      (processStreamPasses env r (d.length + 1) { s with busy := true } d).1 ∧
    processStream env r { s with busy := true } d ≠ Completion.timeout ∧
    (∀ fuel : Nat, d.length + 1 ≤ fuel →
      processStreamPasses env r fuel { s with busy := true } d =
        processStreamPasses env r (d.length + 1) { s with busy := true } d) ∧
    (processStreamPasses env r (d.length + 1) { s with busy := true } d).2.length ≤
      d.length + 1 ∧
    (∀ x ∈ (processStreamPasses env r (d.length + 1) { s with busy := true } d).2.dropLast,
      1 ≤ x.length) ∧
    (∀ t, processStream env r { s with busy := true } d = Completion.normal t →
      (processStreamPasses env r (d.length + 1) { s with busy := true } d).2.flatten = d) ∧
    (processStreamSteps env r (d.length + 1) { s with busy := true } d).map
        (fun rec => written rec.before rec.data) =
      (processStreamPasses env r (d.length + 1) { s with busy := true } d).2 ∧
    (processStreamSteps env r (d.length + 1) { s with busy := true } d).head? =
      some { before := { s with busy := true }, data := d,
             result := pass env r { s with busy := true } d } ∧
    List.Chain' (fun a b => a.result = Pass.continue b.before b.data)
      (processStreamSteps env r (d.length + 1) { s with busy := true } d) ∧
    (∀ rec ∈ processStreamSteps env r (d.length + 1) { s with busy := true } d,
      rec.result = pass env r rec.before rec.data ∧ rec.Sound) ∧
    (∀ t, processStream env r { s with busy := true } d = Completion.normal t →
      ∃ rec, (processStreamSteps env r (d.length + 1) { s with busy := true } d).getLast? =
          some rec ∧ rec.result = Pass.break t) := by
  have hS := reachable_settled env s hr
  have hb : s.busy = false := by
    cases hb : s.busy with
    | false => rfl
    | true => rw [hS.busy hb] at hnd; cases hnd
  obtain ⟨hI, _⟩ := hS.idle hb
  have hI' : Inv { s with busy := true } := inv_of_fields hI rfl rfl rfl rfl rfl
  have hz : SizeOk { s with busy := true } := hS.bounded.size_ok
  have hpl : processStream env r { s with busy := true } d =
      processStreamLoop env r (d.length + 1) { s with busy := true } d := by
    simp [processStream, hnd]
  have hps : processStream env r { s with busy := true } d =
      (processStreamPasses env r (d.length + 1) { s with busy := true } d).1 := by
    rw [passes_fst, hpl]
  obtain ⟨h1, h2, h3⟩ := passes_props env r (d.length + 1) { s with busy := true } d hI' hz rfl
  obtain ⟨hhead, hchain⟩ := steps_chain env r d.length { s with busy := true } d
  refine ⟨hps, ?_, fun fuel hf => ?_, h1, h2, fun t ht => h3 t (by rw [← hps]; exact ht),
    steps_written env r _ _ d, hhead, hchain,
    steps_sound env r _ _ d hI' hz rfl, fun t ht => ?_⟩
  · have := processStream_busy env r { s with busy := true } d hI' hz rfl
    intro hto
    rw [hto] at this
    exact this
  · exact passes_fuel env r fuel (d.length + 1) { s with busy := true } d hI' hz rfl hf
      (le_refl _)
  · exact steps_last env r _ _ d t (by rw [← hpl]; exact ht)

/-- C19. A stream destroyed by the exception `e` caught in the drain of a `push`,
whatever the listeners do: `destroy` emptied the queue, so the queue holds the
chunks that the `streamError` listener pushed while it ran, none when it pushes
nothing; and each later `push` only appends its chunk to the queue, so that
after the pushes of `chunks` the queue is what it was followed by `chunks`, in
order, every other field being what it was. -/
theorem pushes_after_destruction_queued (env : Env) (fuel : Nat) (s : BitcoinStream)
    (packet : Buffer) (s' : BitcoinStream) (e : Errors)
    (h : processLoop env fuel s packet = some (s', some e)) :
    s'.destroyed = true ∧ s'.busy = true ∧
    (∃ hist, s'.emitted = hist ++ [Event.streamError e] ∧ s'.queue = env.onStreamError hist e) ∧
    ∀ (fuel' : Nat) (chunks : List Buffer),
      pushAll env fuel' s' chunks = some { s' with queue := s'.queue ++ chunks } ∧
      (s'.queue = [] → pushAll env fuel' s' chunks = some { s' with queue := chunks }) ∧
      ∀ c : Buffer, push env fuel' { s' with queue := s'.queue ++ chunks } c =
        some { s' with queue := s'.queue ++ chunks ++ [c] } := by
  obtain ⟨s1, hd, hb, hq, hem⟩ := drain_caught env fuel _ packet s' e h
  refine ⟨hd, hb, ⟨s1.emitted, hem, hq⟩, fun fuel' chunks => ⟨pushAll_busy env fuel' chunks s' hb,
    fun hnil => ?_, fun c => ?_⟩⟩
  · rw [pushAll_busy env fuel' chunks s' hb, hnil, List.nil_append]
  · exact push_busy env fuel' { s' with queue := s'.queue ++ chunks } c hb

/-! ## The field `bodySize` -/

theorem feed_frame_size (env : Env) (hq : Quiet env) (s : BitcoinStream) (hs : Clean s)
    (f : Frame) (hf : f.WellFormed env) :
    ∃ t, feed env s (f.bytes env) = Completion.normal t ∧
      t.bodySize = if f.body.length = 0 then s.bodySize else some f.body.length := by
  have hhl := Frame.header_length env f hf
  have h0 : s.bodyPos = 0 := hs.idle.inv.in_header (by rw [hs.at_header]; omega)
  have hH := feed_header env s hs _ hhl
  rw [completeHeader_frame env hq _ _ f hf rfl] at hH
  by_cases hz : f.body.length = 0
  · have hnil : f.body = [] := List.eq_nil_of_length_eq_zero hz
    rw [if_pos hz] at hH
    rw [Frame.bytes_eq, hnil, List.append_nil, hH]
    exact ⟨_, rfl, by simp [newMessage]⟩
  · rw [if_neg hz] at hH
    rw [Frame.bytes_eq, feed_append env hq s hs.idle, hH]
    simp only [Completion.andThen]
    rcases push_quiet_cases env hq s hs.idle 1 (le_refl 1) (f.header env) with
      ⟨t, hfeed, _, _, _, hidle⟩ | ⟨e, t, hfeed, _, _⟩
    · rw [hH] at hfeed
      cases hfeed
      rw [feed_body env _ hidle f.body rfl h0 rfl, receivedBody_frame env hq _ _ f hf rfl]
      exact ⟨_, rfl, by simp [newMessage, hz]⟩
    · rw [hH] at hfeed
      cases hfeed

theorem push_frame_size (env : Env) (hq : Quiet env) (fuel : Nat) (hfl : 1 ≤ fuel)
    (s : BitcoinStream) (hs : Clean s) (f : Frame) (hf : f.WellFormed env) :
    ∃ s', push env fuel s (f.bytes env) = some s' ∧ Clean s' ∧
      s'.bodySize = if f.body.length = 0 then s.bodySize else some f.body.length := by
  obtain ⟨t, hfeed, hsz⟩ := feed_frame_size env hq s hs f hf
  obtain ⟨s', hpush, hclean, _⟩ := push_frame env hq fuel hfl s hs f hf
  rcases push_quiet_cases env hq s hs.idle fuel hfl (f.bytes env) with
    ⟨t', hfeed', _, _, hpush', _⟩ | ⟨e, t', hfeed', _, _⟩
  · rw [hfeed] at hfeed'
    cases hfeed'
    rw [hpush] at hpush'
    cases hpush'
    exact ⟨_, hpush, hclean, hsz⟩
  · rw [hfeed] at hfeed'
    cases hfeed'

/-- Well-formed frames at the start of a chunk: the stream on which the push goes
on with the rest of the chunk has, in `bodySize`, the length of the last body
that was not empty. -/
theorem push_frames_size (env : Env) (hq : Quiet env) (fuel : Nat) (hfl : 1 ≤ fuel)
    (frames : List Frame) (hwf : ∀ f ∈ frames, f.WellFormed env) :
    ∀ s : BitcoinStream, Clean s →
      ∃ s', Clean s' ∧ s'.bodySize = staleSize s.bodySize frames ∧
        ∀ rest, push env fuel s (framesBytes env frames ++ rest) = push env fuel s' rest := by
  induction frames with
  | nil =>
    intro s hs
    exact ⟨s, hs, rfl, fun rest => by simp [framesBytes]⟩
  | cons f fs ih =>
    intro s hs
    obtain ⟨s1, hpush, hclean, hsz⟩ :=
      push_frame_size env hq fuel hfl s hs f (hwf f (List.mem_cons_self _ _))
    obtain ⟨s', hclean', hsz', hrest⟩ :=
      ih (fun g hg => hwf g (List.mem_cons_of_mem _ hg)) s1 hclean
    refine ⟨s', hclean', ?_, fun rest => ?_⟩
    · rw [hsz', hsz]
      rfl
    · rw [framesBytes_cons, List.append_assoc, ← hrest rest]
      obtain ⟨s1', h1, hcase⟩ :=
        push_append_core env hq s hs.idle fuel hfl (f.bytes env) (framesBytes env fs ++ rest)
      rw [hpush] at h1
      cases h1
      rcases hcase with ⟨_, heq⟩ | ⟨hd, _, _⟩
      · exact heq
      · rw [hclean.idle.not_destroyed] at hd; cases hd

theorem push_short_header_size (env : Env) (hq : Quiet env) (fuel : Nat) (hfl : 1 ≤ fuel)
    (s : BitcoinStream) (hs : Clean s) (x : Buffer) (hx : x.length < 24) :
    ∃ s', push env fuel s x = some s' ∧ s'.destroyed = false ∧ s'.headerPos = x.length ∧
      s'.bodySize = s.bodySize := by
  have hI := idle_busy_inv s hs.idle
  have hneed : need { s with busy := true } = 24 := by simp [need, hs.at_header]
  have hfeed : feed env s x = Completion.normal (absorb { s with busy := true } x) := by
    unfold feed
    exact loop_short env _ _ _ x hI (by rw [hneed]; exact hx)
  have hne : ¬ (s.headerPos = 24) := by rw [hs.at_header]; omega
  rcases push_quiet_cases env hq s hs.idle fuel hfl x with
    ⟨t, hfeed', _, _, hpush, hidle⟩ | ⟨e, t, hfeed', _, _⟩
  · rw [hfeed] at hfeed'
    cases hfeed'
    exact ⟨_, hpush, hidle.not_destroyed, by simp [absorb, hne, hs.at_header],
      by simp [absorb, hne]⟩
  · rw [hfeed] at hfeed'
    cases hfeed'

/-- C15, counterexample. After a `push` of the `ping` frame, whose body has eight
bytes, on a new stream, the decoder awaits a header (`headerPos = 0`) and
`bodySize` is still 8: it is not unset. -/
theorem bodySize_stale_counterexample :
    push exampleEnv 1 BitcoinStream.new (pingFrame.bytes exampleEnv) = some afterPingExample ∧
    afterPingExample.headerPos = 0 ∧ afterPingExample.bodySize = some 8 ∧
    afterPingExample.bodySize ≠ none := by
  decide!

/-- C15, as amended. The method `newMessage` leaves `bodySize` as it is, and
nothing resets it. In every reachable state, whatever the listeners do,
`bodySize` is unset or between 1 and 2048. And after well-formed frames followed
by fewer than 24 bytes of the next header were pushed to a new stream in any
chunking (listeners make no call), the decoder accumulates a header and
`bodySize` is the length of the last body that was not empty: unset when there
was none, and `n` after a frame with a body of `n > 0` bytes. -/
theorem bodySize_stale (env : Env) :
    (∀ s : BitcoinStream, (newMessage s).bodySize = s.bodySize) ∧
    (∀ s : BitcoinStream, Reachable env s →
      s.bodySize = none ∨ ∃ L, s.bodySize = some L ∧ 1 ≤ L ∧ L ≤ 2048) ∧
    (Quiet env → ∀ (fuel : Nat) (frames : List Frame) (rest : Buffer) (chunks : List Buffer),
      1 ≤ fuel → (∀ f ∈ frames, f.WellFormed env) → rest.length < 24 →
      chunks.flatten = framesBytes env frames ++ rest →
      ∃ s', pushAll env fuel BitcoinStream.new chunks = some s' ∧
        s'.headerPos = rest.length ∧ s'.headerPos < 24 ∧
        s'.bodySize = staleSize none frames) := by
  refine ⟨fun _ => rfl, fun s hr => ?_, fun hq fuel frames rest chunks hfl hwf hrest hch => ?_⟩
  · have hz := (reachable_settled env s hr).bounded.size_ok
    cases hs : s.bodySize with
    | none => exact Or.inl rfl
    | some L => exact Or.inr ⟨L, rfl, hz L hs⟩
  · obtain ⟨s1, hclean, hsz, hgo⟩ :=
      push_frames_size env hq fuel hfl frames hwf BitcoinStream.new clean_new
    obtain ⟨s2, hpush, hnd, hhp, hsz2⟩ := push_short_header_size env hq fuel hfl s1 hclean rest hrest
    have hw : push env fuel BitcoinStream.new chunks.flatten = some s2 := by
      rw [hch, hgo rest, hpush]
    obtain ⟨sc, hsc, _, heq⟩ := pushAll_of_flatten env hq fuel hfl BitcoinStream.new idle_new
      chunks s2 hw
    have := heq hnd
    subst this
    exact ⟨sc, hsc, hhp, by rw [hhp]; exact hrest, by rw [hsz2, hsz]; rfl⟩

/-! ## Examples -/

theorem sha256K_eq :
    sha256K = firstPrimes.map (fun p => icbrtAux (p * 2 ^ 96) 40 0 % 2 ^ 32) := by decide!

theorem sha256H0_eq :
    sha256H0 = (firstPrimes.take 8).map (fun p => isqrtAux (p * 2 ^ 64) 40 0 % 2 ^ 32) := by
  decide!

/-- The test vector of FIPS 180-4 for the message `abc`. -/
theorem sha256_abc :
    sha256 [97, 98, 99] =
      [0xba, 0x78, 0x16, 0xbf, 0x8f, 0x01, 0xcf, 0xea, 0x41, 0x41, 0x40, 0xde, 0x5d, 0xae, 0x22,
       0x23, 0xb0, 0x03, 0x61, 0xa3, 0x96, 0x17, 0x7a, 0x9c, 0xb4, 0x10, 0xff, 0x61, 0xf2, 0x00,
       0x15, 0xad] := by decide!

/-- The checksum of an empty payload, as every `verack` message on the network
carries it. -/
theorem verackFrame_checksum : verackFrame.checksum exampleEnv = [0x5d, 0xf6, 0xe0, 0xe2] := by
  decide!

theorem exampleEnv_quiet : Quiet exampleEnv := ⟨fun _ _ => rfl, fun _ _ => rfl⟩

theorem pingFrame_wellFormed : pingFrame.WellFormed exampleEnv :=
  ⟨by decide, by decide, by decide!⟩

theorem verackFrame_wellFormed : verackFrame.WellFormed exampleEnv :=
  ⟨by decide, by decide, by decide!⟩

theorem pongFrame_wellFormed : pongFrame.WellFormed exampleEnv :=
  ⟨by decide, by decide, by decide!⟩

theorem example_frames_wellFormed :
    ∀ f ∈ [pingFrame, verackFrame, pongFrame], f.WellFormed exampleEnv := by
  intro f hf
  simp only [List.mem_cons, List.mem_singleton, List.not_mem_nil, or_false] at hf
  rcases hf with rfl | rfl | rfl
  · exact pingFrame_wellFormed
  · exact verackFrame_wellFormed
  · exact pongFrame_wellFormed

theorem pushingEnv_pushOnly : PushOnly pushingEnv := by
  intro h m a ha
  simp only [pushingEnv] at ha
  split_ifs at ha
  · simp only [List.mem_cons, List.mem_singleton, List.not_mem_nil, or_false] at ha
    rcases ha with rfl | rfl
    · exact ⟨_, rfl⟩
    · exact ⟨_, rfl⟩
  · simp at ha

theorem push_wellFormed_frames_witness :
    Quiet exampleEnv ∧ (∀ f ∈ [pingFrame, verackFrame, pongFrame], f.WellFormed exampleEnv) ∧
    ∃ s', push exampleEnv 1 BitcoinStream.new
        (framesBytes exampleEnv [pingFrame, verackFrame, pongFrame]) = some s' ∧
      s'.emitted = [pingFrame, verackFrame, pongFrame].map (fun f => Event.message
        { command := BufferToString exampleEnv f.command, body := f.body }) ∧
      s'.headerPos = 0 ∧ s'.bodyPos = 0 ∧ s'.busy = false ∧ s'.destroyed = false :=
  ⟨exampleEnv_quiet, example_frames_wellFormed,
    push_wellFormed_frames exampleEnv exampleEnv_quiet 1 (le_refl 1)
      [pingFrame, verackFrame, pongFrame] example_frames_wellFormed⟩

theorem push_chunk_split_invariance_witness :
    Quiet exampleEnv ∧ Reachable exampleEnv BitcoinStream.new ∧
    BitcoinStream.new.busy = false ∧ BitcoinStream.new.destroyed = false ∧
    ∃ s12 s1 s2,
      push exampleEnv 1 BitcoinStream.new
        ((pingFrame.bytes exampleEnv).take 29 ++
          ((pingFrame.bytes exampleEnv).drop 29 ++ verackFrame.bytes exampleEnv)) = some s12 ∧
      push exampleEnv 1 BitcoinStream.new ((pingFrame.bytes exampleEnv).take 29) = some s1 ∧
      push exampleEnv 1 s1
        ((pingFrame.bytes exampleEnv).drop 29 ++ verackFrame.bytes exampleEnv) = some s2 ∧
      s2.emitted = s12.emitted ∧ (s12.destroyed = false → s2 = s12) :=
  ⟨exampleEnv_quiet, Reachable.new, rfl, rfl,
    (push_chunk_split_invariance exampleEnv exampleEnv_quiet BitcoinStream.new Reachable.new
      rfl rfl 1 (le_refl 1)).1 _ _⟩

theorem emitted_messages_sound_witness :
    Quiet exampleEnv ∧
    ∃ (s' : BitcoinStream) (frames : List Frame) (rest : Buffer),
      pushAll exampleEnv 1 BitcoinStream.new
        [(pingFrame.bytes exampleEnv).take 5, (pingFrame.bytes exampleEnv).drop 5,
          [1, 2, 3]] = some s' ∧
      [(pingFrame.bytes exampleEnv).take 5, (pingFrame.bytes exampleEnv).drop 5,
          [1, 2, 3]].flatten = framesBytes exampleEnv frames ++ rest ∧
      (∀ f ∈ frames, f.WellFormed exampleEnv) ∧
      (s'.emitted = frames.map (fun f => Event.message (f.message exampleEnv)) ∨
        ∃ e, s'.emitted = frames.map (fun f => Event.message (f.message exampleEnv)) ++
          [Event.streamError e]) :=
  ⟨exampleEnv_quiet, emitted_messages_sound exampleEnv exampleEnv_quiet 1 (le_refl 1) _⟩

theorem bad_magic_unsupportedNetwork_witness :
    Quiet exampleEnv ∧ (∀ f ∈ [pingFrame, verackFrame, pongFrame], f.WellFormed exampleEnv) ∧
    (List.replicate 24 (1 : Byte)).length = 24 ∧
    (List.replicate 24 (1 : Byte)).take 4 ≠ uint32LE MAGIC_BYTE ∧
    ∃ s', pushAll exampleEnv 1 BitcoinStream.new
        [framesBytes exampleEnv [pingFrame, verackFrame, pongFrame] ++ List.replicate 24 1 ++
          verackFrame.bytes exampleEnv] = some s' ∧
      s'.emitted = [pingFrame, verackFrame, pongFrame].map
          (fun f => Event.message (f.message exampleEnv)) ++
        [Event.streamError Errors.UnsupportedNetwork] ∧
      s'.destroyed = true :=
  ⟨exampleEnv_quiet, example_frames_wellFormed, by decide, by decide,
    (bad_magic_unsupportedNetwork exampleEnv exampleEnv_quiet 1 (le_refl 1)
      [pingFrame, verackFrame, pongFrame] example_frames_wellFormed (List.replicate 24 1)
      (by decide) (by decide)).1 (verackFrame.bytes exampleEnv) _ (by simp)⟩

theorem length_check_payloadExceedsLimit_witness :
    Quiet exampleEnv ∧ Reachable exampleEnv BitcoinStream.new ∧
    (∀ chunks : List Buffer,
      chunks.flatten = headerBytes pingFrame.command 2049 [0, 0, 0, 0] →
      ∃ s', pushAll exampleEnv 1 BitcoinStream.new chunks = some s' ∧
        (Event.streamError Errors.PayloadExceedsLimit ∈
            s'.emitted.drop BitcoinStream.new.emitted.length ↔ 2048 < 2049)) ∧
    (2048 < 2049 → ∀ (tail : Buffer) (chunks : List Buffer),
      chunks.flatten = headerBytes pingFrame.command 2049 [0, 0, 0, 0] ++ tail →
      ∃ s', pushAll exampleEnv 1 BitcoinStream.new chunks = some s' ∧
        s'.emitted = BitcoinStream.new.emitted ++
          [Event.streamError Errors.PayloadExceedsLimit] ∧
        s'.body = BitcoinStream.new.body ∧ s'.bodyPos = BitcoinStream.new.bodyPos ∧
        s'.bodySize = BitcoinStream.new.bodySize) :=
  ⟨exampleEnv_quiet, Reachable.new,
    length_check_payloadExceedsLimit exampleEnv exampleEnv_quiet 1 (le_refl 1) BitcoinStream.new
      Reachable.new rfl rfl pingFrame.command [0, 0, 0, 0] 2049 (by decide) (by decide)
      (by decide)⟩

theorem bad_checksum_invalidChecksum_witness :
    Quiet exampleEnv ∧ Reachable exampleEnv BitcoinStream.new ∧
    ([0, 0, 0, 0] : Buffer) ≠ (doubleHash exampleEnv [9, 9]).take 4 ∧
    ∃ s', pushAll exampleEnv 1 BitcoinStream.new
        [framesBytes exampleEnv [pingFrame] ++
          (headerBytes pongFrame.command ([9, 9] : Buffer).length [0, 0, 0, 0] ++ [9, 9]) ++
          verackFrame.bytes exampleEnv] = some s' ∧
      s'.emitted = BitcoinStream.new.emitted ++
          [pingFrame].map (fun f => Event.message (f.message exampleEnv)) ++
        [Event.streamError Errors.InvalidChecksum] ∧
      s'.destroyed = true :=
  ⟨exampleEnv_quiet, Reachable.new, by decide!,
    (bad_checksum_invalidChecksum exampleEnv exampleEnv_quiet 1 (le_refl 1) BitcoinStream.new
      Reachable.new rfl rfl [pingFrame]
      (by intro f hf; simp only [List.mem_singleton] at hf; rw [hf]; exact pingFrame_wellFormed)
      pongFrame.command [0, 0, 0, 0] [9, 9] (by decide) (by decide) (by decide) (by decide!)).1
      (verackFrame.bytes exampleEnv) _ (by simp)⟩

theorem zero_length_frame_witness :
    Quiet exampleEnv ∧ Reachable exampleEnv BitcoinStream.new ∧
    ((doubleHash exampleEnv []).take 4).length = 4 ∧
    (∀ chunks : List Buffer,
      chunks.flatten = headerBytes verackFrame.command 0 ((doubleHash exampleEnv []).take 4) →
      ∃ s', pushAll exampleEnv 1 BitcoinStream.new chunks = some s' ∧
        s'.emitted = BitcoinStream.new.emitted ++ [Event.message
          { command := BufferToString exampleEnv verackFrame.command, body := [] }] ∧
        s'.headerPos = 0 ∧ s'.bodyPos = 0 ∧ s'.busy = false ∧ s'.destroyed = false) ∧
    (∀ tail : Buffer, tail.length < 24 →
      ∃ s', push exampleEnv 1 BitcoinStream.new
          (headerBytes verackFrame.command 0 ((doubleHash exampleEnv []).take 4) ++ tail) =
          some s' ∧
        s'.emitted = BitcoinStream.new.emitted ++ [Event.message
          { command := BufferToString exampleEnv verackFrame.command, body := [] }] ∧
        s'.headerPos = tail.length ∧ s'.header.take tail.length = tail ∧ s'.bodyPos = 0 ∧
        s'.busy = false ∧ s'.destroyed = false) :=
  ⟨exampleEnv_quiet, Reachable.new, by decide!,
    zero_length_frame exampleEnv exampleEnv_quiet 1 (le_refl 1) BitcoinStream.new Reachable.new
      rfl rfl verackFrame.command (by decide) (by decide!)⟩

theorem afterPingExample_eq :
    push pushingEnv.quiet 1 BitcoinStream.new (pingFrame.bytes exampleEnv) =
      some afterPingExample := by decide!

theorem afterPingExample_pushes :
    pushesAlong pushingEnv BitcoinStream.new.emitted
      (afterPingExample.emitted.drop BitcoinStream.new.emitted.length) =
      [verackFrame.bytes exampleEnv, pongFrame.bytes exampleEnv] := by decide!

theorem afterThreeExample_eq :
    pushAll pushingEnv.quiet 1 afterPingExample
      (pushesAlong pushingEnv BitcoinStream.new.emitted
        (afterPingExample.emitted.drop BitcoinStream.new.emitted.length)) =
      some afterThreeExample := by decide!

theorem afterThreeExample_emitted :
    afterThreeExample.emitted =
      [Event.message { command := "ping", body := [1, 2, 3, 4, 5, 6, 7, 8] },
       Event.message { command := "verack", body := [] },
       Event.message { command := "pong", body := [9, 9] }] := by decide!

theorem afterThreeExample_quiet :
    pushesAlong pushingEnv afterPingExample.emitted
      (afterThreeExample.emitted.drop afterPingExample.emitted.length) = [] := by decide!

theorem push_reentrant_fifo_witness :
    PushOnly pushingEnv ∧
    push pushingEnv.quiet 1 BitcoinStream.new (pingFrame.bytes exampleEnv) =
      some afterPingExample ∧
    pushesAlong pushingEnv BitcoinStream.new.emitted
      (afterPingExample.emitted.drop BitcoinStream.new.emitted.length) =
      [verackFrame.bytes exampleEnv, pongFrame.bytes exampleEnv] ∧
    afterThreeExample.emitted =
      [Event.message { command := "ping", body := [1, 2, 3, 4, 5, 6, 7, 8] },
       Event.message { command := "verack", body := [] },
       Event.message { command := "pong", body := [9, 9] }] ∧
    push pushingEnv 3 BitcoinStream.new (pingFrame.bytes exampleEnv) = some afterThreeExample ∧
    afterThreeExample.busy = false ∧ afterThreeExample.queue = [] :=
  ⟨pushingEnv_pushOnly, afterPingExample_eq, afterPingExample_pushes, afterThreeExample_emitted,
    (push_reentrant_fifo pushingEnv pushingEnv_pushOnly BitcoinStream.new rfl rfl
      (pingFrame.bytes exampleEnv)).2 afterPingExample afterThreeExample afterPingExample_eq
      (by decide!) afterThreeExample_eq (by decide!) afterThreeExample_quiet 3
      (by rw [afterPingExample_pushes]; decide)⟩

theorem destroyed_stream_stays_silent_witness :
    processLoop pushingEnv 1 BitcoinStream.new (List.replicate 24 0) =
      some (destroyedExample, some Errors.UnsupportedNetwork) ∧
    ∀ (fuel' : Nat) (chunks : List Buffer), ∃ s'',
      pushAll pushingEnv fuel' destroyedExample chunks = some s'' ∧
      s''.emitted = destroyedExample.emitted ∧
      s''.destroyed = true ∧ s''.busy = true :=
  ⟨by decide!,
    (destroyed_stream_stays_silent pushingEnv 1 BitcoinStream.new (List.replicate 24 0)
      destroyedExample Errors.UnsupportedNetwork (by decide!)).2.2.2⟩

/-- C10, counterexample. The `streamError` listener of `pushingEnv` pushes one
chunk: after a `push` of 24 zero bytes on a new stream, which ends with the error
`UnsupportedNetwork` caught in the drain, the stream is destroyed and busy, and
its queue holds that chunk: it is not empty. -/
theorem drain_error_queue_counterexample :
    processLoop pushingEnv 1 BitcoinStream.new (List.replicate 24 0) =
        some (destroyedExample, some Errors.UnsupportedNetwork) ∧
      destroyedExample.destroyed = true ∧ destroyedExample.busy = true ∧
      destroyedExample.queue = [[0]] ∧ destroyedExample.queue ≠ [] :=
  ⟨by decide!, rfl, rfl, rfl, by decide⟩

theorem drain_stops_on_error_witness :
    PushOnly pushingEnv ∧
    processLoop pushingEnv 2 BitcoinStream.new
        (pingFrame.bytes exampleEnv ++ List.replicate 24 0) =
      some (pingThenZerosExample, some Errors.UnsupportedNetwork) ∧
    pingThenZerosExample.destroyed = true ∧ pingThenZerosExample.busy = true ∧
    ∃ msgs : List Message,
      pingThenZerosExample.emitted =
        BitcoinStream.new.emitted ++ msgs.map Event.message ++
          [Event.streamError Errors.UnsupportedNetwork] ∧
      pingThenZerosExample.queue =
        pushingEnv.onStreamError (BitcoinStream.new.emitted ++ msgs.map Event.message)
          Errors.UnsupportedNetwork :=
  ⟨pushingEnv_pushOnly, by decide!,
    drain_stops_on_error pushingEnv pushingEnv_pushOnly 2 BitcoinStream.new
      (pingFrame.bytes exampleEnv ++ List.replicate 24 0) pingThenZerosExample
      Errors.UnsupportedNetwork (by decide!)⟩

/-! ## Examples for the reachable states -/

/-- C16, the failing run. The `message` listener of `destroyingEnv` calls `destroy`
on the first message. One chunk holds a `ping` frame and a `verack` frame: the
message of the second frame is emitted after the `streamError` of `destroy`,
because `processStream` tests `destroyed` only when it is entered, and `busy` is
unset on return, because `processLoop` clears it when the queue is empty. -/
theorem handler_destroy_example :
    push destroyingEnv 1 BitcoinStream.new
        (pingFrame.bytes exampleEnv ++ verackFrame.bytes exampleEnv) =
      some handlerDestroyedExample ∧
    handlerDestroyedExample.emitted =
      [Event.message { command := "ping", body := [1, 2, 3, 4, 5, 6, 7, 8] },
       Event.streamError Errors.InvalidChecksum,
       Event.message { command := "verack", body := [] }] ∧
    handlerDestroyedExample.destroyed = true ∧ handlerDestroyedExample.busy = false := by
  decide!

theorem midBodyExample_eq :
    push exampleEnv 1 BitcoinStream.new ((pingFrame.bytes exampleEnv).take 29) =
      some midBodyExample := by decide!

theorem midBodyExample_fields :
    midBodyExample.headerPos = 24 ∧ midBodyExample.bodySize = some 8 ∧
      midBodyExample.bodyPos = 5 ∧ midBodyExample.destroyed = false := by decide!

theorem afterPingExample_reachable : Reachable exampleEnv afterPingExample :=
  Reachable.push _ _ 1 (pingFrame.bytes exampleEnv) Reachable.new (by decide!)

theorem bufferToString_first_zero_witness :
    (∀ b ∈ ([112, 105, 110, 103] : Buffer), b ≠ 0) ∧
    BufferToString exampleEnv ([112, 105, 110, 103] ++ 0 :: [7, 0, 0, 0, 0, 0, 0]) =
      exampleEnv.bufToString [112, 105, 110, 103] ∧
    (∀ b ∈ ([103, 101, 116, 98, 108, 111, 99, 107, 116, 120, 110, 115] : Buffer), b ≠ 0) ∧
    BufferToString exampleEnv [103, 101, 116, 98, 108, 111, 99, 107, 116, 120, 110, 115] =
      exampleEnv.bufToString [103, 101, 116, 98, 108, 111, 99, 107, 116, 120, 110, 115] ∧
    exampleEnv.bufToString [118, 101, 114, 115, 105, 111, 110] = "version" ∧
    BufferToString exampleEnv [118, 101, 114, 115, 105, 111, 110, 0, 0, 0, 0, 0] = "version" ∧
    exampleEnv.bufToString [] = "" ∧
    (∀ rest : Buffer, BufferToString exampleEnv (0 :: rest) = "") ∧
    Quiet exampleEnv ∧ pingFrame.WellFormed exampleEnv ∧
    ∃ s', push exampleEnv 1 BitcoinStream.new (pingFrame.bytes exampleEnv) = some s' ∧
      s'.emitted = [Event.message
        { command := exampleEnv.bufToString (pingFrame.command.takeWhile (fun b => b != 0)),
          body := pingFrame.body }] :=
  ⟨by decide!,
    (bufferToString_first_zero exampleEnv).2.1 [112, 105, 110, 103] [7, 0, 0, 0, 0, 0, 0]
      (by decide!),
    by decide!,
    (bufferToString_first_zero exampleEnv).2.2.1
      [103, 101, 116, 98, 108, 111, 99, 107, 116, 120, 110, 115] (by decide!),
    by decide!,
    (bufferToString_first_zero exampleEnv).2.2.2.1 (by decide!),
    by decide!,
    (bufferToString_first_zero exampleEnv).2.2.2.2.1 (by decide!),
    exampleEnv_quiet, pingFrame_wellFormed,
    (bufferToString_first_zero exampleEnv).2.2.2.2.2 exampleEnv_quiet 1 pingFrame (le_refl 1)
      pingFrame_wellFormed⟩

theorem push_while_busy_witness :
    destroyedExample.busy = true ∧
    ∃ s', push pushingEnv 1 destroyedExample [1, 2, 3] = some s' ∧
      s'.queue = destroyedExample.queue ++ [[1, 2, 3]] ∧
      s'.header = destroyedExample.header ∧ s'.headerPos = destroyedExample.headerPos ∧
      s'.body = destroyedExample.body ∧ s'.bodySize = destroyedExample.bodySize ∧
      s'.bodyPos = destroyedExample.bodyPos ∧ s'.busy = destroyedExample.busy ∧
      s'.destroyed = destroyedExample.destroyed ∧ s'.emitted = destroyedExample.emitted :=
  ⟨rfl, (push_while_busy pushingEnv 1 destroyedExample [1, 2, 3] rfl).2⟩

theorem reachable_buffer_bounds_witness :
    Reachable exampleEnv midBodyExample ∧
    midBodyExample.header.length = 24 ∧ midBodyExample.body.length = 2048 ∧
    midBodyExample.headerPos ≤ 24 ∧ midBodyExample.bodyPos ≤ 2048 ∧
    (midBodyExample.destroyed = false → midBodyExample.busy = false ∧
      (midBodyExample.headerPos < 24 ∨
        (midBodyExample.headerPos = 24 ∧ ∃ L, midBodyExample.bodySize = some L ∧ 1 ≤ L ∧
          L ≤ 2048 ∧ midBodyExample.bodyPos < L))) ∧
    (midBodyExample.busy = false →
      ∀ (fuel : Nat) (c : Buffer) (s' : BitcoinStream) (e : Errors),
        processLoop exampleEnv fuel midBodyExample c = some (s', some e) →
        e ≠ Errors.RangeError) :=
  ⟨Reachable.push _ _ 1 _ Reachable.new midBodyExample_eq,
    reachable_buffer_bounds exampleEnv midBodyExample
      (Reachable.push _ _ 1 _ Reachable.new midBodyExample_eq)⟩

theorem bodySize_stale_witness :
    Reachable exampleEnv afterPingExample ∧
    (afterPingExample.bodySize = none ∨
      ∃ L, afterPingExample.bodySize = some L ∧ 1 ≤ L ∧ L ≤ 2048) ∧
    Quiet exampleEnv ∧ (∀ f ∈ [pingFrame, verackFrame], f.WellFormed exampleEnv) ∧
    ∃ s', pushAll exampleEnv 1 BitcoinStream.new
        [framesBytes exampleEnv [pingFrame, verackFrame] ++ [1, 2, 3]] = some s' ∧
      s'.headerPos = ([1, 2, 3] : Buffer).length ∧ s'.headerPos < 24 ∧
      s'.bodySize = staleSize none [pingFrame, verackFrame] :=
  ⟨afterPingExample_reachable,
    (bodySize_stale exampleEnv).2.1 afterPingExample afterPingExample_reachable,
    exampleEnv_quiet,
    fun f hf => example_frames_wellFormed f (by simp at hf ⊢; tauto),
    (bodySize_stale exampleEnv).2.2 exampleEnv_quiet 1 [pingFrame, verackFrame] [1, 2, 3]
      [framesBytes exampleEnv [pingFrame, verackFrame] ++ [1, 2, 3]] (le_refl 1)
      (fun f hf => example_frames_wellFormed f (by simp at hf ⊢; tauto)) (by decide)
      (by simp)⟩

theorem afterThreeExample_drain :
    processLoop pushingEnv 3 BitcoinStream.new (pingFrame.bytes exampleEnv) =
      some (afterThreeExample, none) :=
  drain_fifo pushingEnv pushingEnv_pushOnly 3 { BitcoinStream.new with busy := true }
    (pingFrame.bytes exampleEnv) afterPingExample afterThreeExample rfl afterPingExample_eq
    (by decide!)
    (by
      show pushAll pushingEnv.quiet 1 afterPingExample
        ([] ++ pushesAlong pushingEnv BitcoinStream.new.emitted
          (afterPingExample.emitted.drop BitcoinStream.new.emitted.length)) =
        some afterThreeExample
      rw [List.nil_append]
      exact afterThreeExample_eq)
    (by decide!) afterThreeExample_quiet
    (by
      show ([] ++ pushesAlong pushingEnv BitcoinStream.new.emitted
        (afterPingExample.emitted.drop BitcoinStream.new.emitted.length)).length + 1 ≤ 3
      rw [List.nil_append, afterPingExample_pushes]
      decide)

theorem drain_completeness_witness :
    Reachable pushingEnv BitcoinStream.new ∧ BitcoinStream.new.busy = false ∧
    processLoop pushingEnv 3 BitcoinStream.new (pingFrame.bytes exampleEnv) =
      some (afterThreeExample, none) ∧
    push pushingEnv 3 BitcoinStream.new (pingFrame.bytes exampleEnv) = some afterThreeExample ∧
    afterThreeExample.busy = false ∧ afterThreeExample.queue = [] ∧
    ∃ log, drainTrace pushingEnv 3 { BitcoinStream.new with busy := true }
        (pingFrame.bytes exampleEnv) = some (afterThreeExample, none, log) ∧
      (afterThreeExample.destroyed = false →
        log = pingFrame.bytes exampleEnv ::
          pushesAlong pushingEnv BitcoinStream.new.emitted
            (afterThreeExample.emitted.drop BitcoinStream.new.emitted.length)) :=
  ⟨Reachable.new, rfl, afterThreeExample_drain,
    (drain_completeness pushingEnv BitcoinStream.new Reachable.new rfl).2 3
      (pingFrame.bytes exampleEnv) afterThreeExample afterThreeExample_drain⟩

theorem afterThreeExample_pushes :
    afterThreeExample.destroyed = false ∧
    pushesAlong pushingEnv BitcoinStream.new.emitted
        (afterThreeExample.emitted.drop BitcoinStream.new.emitted.length) =
      [verackFrame.bytes exampleEnv, pongFrame.bytes exampleEnv] := by decide!

theorem processStream_terminates_witness :
    Reachable exampleEnv BitcoinStream.new ∧ BitcoinStream.new.destroyed = false ∧
    processStream exampleEnv (fun _ _ => none) { BitcoinStream.new with busy := true }
        (framesBytes exampleEnv [pingFrame, verackFrame]) ≠ Completion.timeout ∧
    (processStreamPasses exampleEnv (fun _ _ => none)
        ((framesBytes exampleEnv [pingFrame, verackFrame]).length + 1)
        { BitcoinStream.new with busy := true }
        (framesBytes exampleEnv [pingFrame, verackFrame])).2.length ≤
      (framesBytes exampleEnv [pingFrame, verackFrame]).length + 1 ∧
    (∀ t, processStream exampleEnv (fun _ _ => none) { BitcoinStream.new with busy := true }
        (framesBytes exampleEnv [pingFrame, verackFrame]) = Completion.normal t →
      (processStreamPasses exampleEnv (fun _ _ => none)
        ((framesBytes exampleEnv [pingFrame, verackFrame]).length + 1)
        { BitcoinStream.new with busy := true }
        (framesBytes exampleEnv [pingFrame, verackFrame])).2.flatten =
      framesBytes exampleEnv [pingFrame, verackFrame]) ∧
    (∀ rec ∈ processStreamSteps exampleEnv (fun _ _ => none)
        ((framesBytes exampleEnv [pingFrame, verackFrame]).length + 1)
        { BitcoinStream.new with busy := true }
        (framesBytes exampleEnv [pingFrame, verackFrame]),
      rec.result = pass exampleEnv (fun _ _ => none) rec.before rec.data ∧ rec.Sound) :=
  ⟨Reachable.new, rfl,
    (processStream_terminates exampleEnv BitcoinStream.new Reachable.new rfl (fun _ _ => none)
      (framesBytes exampleEnv [pingFrame, verackFrame])).2.1,
    (processStream_terminates exampleEnv BitcoinStream.new Reachable.new rfl (fun _ _ => none)
      (framesBytes exampleEnv [pingFrame, verackFrame])).2.2.2.1,
    (processStream_terminates exampleEnv BitcoinStream.new Reachable.new rfl (fun _ _ => none)
      (framesBytes exampleEnv [pingFrame, verackFrame])).2.2.2.2.2.1,
    (processStream_terminates exampleEnv BitcoinStream.new Reachable.new rfl (fun _ _ => none)
      (framesBytes exampleEnv [pingFrame, verackFrame])).2.2.2.2.2.2.2.2.2.1⟩

/-- The passes of `processStream` on one chunk that holds a `ping` frame and a
`verack` frame: the header, the body, the header. -/
theorem processStreamPasses_example :
    (processStreamPasses exampleEnv (fun _ _ => none) 57 { BitcoinStream.new with busy := true }
        (framesBytes exampleEnv [pingFrame, verackFrame])).2 =
      [pingFrame.header exampleEnv, pingFrame.body, verackFrame.header exampleEnv] := by
  decide!

theorem pushes_after_destruction_queued_witness :
    processLoop pushingEnv 1 BitcoinStream.new (List.replicate 24 0) =
      some (destroyedExample, some Errors.UnsupportedNetwork) ∧
    destroyedExample.destroyed = true ∧ destroyedExample.busy = true ∧
    (∃ hist, destroyedExample.emitted = hist ++ [Event.streamError Errors.UnsupportedNetwork] ∧
      destroyedExample.queue = pushingEnv.onStreamError hist Errors.UnsupportedNetwork) ∧
    ∀ (fuel' : Nat) (chunks : List Buffer),
      pushAll pushingEnv fuel' destroyedExample chunks =
        some { destroyedExample with queue := destroyedExample.queue ++ chunks } ∧
      (destroyedExample.queue = [] →
        pushAll pushingEnv fuel' destroyedExample chunks =
          some { destroyedExample with queue := chunks }) ∧
      ∀ c : Buffer,
        push pushingEnv fuel' { destroyedExample with queue := destroyedExample.queue ++ chunks }
          c = some { destroyedExample with queue := destroyedExample.queue ++ chunks ++ [c] } :=
  ⟨by decide!,
    pushes_after_destruction_queued pushingEnv 1 BitcoinStream.new (List.replicate 24 0)
      destroyedExample Errors.UnsupportedNetwork (by decide!)⟩

/-- C2, the failing run. The listeners of `destroyingEnv` never push; the `message`
listener calls `destroy` on the first message. Pushed as one chunk, a `ping`
frame and a `verack` frame give the notifications `ping`, `streamError`,
`verack`; pushed as two chunks they give `ping`, `streamError` only, because the
second `push` finds `destroyed` set when it enters `processStream`. -/
theorem split_after_handler_destroy_example :
    (∀ h m, pushedChunks (destroyingEnv.onMessage h m) = []) ∧
    (∀ h e, destroyingEnv.onStreamError h e = []) ∧
    push destroyingEnv 1 BitcoinStream.new
        (pingFrame.bytes exampleEnv ++ verackFrame.bytes exampleEnv) =
      some handlerDestroyedExample ∧
    handlerDestroyedExample.emitted =
      [Event.message { command := "ping", body := [1, 2, 3, 4, 5, 6, 7, 8] },
       Event.streamError Errors.InvalidChecksum,
       Event.message { command := "verack", body := [] }] ∧
    pushAll destroyingEnv 1 BitcoinStream.new
        [pingFrame.bytes exampleEnv, verackFrame.bytes exampleEnv] =
      some handlerDestroyedSplitExample ∧
    handlerDestroyedSplitExample.emitted =
      [Event.message { command := "ping", body := [1, 2, 3, 4, 5, 6, 7, 8] },
       Event.streamError Errors.InvalidChecksum] ∧
    handlerDestroyedSplitExample.emitted ≠ handlerDestroyedExample.emitted := by
  refine ⟨fun h m => ?_, fun _ _ => rfl, by decide!, by decide!, by decide!, by decide!,
    by decide!⟩
  simp only [destroyingEnv]
  split_ifs <;> rfl

/-- C17, counterexample. The `message` listener of `pushThenDestroyEnv` pushes a
`verack` frame, which is queued because `busy` is set, and then calls `destroy`,
which empties the queue. The `push` of a `ping` frame on a new stream ends with no
exception caught, `busy` unset and the queue empty, and the only packet that was
passed to `processStream` is the `ping` frame: the chunk queued during the drain
never was. -/
theorem drain_drops_queued_counterexample :
    processLoop pushThenDestroyEnv 1 BitcoinStream.new (pingFrame.bytes exampleEnv) =
      some (pushThenDestroyExample, none) ∧
    drainTrace pushThenDestroyEnv 1 { BitcoinStream.new with busy := true }
        (pingFrame.bytes exampleEnv) =
      some (pushThenDestroyExample, none, [pingFrame.bytes exampleEnv]) ∧
    pushThenDestroyExample.emitted =
      [Event.message { command := "ping", body := [1, 2, 3, 4, 5, 6, 7, 8] },
       Event.streamError Errors.InvalidChecksum] ∧
    pushesAlong pushThenDestroyEnv [] pushThenDestroyExample.emitted =
      [verackFrame.bytes exampleEnv] ∧
    verackFrame.bytes exampleEnv ∉ [pingFrame.bytes exampleEnv] ∧
    pushThenDestroyExample.busy = false ∧ pushThenDestroyExample.queue = [] ∧
    pushThenDestroyExample.destroyed = true := by
  decide!

end BitcoinNode
